import Mathlib

/-! Verification of `src/commons/collections/dictionary.c` of so-commons-library.

A shallow embedding of the chained hash table of `dictionary.c`.

* A `t_hash_element *` is an address (`Nat`); `NULL` is `none`.
* The heap of hash elements is a map from addresses to cells; `malloc`
  returns the address `brk` and advances it, `free` empties the cell, and
  reading or writing an empty cell is undefined behaviour (`Run.fault`).
* The bucket array `self->elements` is a map from indices to element pointers;
  every index the code uses is reduced modulo, or bounded by, the length given
  to `calloc`.
* `void *data` is a `Nat`, `0` being `NULL`.
* A `char *key` points to a character buffer of the caller.  The argument
  `key` of the embedded functions is the list of the bytes that the buffer
  holds, before its terminator, when the call is made: `dictionary_hash` and
  `strlen` read nothing else.  `dictionary_put` stores the pointer, not a copy
  of the string, and `dictionary_destroy_element` frees it: the caller hands
  over one allocated buffer with each put.  The buffers handed over are
  numbered like the cells, the put that allocates the cell `brk` receiving the
  buffer `brk`, and `strings` holds their bytes.  No function of
  `dictionary.c` reads a stored key, so what the caller writes to a buffer
  afterwards changes `strings` only (`caller_writes`).
* The calls of `self->data_destroyer` are recorded, in order, in `destroyed`.
  The memory of the bucket arrays has no counterpart: it is never read
  through a stale pointer.
* Every `while` and `do/while` loop takes a budget of iterations (`fuel`); a
  loop that exhausts it yields `Run.timeout`.  The two `for` loops run over
  `table_index < table_max_size` and are structural.
* `dictionary.h` is not part of the sources: the structures are read off the
  field accesses of `dictionary.c`, the counters are unbounded naturals, and
  `DEFAULT_DICTIONARY_INITIAL_SIZE` is a parameter of `dictionary_create`.
-/

namespace Dictionary

/-! ## The program -/

/-- Result of running a piece of the program: a normal return, an exhausted
loop budget, or undefined behaviour (null or dangling dereference, division by
zero). -/
inductive Run (α : Type) where
  | ok : α → Run α
  | timeout : Run α
  | fault : Run α
deriving DecidableEq, Repr

/-- Sequencing of two program fragments. -/
def Run.bind {α β : Type} (x : Run α) (f : α → Run β) : Run β :=
  match x with
  | .ok a => f a
  | .timeout => .timeout
  | .fault => .fault

/-- The fields of `struct hash_element` that `dictionary.c` uses; `key` is
the address of a character buffer. -/
structure t_hash_element where
  key : Nat
  hashcode : Nat
  data : Nat
  next : Option Nat
deriving DecidableEq, Repr

/-- The fields of `t_dictionary` that `dictionary.c` uses. -/
structure t_dictionary where
  elements : Nat → Option Nat
  table_max_size : Nat
  table_current_size : Nat
  elements_amount : Nat
  data_destroyer : Option Nat

/-- The dictionary record together with the memory it points into: the cells
(`heap`) and the character buffers of the keys (`strings`). -/
structure State where
  self : t_dictionary
  heap : Nat → Option t_hash_element
  brk : Nat
  destroyed : List Nat
  strings : Nat → Option (List Nat)

/-- Embedding of `dictionary_create`; the table is `calloc`ed, so every bucket
is `NULL`. -/
def dictionary_create (DEFAULT_DICTIONARY_INITIAL_SIZE : Nat) (data_destroyer : Option Nat) :
    State :=
  { self :=
      { data_destroyer := data_destroyer
        table_max_size := DEFAULT_DICTIONARY_INITIAL_SIZE
        elements := fun _ => none
        table_current_size := 0
        elements_amount := 0 }
    heap := fun _ => none
    brk := 0
    destroyed := []
    strings := fun _ => none }

/-- One round of the `for` loop of `dictionary_hash` on the byte `c`
(`unsigned int` arithmetic, 32 bits). -/
def hash_round (hash c : Nat) : Nat :=
  let hash := (hash + c % 256) % 4294967296
  let hash := (hash + (hash <<< 10) % 4294967296) % 4294967296
  hash ^^^ (hash >>> 6)

/-- Embedding of `dictionary_hash (key, strlen (key))`. -/
def dictionary_hash (key : List Nat) : Nat :=
  let hash := key.foldl hash_round 0
  let hash := (hash + (hash <<< 3) % 4294967296) % 4294967296
  let hash := hash ^^^ (hash >>> 11)
  (hash + (hash <<< 15) % 4294967296) % 4294967296

/-- The loop `while (element->next != NULL) element = element->next;` of
`dictionary_put` and of `dictionary_resize`. -/
def last_element : Nat → (Nat → Option t_hash_element) → Nat → Run Nat
  | 0, _, _ => .timeout
  | fuel + 1, heap, element =>
    match heap element with
    | none => .fault
    | some e =>
      match e.next with
      | none => .ok element
      | some next => last_element fuel heap next

/-- The assignment `element->next = next`. -/
def set_next (heap : Nat → Option t_hash_element) (element : Nat) (next : Option Nat) :
    Run (Nat → Option t_hash_element) :=
  match heap element with
  | none => .fault
  | some e => .ok (Function.update heap element (some { e with next := next }))

/-- The argument `key` of a call `dictionary_put (self, key, data)`: a pointer
to a character buffer of the caller, here the buffer number `brk`, which holds
the bytes `key` when the call is made. -/
def key_argument (s : State) (key : List Nat) : State :=
  { s with strings := Function.update s.strings s.brk (some key) }

/-- Embedding of `dictionary_create_element`: the new cell is at address
`s.brk`. -/
def dictionary_create_element (s : State) (key : Nat) (key_hash : Nat) (data : Nat) :
    State :=
  { s with
    heap := Function.update s.heap s.brk
      (some { key := key, data := data, hashcode := key_hash, next := none })
    brk := s.brk + 1 }

/-- The `if (new_element == NULL) ... else ...` of `dictionary_resize`: link
`old_element` into bucket `new_index` of `new_table`. -/
def resize_link (fuel : Nat) (s : State) (new_table : Nat → Option Nat) (new_index : Nat)
    (old_element : Nat) : Run (State × (Nat → Option Nat)) :=
  match new_table new_index with
  | none =>
    .ok ({ s with self := { s.self with table_current_size := s.self.table_current_size + 1 } },
      Function.update new_table new_index (some old_element))
  | some new_element =>
    match last_element fuel s.heap new_element with
    | .timeout => .timeout
    | .fault => .fault
    | .ok last =>
      match set_next s.heap last (some old_element) with
      | .timeout => .timeout
      | .fault => .fault
      | .ok heap => .ok ({ s with heap := heap }, new_table)

/-- One pass through the body of the `do/while` of `dictionary_resize`; the
result carries `next_element`. -/
def resize_body (fuel : Nat) (s : State) (new_table : Nat → Option Nat) (new_max_size : Nat)
    (old_element : Nat) : Run (State × (Nat → Option Nat) × Option Nat) :=
  match s.heap old_element with
  | none => .fault
  | some e =>
    if new_max_size = 0 then .fault
    else
      match resize_link fuel s new_table (e.hashcode % new_max_size) old_element with
      | .timeout => .timeout
      | .fault => .fault
      | .ok (s1, new_table1) =>
        match s1.heap old_element with
        | none => .fault
        | some e1 =>
          match set_next s1.heap old_element none with
          | .timeout => .timeout
          | .fault => .fault
          | .ok heap => .ok ({ s1 with heap := heap }, new_table1, e1.next)

/-- The `do ... while (next_element != NULL)` of `dictionary_resize`;
`old_element` is not reassigned by the loop. -/
def resize_do_while :
    Nat → State → (Nat → Option Nat) → Nat → Nat → Run (State × (Nat → Option Nat))
  | 0, _, _, _, _ => .timeout
  | fuel + 1, s, new_table, new_max_size, old_element =>
    match resize_body fuel s new_table new_max_size old_element with
    | .timeout => .timeout
    | .fault => .fault
    | .ok (s1, new_table1, next_element) =>
      match next_element with
      | none => .ok (s1, new_table1)
      | some _ => resize_do_while fuel s1 new_table1 new_max_size old_element

/-- The `for` loop of `dictionary_resize`, with `count` buckets left from
`table_index` on. -/
def resize_for :
    Nat → Nat → State → (Nat → Option Nat) → (Nat → Option Nat) → Nat → Nat →
      Run (State × (Nat → Option Nat))
  | 0, _, s, new_table, _, _, _ => .ok (s, new_table)
  | count + 1, fuel, s, new_table, old_table, new_max_size, table_index =>
    match old_table table_index with
    | none => .fault
    | some old_element =>
      match resize_do_while fuel s new_table new_max_size old_element with
      | .timeout => .timeout
      | .fault => .fault
      | .ok (s1, new_table1) =>
        resize_for count fuel s1 new_table1 old_table new_max_size (table_index + 1)

/-- Embedding of `dictionary_resize`. -/
def dictionary_resize (fuel : Nat) (s : State) (new_max_size : Nat) : Run State :=
  match resize_for s.self.table_max_size fuel
      { s with self := { s.self with table_current_size := 0 } }
      (fun _ => none) s.self.elements new_max_size 0 with
  | .timeout => .timeout
  | .fault => .fault
  | .ok (s1, new_table) =>
    .ok { s1 with self := { s1.self with elements := new_table, table_max_size := new_max_size } }

/-- The statement `self->elements_amount++`. -/
def count_element (s : State) : State :=
  { s with self := { s.self with elements_amount := s.self.elements_amount + 1 } }

/-- The branch `element == NULL` of `dictionary_put`. -/
def put_head (fuel : Nat) (s : State) (index new_element : Nat) : Run State :=
  let s1 : State :=
    { s with
      self :=
        { s.self with
          elements := Function.update s.self.elements index (some new_element)
          table_current_size := s.self.table_current_size + 1 } }
  if s1.self.table_max_size ≤ s1.self.table_current_size then
    dictionary_resize fuel s1 (s1.self.table_max_size * 2)
  else .ok s1

/-- The branch `element != NULL` of `dictionary_put`. -/
def put_chain (fuel : Nat) (s : State) (element new_element : Nat) : Run State :=
  match last_element fuel s.heap element with
  | .timeout => .timeout
  | .fault => .fault
  | .ok last =>
    match set_next s.heap last (some new_element) with
    | .timeout => .timeout
    | .fault => .fault
    | .ok heap => .ok { s with heap := heap }

/-- Embedding of `dictionary_put`. -/
def dictionary_put (fuel : Nat) (s : State) (key : List Nat) (data : Nat) : Run State :=
  if s.self.table_max_size = 0 then .fault
  else
    let key_hash := dictionary_hash key
    let index := key_hash % s.self.table_max_size
    let new_element := s.brk
    let s1 := dictionary_create_element (key_argument s key) s.brk key_hash data
    match
      (match s1.self.elements index with
        | none => put_head fuel s1 index new_element
        | some element => put_chain fuel s1 element new_element) with
    | .timeout => .timeout
    | .fault => .fault
    | .ok s2 => .ok (count_element s2)

/-- The `do ... while ((element = element->next) != NULL)` of
`dictionary_get_element`. -/
def get_element_do_while : Nat → (Nat → Option t_hash_element) → Nat → Nat → Run (Option Nat)
  | 0, _, _, _ => .timeout
  | fuel + 1, heap, element, key_hash =>
    match heap element with
    | none => .fault
    | some e =>
      if e.hashcode = key_hash then .ok (some element)
      else
        match e.next with
        | none => .ok none
        | some next => get_element_do_while fuel heap next key_hash

/-- Embedding of `dictionary_get_element`. -/
def dictionary_get_element (fuel : Nat) (s : State) (key : List Nat) : Run (Option Nat) :=
  if s.self.table_max_size = 0 then .fault
  else
    match s.self.elements (dictionary_hash key % s.self.table_max_size) with
    | none => .ok none
    | some element => get_element_do_while fuel s.heap element (dictionary_hash key)

/-- Embedding of `dictionary_get`; the result `0` is `NULL`. -/
def dictionary_get (fuel : Nat) (s : State) (key : List Nat) : Run Nat :=
  match dictionary_get_element fuel s key with
  | .timeout => .timeout
  | .fault => .fault
  | .ok none => .ok 0
  | .ok (some element) =>
    match s.heap element with
    | none => .fault
    | some e => .ok e.data

/-- Embedding of `dictionary_destroy_element`: call the destroyer on the data
when there is one, then release the character buffer of the key and the
cell. -/
def dictionary_destroy_element (s : State) (element : Nat) : Run State :=
  match s.heap element with
  | none => .fault
  | some e =>
    .ok { s with
      destroyed :=
        match s.self.data_destroyer with
        | none => s.destroyed
        | some _ => s.destroyed ++ [e.data]
      heap := Function.update s.heap element none
      strings := Function.update s.strings e.key none }

/-- The `do ... while (next_element != NULL)` of `dictionary_clean`; `element`
is not reassigned by the loop. -/
def clean_do_while : Nat → State → Nat → Run State
  | 0, _, _ => .timeout
  | fuel + 1, s, element =>
    match s.heap element with
    | none => .fault
    | some e =>
      match dictionary_destroy_element s element with
      | .timeout => .timeout
      | .fault => .fault
      | .ok s1 =>
        match e.next with
        | none => .ok s1
        | some _ => clean_do_while fuel s1 element

/-- The `for` loop of `dictionary_clean`, with `count` buckets left from
`table_index` on. -/
def clean_for : Nat → Nat → State → Nat → Run State
  | 0, _, s, _ => .ok s
  | count + 1, fuel, s, table_index =>
    match s.self.elements table_index with
    | none => clean_for count fuel s (table_index + 1)
    | some element =>
      match clean_do_while fuel s element with
      | .timeout => .timeout
      | .fault => .fault
      | .ok s1 =>
        clean_for count fuel
          { s1 with self := { s1.self with elements := Function.update s1.self.elements table_index none } }
          (table_index + 1)

/-- Embedding of `dictionary_clean`. -/
def dictionary_clean (fuel : Nat) (s : State) : Run State :=
  match clean_for s.self.table_max_size fuel s 0 with
  | .timeout => .timeout
  | .fault => .fault
  | .ok s1 =>
    .ok { s1 with self := { s1.self with table_current_size := 0, elements_amount := 0 } }

/-- Embedding of `dictionary_is_empty`. -/
def dictionary_is_empty (s : State) : Bool :=
  s.self.elements_amount == 0

/-- Embedding of `dictionary_size`. -/
def dictionary_size (s : State) : Nat :=
  s.self.elements_amount

/-- Embedding of `dictionary_destroy`: `dictionary_clean`, after which the
table and the record are released (the result is the memory left behind). -/
def dictionary_destroy (fuel : Nat) (s : State) : Run State :=
  dictionary_clean fuel s

/-! ## Vocabulary of the specification and of the proofs -/

/-- The addresses visited when following `next` from the pointer `p` are
exactly `l`, and the last of them has `next == NULL`. -/
def IsChain (heap : Nat → Option t_hash_element) : Option Nat → List Nat → Prop
  | p, [] => p = none
  | p, a :: l => p = some a ∧ ∃ e, heap a = some e ∧ IsChain heap e.next l

/-- The first address of `l` whose cell has the hash `key_hash`. -/
def chain_find (heap : Nat → Option t_hash_element) (key_hash : Nat) (l : List Nat) : Option Nat :=
  l.find? fun a =>
    match heap a with
    | some e => e.hashcode == key_hash
    | none => false

/-- Number of buckets, among the first `M`, whose head is not `NULL`. -/
def occupied_buckets (table : Nat → Option Nat) (M : Nat) : Nat :=
  (List.range M).countP fun i => (table i).isSome

/-- Total length of the chains `B 0`, ..., `B (M - 1)`. -/
def stored (B : Nat → List Nat) (M : Nat) : Nat :=
  ((List.range M).map fun i => (B i).length).sum

/-- The program fragment `run`, a function of its loop budget, returns `r`
whenever the budget is large enough and never yields anything else than `r`
or a timeout. -/
def Returns {α : Type} (run : Nat → Run α) (r : α) : Prop :=
  (∀ fuel, run fuel = .timeout ∨ run fuel = .ok r) ∧ ∃ n, ∀ fuel, n ≤ fuel → run fuel = .ok r

/-- The program fragment `run` exhausts every loop budget. -/
def Diverges {α : Type} (run : Nat → Run α) : Prop :=
  ∀ fuel, run fuel = .timeout

/-- The bucket array of `s` is made of the chains `B 0`, ..., `B (M - 1)` of
addresses, each cell sits in the bucket of its hash, cells from `brk` on are
unallocated, and `table_current_size` counts the non-empty buckets. -/
structure Represents (s : State) (B : Nat → List Nat) : Prop where
  pos : 0 < s.self.table_max_size
  chain : ∀ i, i < s.self.table_max_size → IsChain s.heap (s.self.elements i) (B i)
  place : ∀ i, i < s.self.table_max_size → ∀ a ∈ B i,
    ∃ e, s.heap a = some e ∧ e.hashcode % s.self.table_max_size = i
  fresh : ∀ a, s.brk ≤ a → s.heap a = none
  occupied : s.self.table_current_size = occupied_buckets s.self.elements s.self.table_max_size

/-- The cell that `dictionary_create_element` writes. -/
def new_cell (p : Nat) (key : List Nat) (data : Nat) : t_hash_element :=
  { key := p, data := data, hashcode := dictionary_hash key, next := none }

/-- State after `dictionary_put` has linked the new cell behind the cell `t`,
whose contents were `et`. -/
def put_chain_state (s : State) (key : List Nat) (data t : Nat) (et : t_hash_element) : State :=
  { s with
    self := { s.self with elements_amount := s.self.elements_amount + 1 }
    heap := Function.update (Function.update s.heap s.brk (some (new_cell s.brk key data))) t
      (some { et with next := some s.brk })
    brk := s.brk + 1
    strings := Function.update s.strings s.brk (some key) }

/-- State after `dictionary_put` has made the new cell the head of the empty
bucket `index`, before any resize and before `elements_amount++`. -/
def put_head_state (s : State) (key : List Nat) (data index : Nat) : State :=
  { s with
    self :=
      { s.self with
        elements := Function.update s.self.elements index (some s.brk)
        table_current_size := s.self.table_current_size + 1 }
    heap := Function.update s.heap s.brk (some (new_cell s.brk key data))
    brk := s.brk + 1
    strings := Function.update s.strings s.brk (some key) }

/-- The fields of a cell other than `next`. -/
def payload (e : t_hash_element) : Nat × Nat × Nat :=
  (e.key, e.hashcode, e.data)

/-- The state `s` with the heap and `table_current_size` replaced, the only
parts of it that the loops of `dictionary_resize` write. -/
def State.relink (s : State) (heap : Nat → Option t_hash_element) (count : Nat) : State :=
  { s with heap := heap, self := { s.self with table_current_size := count } }

/-- Invariant of the `for` loop of `dictionary_resize` once the buckets below
`t` of the old table, whose chains are `B`, have been moved: `s0` is the state
when the loop was entered, `s` the current state, `nt` the new table and `NB`
its chains. -/
structure ResizeInv (s0 : State) (B : Nat → List Nat) (M2 t : Nat) (s : State)
    (nt : Nat → Option Nat) (NB : Nat → List Nat) : Prop where
  chain : ∀ j, j < M2 → IsChain s.heap (nt j) (NB j)
  place : ∀ j, j < M2 → ∀ x ∈ NB j, ∃ ex, s.heap x = some ex ∧ ex.hashcode % M2 = j
  moved : ∀ j, j < M2 → ∀ x ∈ NB j, ∃ i, i < t ∧ x ∈ B i
  kept : ∀ i, i < t → ∀ x ∈ B i, ∃ ex, s.heap x = some ex ∧ x ∈ NB (ex.hashcode % M2)
  cells : ∀ x, (s.heap x).map payload = (s0.heap x).map payload
  rest : ∀ i, t ≤ i → i < s0.self.table_max_size → ∀ x ∈ B i, s.heap x = s0.heap x
  occupied : s.self.table_current_size = occupied_buckets nt M2
  total : stored NB M2 = t
  frame : s = s0.relink s.heap s.self.table_current_size

/-- The old table, read in the state `s0`, is made of the pairwise disjoint
chains `B`. -/
structure OldTable (s0 : State) (B : Nat → List Nat) : Prop where
  chain : ∀ i, i < s0.self.table_max_size → IsChain s0.heap (s0.self.elements i) (B i)
  disjoint : ∀ i i1, i < s0.self.table_max_size → i1 < s0.self.table_max_size →
    ∀ x, x ∈ B i → x ∈ B i1 → i = i1

/-- What `dictionary_resize` leaves behind when it returns: `s` is the state at
the call, with chains `B`; `s1` the state at the return, with chains `NB`. -/
structure Resized (s : State) (B : Nat → List Nat) (M2 : Nat) (s1 : State)
    (NB : Nat → List Nat) : Prop where
  size : s1.self.table_max_size = M2
  chain : ∀ j, j < M2 → IsChain s1.heap (s1.self.elements j) (NB j)
  place : ∀ j, j < M2 → ∀ x ∈ NB j, ∃ ex, s1.heap x = some ex ∧ ex.hashcode % M2 = j
  moved : ∀ j, j < M2 → ∀ x ∈ NB j, ∃ i, i < s.self.table_max_size ∧ x ∈ B i
  kept : ∀ i, i < s.self.table_max_size → ∀ x ∈ B i,
    ∃ ex, s1.heap x = some ex ∧ x ∈ NB (ex.hashcode % M2)
  cells : ∀ x, (s1.heap x).map payload = (s.heap x).map payload
  occupied : s1.self.table_current_size = occupied_buckets s1.self.elements M2
  total : stored NB M2 = s.self.table_max_size
  brk : s1.brk = s.brk
  destroyed : s1.destroyed = s.destroyed
  amount : s1.self.elements_amount = s.self.elements_amount
  destroyer : s1.self.data_destroyer = s.self.data_destroyer
  strings : s1.strings = s.strings

/-- The representation invariant together with `elements_amount` being the
number of stored cells. -/
def Inv (s : State) (B : Nat → List Nat) : Prop :=
  Represents s B ∧ s.self.elements_amount = stored B s.self.table_max_size

/-- What a returning `dictionary_put` guarantees besides the invariant. -/
structure PutPost (s : State) (s1 : State) (key : List Nat) : Prop where
  amount : s1.self.elements_amount = s.self.elements_amount + 1
  size : s1.self.table_max_size = s.self.table_max_size ∨
    s1.self.table_max_size = s.self.table_max_size * 2
  grows : s1.self.table_max_size = s.self.table_max_size * 2 ↔
    (s.self.elements (dictionary_hash key % s.self.table_max_size) = none ∧
      s.self.table_max_size ≤ s.self.table_current_size + 1)
  destroyer : s1.self.data_destroyer = s.self.data_destroyer
  destroyed : s1.destroyed = s.destroyed
  brk : s1.brk = s.brk + 1
  below : s.self.table_current_size < s.self.table_max_size →
    s1.self.table_current_size < s1.self.table_max_size
  strings : s1.strings = Function.update s.strings s.brk (some key)

/-- Where the cells are after a returning `dictionary_put`: `B` are the chains
before the call, `B1` the chains after it, and the new cell is at the address
`s.brk`. -/
structure PutCells (s : State) (B : Nat → List Nat) (s1 : State) (B1 : Nat → List Nat)
    (key : List Nat) (data : Nat) : Prop where
  newcell : ∃ e, s1.heap s.brk = some e ∧ payload e = payload (new_cell s.brk key data)
  placed : s.brk ∈ B1 (dictionary_hash key % s1.self.table_max_size)
  cells : ∀ x, x ≠ s.brk → (s1.heap x).map payload = (s.heap x).map payload
  origin : ∀ j, j < s1.self.table_max_size → ∀ x ∈ B1 j,
    x = s.brk ∨ ∃ i, i < s.self.table_max_size ∧ x ∈ B i
  kept : ∀ i, i < s.self.table_max_size → ∀ x ∈ B i,
    ∃ e, s1.heap x = some e ∧ x ∈ B1 (e.hashcode % s1.self.table_max_size)
  append : s1.self.table_max_size = s.self.table_max_size →
    B1 = Function.update B (dictionary_hash key % s.self.table_max_size)
      (B (dictionary_hash key % s.self.table_max_size) ++ [s.brk])

/-- The data of the heads of the buckets `t`, ..., `t + count - 1`, in the
order of the buckets. -/
def heads_data (heap : Nat → Option t_hash_element) (elements : Nat → Option Nat)
    (t count : Nat) : List Nat :=
  (List.range' t count).filterMap fun i =>
    match elements i with
    | none => none
    | some a => (heap a).map fun e => e.data

/-- The arguments of the calls of the destroyer `dd` on the data `l`. -/
def destroyer_calls (dd : Option Nat) (l : List Nat) : List Nat :=
  match dd with
  | none => []
  | some _ => l

/-- What the `for` loop of `dictionary_clean` guarantees when it returns,
having started from bucket `t` in the state `s`. -/
structure Cleaned (s : State) (t count : Nat) (s1 : State) : Prop where
  size : s1.self.table_max_size = s.self.table_max_size
  log : s1.destroyed = s.destroyed ++
    destroyer_calls s.self.data_destroyer (heads_data s.heap s.self.elements t count)
  destroyer : s1.self.data_destroyer = s.self.data_destroyer
  brk : s1.brk = s.brk
  freed : ∀ a, s.heap a = none → s1.heap a = none
  emptied : ∀ i, t ≤ i → i < t + count → s1.self.elements i = none
  below : ∀ i, i < t → s1.self.elements i = s.self.elements i

/-- The states of a dictionary obtained from `dictionary_create` by calls of
`dictionary_put` and `dictionary_clean` that return. -/
inductive Reachable (D : Nat) (dd : Option Nat) : State → Prop where
  | create : Reachable D dd (dictionary_create D dd)
  | put {s s1 : State} (fuel : Nat) (key : List Nat) (data : Nat) :
      Reachable D dd s → dictionary_put fuel s key data = .ok s1 → Reachable D dd s1
  | clean {s s1 : State} (fuel : Nat) :
      Reachable D dd s → dictionary_clean fuel s = .ok s1 → Reachable D dd s1

/-- The cells met when following `next` from `p`, at most `n` of them. -/
def chain_cells : Nat → (Nat → Option t_hash_element) → Option Nat → List t_hash_element
  | 0, _, _ => []
  | _ + 1, _, none => []
  | n + 1, heap, some a =>
    match heap a with
    | none => []
    | some e => e :: chain_cells n heap e.next

/-- The entries stored in the dictionary: the cells of the chains of all the
buckets, bucket after bucket (a chain cannot have more than `brk` cells). -/
def dictionary_entries (s : State) : List t_hash_element :=
  (List.range s.self.table_max_size).flatMap fun i =>
    chain_cells s.brk s.heap (s.self.elements i)

/-- The data of the first cell of `l` whose hash is `key_hash`, or `NULL`. -/
def chain_lookup (heap : Nat → Option t_hash_element) (key_hash : Nat) (l : List Nat) : Nat :=
  match chain_find heap key_hash l with
  | none => 0
  | some a =>
    match heap a with
    | none => 0
    | some e => e.data

/-- A sequence of calls of `dictionary_put`, one per `(key, data)` of the list. -/
def dictionary_puts (fuel : Nat) (s : State) : List (List Nat × Nat) → Run State
  | [] => .ok s
  | (key, data) :: rest =>
    match dictionary_put fuel s key data with
    | .timeout => .timeout
    | .fault => .fault
    | .ok s1 => dictionary_puts fuel s1 rest

/-- The state that a returning program fragment yields, `s` otherwise. -/
def Run.state (s : State) : Run State → State
  | .ok s1 => s1
  | .timeout => s
  | .fault => s

/-- Number of the puts of a run that bring `table_current_size` to
`table_max_size`: those whose bucket is empty when all the other buckets are
occupied. -/
def dictionary_puts_triggers (fuel : Nat) (s : State) : List (List Nat × Nat) → Nat
  | [] => 0
  | (key, data) :: rest =>
    match dictionary_put fuel s key data with
    | .timeout => 0
    | .fault => 0
    | .ok s1 =>
      (if s.self.elements (dictionary_hash key % s.self.table_max_size) = none ∧
          s.self.table_max_size ≤ s.self.table_current_size + 1 then 1 else 0) +
        dictionary_puts_triggers fuel s1 rest

/-- The entries of the list `L` of keys and values are stored, one cell each,
and no other hash is stored: `B` are the chains of `s`. -/
structure Stores (s : State) (B : Nat → List Nat) (L : List (List Nat × Nat)) : Prop where
  closed : ∀ i, i < s.self.table_max_size → ∀ a ∈ B i, ∀ e, s.heap a = some e →
    ∃ kd ∈ L, e.hashcode = dictionary_hash kd.1
  found : ∀ kd ∈ L, ∃ i a e, i < s.self.table_max_size ∧ a ∈ B i ∧ s.heap a = some e ∧
    e.hashcode = dictionary_hash kd.1 ∧ e.data = kd.2
  unique : ∀ i i1 a a1 e e1, i < s.self.table_max_size → i1 < s.self.table_max_size →
    a ∈ B i → a1 ∈ B i1 → s.heap a = some e → s.heap a1 = some e1 →
    e.hashcode = e1.hashcode → a = a1

/-- One round of the one-at-a-time hash as the specification words it, on
32-bit words: `h += byte; h += h << 10; h ^= h >> 6`. -/
def one_at_a_time_round (h : BitVec 32) (byte : Nat) : BitVec 32 :=
  let h := h + BitVec.ofNat 32 byte
  let h := h + (h <<< 10)
  h ^^^ (h >>> 6)

/-- The one-at-a-time hash as the specification words it: the rounds over the
bytes from `h = 0`, then `h += h << 3; h ^= h >> 11; h += h << 15`, every
operation on 32-bit words. -/
def one_at_a_time (key : List Nat) : BitVec 32 :=
  let h := key.foldl one_at_a_time_round 0
  let h := h + (h <<< 3)
  let h := h ^^^ (h >>> 11)
  h + (h <<< 15)

/-- Every cell of the chains `B` carries the hash of its own key. -/
def Keyed (s : State) (B : Nat → List Nat) : Prop :=
  ∀ i, i < s.self.table_max_size → ∀ a ∈ B i,
    ∃ e bytes, s.heap a = some e ∧ e.key < s.brk ∧ s.strings e.key = some bytes ∧
      e.hashcode = dictionary_hash bytes

/-- The dictionary `s` when the character buffers of the caller hold `m`: a
write of the caller to one of its buffers changes no field and no cell of the
dictionary, which holds the addresses of the buffers only. -/
def caller_writes (s : State) (m : Nat → Option (List Nat)) : State :=
  { s with strings := m }

/-- The cells of the chain of bucket `i`, from the head on. -/
def bucket_chain (s : State) (i : Nat) : List t_hash_element :=
  chain_cells s.brk s.heap (s.self.elements i)

/-- The result of a program fragment, transformed by `f` when it returns. -/
def Run.map {α β : Type} (f : α → β) : Run α → Run β
  | .ok a => .ok (f a)
  | .timeout => .timeout
  | .fault => .fault

/-- Re-homing of one entry in the resize of the specification:
`new_index = entry.key_hash mod new_capacity`, and the entry becomes the head
of the new bucket, which makes one more occupied bucket, or is appended to the
tail of the chain of the new bucket.  The successor of the entry in its old
chain is read before the entry is unlinked; the result carries it. -/
def resize_spec_entry (fuel : Nat) (s : State) (new_table : Nat → Option Nat)
    (new_capacity : Nat) (entry : Nat) : Run (State × (Nat → Option Nat) × Option Nat) :=
  match s.heap entry with
  | none => .fault
  | some e =>
    if new_capacity = 0 then .fault
    else
      match
        (match new_table (e.hashcode % new_capacity) with
          | none =>
            Run.ok
              ({ s with
                  self := { s.self with table_current_size := s.self.table_current_size + 1 } },
                Function.update new_table (e.hashcode % new_capacity) (some entry))
          | some head =>
            match last_element fuel s.heap head with
            | .timeout => .timeout
            | .fault => .fault
            | .ok tail =>
              match set_next s.heap tail (some entry) with
              | .timeout => .timeout
              | .fault => .fault
              | .ok heap => .ok ({ s with heap := heap }, new_table)) with
      | .timeout => .timeout
      | .fault => .fault
      | .ok (s1, new_table1) =>
        match s1.heap entry with
        | none => .fault
        | some e1 =>
          match set_next s1.heap entry none with
          | .timeout => .timeout
          | .fault => .fault
          | .ok heap => .ok ({ s1 with heap := heap }, new_table1, e1.next)

/-- The walk of one old chain in the resize of the specification: every entry
of the chain, from `entry` on, is re-homed, one after the other. -/
def resize_spec_chain :
    Nat → State → (Nat → Option Nat) → Nat → Option Nat → Run (State × (Nat → Option Nat))
  | _, s, new_table, _, none => .ok (s, new_table)
  | 0, _, _, _, some _ => .timeout
  | fuel + 1, s, new_table, new_capacity, some entry =>
    match resize_spec_entry fuel s new_table new_capacity entry with
    | .timeout => .timeout
    | .fault => .fault
    | .ok (s1, new_table1, next) => resize_spec_chain fuel s1 new_table1 new_capacity next

/-- The resize of the specification over the old buckets `table_index`, ...,
`table_index + count - 1`: the chain of each of them is walked. -/
def resize_spec_for :
    Nat → Nat → State → (Nat → Option Nat) → (Nat → Option Nat) → Nat → Nat →
      Run (State × (Nat → Option Nat))
  | 0, _, s, new_table, _, _, _ => .ok (s, new_table)
  | count + 1, fuel, s, new_table, old_table, new_capacity, table_index =>
    match resize_spec_chain fuel s new_table new_capacity (old_table table_index) with
    | .timeout => .timeout
    | .fault => .fault
    | .ok (s1, new_table1) =>
      resize_spec_for count fuel s1 new_table1 old_table new_capacity (table_index + 1)

/-- The resize as the specification words it: a new bucket array of
`new_capacity` buckets, every entry of every chain of every old bucket
re-homed, `occupied_buckets` recomputed from zero during the pass, and the old
bucket array replaced by the new one. -/
def dictionary_resize_spec (fuel : Nat) (s : State) (new_capacity : Nat) : Run State :=
  match resize_spec_for s.self.table_max_size fuel
      { s with self := { s.self with table_current_size := 0 } }
      (fun _ => none) s.self.elements new_capacity 0 with
  | .timeout => .timeout
  | .fault => .fault
  | .ok (s1, new_table) =>
    .ok { s1 with self := { s1.self with elements := new_table, table_max_size := new_capacity } }

/-- The put as the specification words it: the new entry becomes the head of
an empty bucket, and `occupied_buckets` increments, or it is appended to the
chain of the bucket; `count` increments; after the placement, whichever it
was, `occupied_buckets >= capacity` triggers the resize of the specification
to the double of the capacity.  The entry holds the key in the buffer `brk`
of `strings`. -/
def dictionary_put_spec (fuel : Nat) (s : State) (key : List Nat) (data : Nat) : Run State :=
  if s.self.table_max_size = 0 then .fault
  else
    let key_hash := dictionary_hash key
    let index := key_hash % s.self.table_max_size
    let new_element := s.brk
    let s1 := dictionary_create_element (key_argument s key) s.brk key_hash data
    match
      (match s1.self.elements index with
        | none =>
          Run.ok { s1 with
            self :=
              { s1.self with
                elements := Function.update s1.self.elements index (some new_element)
                table_current_size := s1.self.table_current_size + 1 } }
        | some element => put_chain fuel s1 element new_element) with
    | .timeout => .timeout
    | .fault => .fault
    | .ok s2 =>
      let s3 := count_element s2
      if s3.self.table_max_size ≤ s3.self.table_current_size then
        dictionary_resize_spec fuel s3 (s3.self.table_max_size * 2)
      else .ok s3

/-- The states of a dictionary obtained from `dictionary_create` by calls of
`dictionary_put` and `dictionary_clean` that return and by writes of the caller
to its character buffers in between. -/
inductive Reached (D : Nat) (dd : Option Nat) : State → Prop where
  | create : Reached D dd (dictionary_create D dd)
  | put {s s1 : State} (fuel : Nat) (key : List Nat) (data : Nat) :
      Reached D dd s → dictionary_put fuel s key data = .ok s1 → Reached D dd s1
  | clean {s s1 : State} (fuel : Nat) :
      Reached D dd s → dictionary_clean fuel s = .ok s1 → Reached D dd s1
  | write {s : State} (m : Nat → Option (List Nat)) :
      Reached D dd s → Reached D dd (caller_writes s m)

/-- Twenty puts: the key `"a"` twice, then one key for each of seventeen other
buckets of a table of 20 (`"b" "c" "e" "f" "g" "k" "l" "m" "n" "o" "p" "q" "r"
"s" "v" "w" "5" "6"`).  Only bucket 0 stays empty. -/
def letters20 : List (List Nat × Nat) :=
  [([97], 1), ([97], 2), ([98], 3), ([99], 4), ([101], 5), ([102], 6), ([103], 7), ([107], 8),
    ([108], 9), ([109], 10), ([110], 11), ([111], 12), ([112], 13), ([113], 14), ([114], 15),
    ([115], 16), ([118], 17), ([119], 18), ([53], 19), ([54], 20)]

/-- The dictionary after `letters20` on a new dictionary without destroyer. -/
def full19 : State :=
  Run.state (dictionary_create 20 none) (dictionary_puts 1 (dictionary_create 20 none) letters20)

/-- Two puts of the key `"a"` on a new dictionary without destroyer. -/
def twice_a : State :=
  Run.state (dictionary_create 20 none)
    (dictionary_puts 1 (dictionary_create 20 none) [([97], 1), ([97], 2)])

/-- The puts `("a", 1)`, `("b", 2)`, `("a", 3)` on a new dictionary without
destroyer. -/
def a_b_a : State :=
  Run.state (dictionary_create 20 none)
    (dictionary_puts 1 (dictionary_create 20 none) [([97], 1), ([98], 2), ([97], 3)])

/-- The puts `("a", 1)`, `("h", 2)`, two keys of bucket 2, on a new dictionary
whose destroyer is the function number 1. -/
def a_h : State :=
  Run.state (dictionary_create 20 (some 1))
    (dictionary_puts 1 (dictionary_create 20 (some 1)) [([97], 1), ([104], 2)])

/-- The puts `("a", 1)`, `("a", 2)` on a new dictionary of initial size 2. -/
def small_a_a : State :=
  Run.state (dictionary_create 2 none)
    (dictionary_puts 1 (dictionary_create 2 none) [([97], 1), ([97], 2)])

/-- Forty puts of keys with pairwise distinct hashes: one key for each bucket
of a table of 20 (`"a" "b" "c" "e" "f" "g" "k" "l" "m" "n" "o" "p" "q" "r" "s"
"v" "w" "5" "6" "?"`), the last of which resizes the table to 40; then `"h"`,
which joins `"a"` in bucket 2 of the table of 40; then one key for each empty
bucket of the table of 40 but bucket 37 (`"P" "I" "z" "ag" "M" "0" "K" "d"
"al" "j" "4" "ao" "C" "ae" "x" "2" "i" "u" "7"`). -/
def distinct40 : List (List Nat × Nat) :=
  [([97], 1), ([98], 2), ([99], 3), ([101], 4), ([102], 5), ([103], 6), ([107], 7), ([108], 8),
    ([109], 9), ([110], 10), ([111], 11), ([112], 12), ([113], 13), ([114], 14), ([115], 15),
    ([118], 16), ([119], 17), ([53], 18), ([54], 19), ([63], 20), ([104], 21), ([80], 22),
    ([73], 23), ([122], 24), ([97, 103], 25), ([77], 26), ([48], 27), ([75], 28), ([100], 29),
    ([97, 108], 30), ([106], 31), ([52], 32), ([97, 111], 33), ([67], 34), ([97, 101], 35),
    ([120], 36), ([50], 37), ([105], 38), ([117], 39), ([55], 40)]

/-- The dictionary after `distinct40` on a new dictionary without destroyer. -/
def grown39 : State :=
  Run.state (dictionary_create 20 none) (dictionary_puts 1 (dictionary_create 20 none) distinct40)

/-- A table of one bucket right after `dictionary_put` has made the cell of
`("a", 1)` its head: the state in which the put calls `dictionary_resize`. -/
def lone_a : State :=
  put_head_state (dictionary_create 1 none) [97] 1 0

/-- The dictionary after the first nineteen puts of `distinct40`: one cell in
each bucket of the table of 20 but the bucket of `"?"`. -/
def spread19 : State :=
  Run.state (dictionary_create 20 none)
    (dictionary_puts 1 (dictionary_create 20 none) (distinct40.take 19))

theorem IsChain.eq_nil {heap : Nat → Option t_hash_element} {l : List Nat}
    (h : IsChain heap none l) : l = [] := by
  cases l with
  | nil => rfl
  | cons a l => cases h.1

theorem IsChain.congr {heap heap1 : Nat → Option t_hash_element} {p : Option Nat} {l : List Nat}
    (h : IsChain heap p l) (hc : ∀ a ∈ l, heap1 a = heap a) : IsChain heap1 p l := by
  induction l generalizing p with
  | nil => exact h
  | cons a l ih =>
    obtain ⟨hp, e, he, hl⟩ := h
    refine ⟨hp, e, ?_, ih hl fun b hb => hc b (List.mem_cons_of_mem _ hb)⟩
    rw [hc a (List.mem_cons_self _ _), he]

theorem IsChain.unique {heap : Nat → Option t_hash_element} {p : Option Nat} {l1 l2 : List Nat}
    (h1 : IsChain heap p l1) (h2 : IsChain heap p l2) : l1 = l2 := by
  induction l1 generalizing p l2 with
  | nil =>
    cases l2 with
    | nil => rfl
    | cons b l2 =>
      have hp : p = none := h1
      obtain ⟨hb, -⟩ := h2
      rw [hp] at hb
      cases hb
  | cons a l1 ih =>
    obtain ⟨hp, e, he, hl⟩ := h1
    cases l2 with
    | nil =>
      have hq : p = none := h2
      rw [hq] at hp
      cases hp
    | cons b l2 =>
      obtain ⟨hb, e2, he2, hl2⟩ := h2
      rw [hp] at hb
      cases hb
      rw [he] at he2
      cases he2
      rw [ih hl hl2]

theorem IsChain.suffix {heap : Nat → Option t_hash_element} {p : Option Nat} {l : List Nat}
    {a : Nat} (h : IsChain heap p l) (ha : a ∈ l) :
    ∃ l2, IsChain heap (some a) (a :: l2) ∧ l2.length < l.length := by
  induction l generalizing p with
  | nil => cases ha
  | cons b l ih =>
    obtain ⟨hp, e, he, hl⟩ := h
    rcases List.mem_cons.mp ha with hab | hal
    · subst hab
      exact ⟨l, ⟨rfl, e, he, hl⟩, Nat.lt_succ_self _⟩
    · obtain ⟨l2, h2, hlt⟩ := ih hl hal
      exact ⟨l2, h2, Nat.lt_succ_of_lt hlt⟩

theorem IsChain.nodup {heap : Nat → Option t_hash_element} {p : Option Nat} {l : List Nat}
    (h : IsChain heap p l) : l.Nodup := by
  induction l generalizing p with
  | nil => exact List.nodup_nil
  | cons a l ih =>
    have h0 := h
    obtain ⟨hp, e, he, hl⟩ := h
    refine List.nodup_cons.mpr ⟨fun hal => ?_, ih hl⟩
    obtain ⟨l2, h2, hlt⟩ := hl.suffix hal
    have h3 : IsChain heap (some a) (a :: l) := ⟨rfl, e, he, hl⟩
    have := IsChain.unique h2 h3
    simp only [List.cons.injEq, true_and] at this
    rw [this] at hlt
    exact Nat.lt_irrefl _ hlt

/-- The last cell of a chain has `next == NULL`. -/
theorem IsChain.last_next {heap : Nat → Option t_hash_element} {p : Option Nat} {l : List Nat}
    {t : Nat} (h : IsChain heap p (l ++ [t])) : ∃ e, heap t = some e ∧ e.next = none := by
  induction l generalizing p with
  | nil =>
    obtain ⟨-, e, he, hl⟩ := h
    exact ⟨e, he, hl⟩
  | cons a l ih =>
    obtain ⟨-, e, -, hl⟩ := h
    exact ih hl

/-- Linking a cell `q` with `next == NULL` after the last cell `t` of a chain
appends it to the chain. -/
theorem IsChain.snoc {heap heap1 : Nat → Option t_hash_element} {p : Option Nat} {l : List Nat}
    {t q : Nat} {c d : t_hash_element} (h : IsChain heap p (l ++ [t]))
    (hl : ∀ a ∈ l, heap1 a = heap a)
    (ht1 : heap1 t = some { c with next := some q }) (hq : heap1 q = some d)
    (hqn : d.next = none) : IsChain heap1 p (l ++ [t] ++ [q]) := by
  induction l generalizing p with
  | nil =>
    obtain ⟨hp, -⟩ := h
    exact ⟨hp, _, ht1, rfl, d, hq, hqn⟩
  | cons a l ih =>
    obtain ⟨hp, e, he, hl2⟩ := h
    refine ⟨hp, e, ?_, ih hl2 fun b hb => hl b (List.mem_cons_of_mem _ hb)⟩
    rw [hl a (List.mem_cons_self _ _), he]

theorem last_element_chain {heap : Nat → Option t_hash_element} {a t : Nat} {l : List Nat}
    (h : IsChain heap (some a) (l ++ [t])) (fuel : Nat) :
    (last_element fuel heap a = .timeout ∨ last_element fuel heap a = .ok t) ∧
      (l.length < fuel → last_element fuel heap a = .ok t) := by
  induction l generalizing a fuel with
  | nil =>
    obtain ⟨hp, e, he, hl⟩ := h
    cases hp
    have hn : e.next = none := hl
    cases fuel with
    | zero => simp [last_element]
    | succ n => simp [last_element, he, hn]
  | cons b l ih =>
    obtain ⟨hp, e, he, hl⟩ := h
    cases hp
    cases fuel with
    | zero => simp [last_element]
    | succ n =>
      cases hn : e.next with
      | none =>
        rw [hn] at hl
        have := hl.eq_nil
        simp at this
      | some c =>
        rw [hn] at hl
        have := ih hl n
        simpa [last_element, he, hn] using this

theorem get_element_do_while_chain {heap : Nat → Option t_hash_element} {a : Nat} {l : List Nat}
    (key_hash : Nat) (h : IsChain heap (some a) l) (fuel : Nat) :
    (get_element_do_while fuel heap a key_hash = .timeout ∨
        get_element_do_while fuel heap a key_hash = .ok (chain_find heap key_hash l)) ∧
      (l.length ≤ fuel →
        get_element_do_while fuel heap a key_hash = .ok (chain_find heap key_hash l)) := by
  induction l generalizing a fuel with
  | nil => cases h
  | cons b l ih =>
    obtain ⟨hp, e, he, hl⟩ := h
    cases hp
    cases fuel with
    | zero => simp [get_element_do_while]
    | succ n =>
      by_cases hk : e.hashcode = key_hash
      · simp [get_element_do_while, chain_find, he, hk]
      · cases hn : e.next with
        | none =>
          rw [hn] at hl
          cases l with
          | nil => simp [get_element_do_while, chain_find, he, hk, hn]
          | cons c l => cases hl.eq_nil
        | some c =>
          rw [hn] at hl
          have := ih hl n
          simpa [get_element_do_while, chain_find, he, hk, hn] using this

/-! ## Counting buckets and entries -/

theorem sum_range_congr (f g : Nat → Nat) (M : Nat) (h : ∀ i, i < M → g i = f i) :
    ((List.range M).map g).sum = ((List.range M).map f).sum := by
  congr 1
  exact List.map_congr_left fun i hi => h i (List.mem_range.mp hi)

theorem sum_range_except (f g : Nat → Nat) (idx M : Nat) (h : ∀ i, i ≠ idx → g i = f i)
    (hidx : idx < M) :
    ((List.range M).map g).sum + f idx = ((List.range M).map f).sum + g idx := by
  induction M with
  | zero => omega
  | succ M ih =>
    simp only [List.range_succ, List.map_append, List.sum_append, List.map_cons, List.map_nil,
      List.sum_cons, List.sum_nil, Nat.add_zero]
    rcases Nat.lt_succ_iff_lt_or_eq.mp hidx with hlt | heq
    · have := ih hlt
      have hM := h M (by omega)
      omega
    · subst heq
      have := sum_range_congr f g idx fun i hi => h i (by omega)
      omega

theorem occupied_buckets_eq_sum (table : Nat → Option Nat) (M : Nat) :
    occupied_buckets table M =
      ((List.range M).map fun i => if (table i).isSome then 1 else 0).sum := by
  unfold occupied_buckets
  induction M with
  | zero => rfl
  | succ M ih =>
    simp only [List.range_succ, List.countP_append, List.map_append, List.sum_append, ih]
    by_cases h : (table M).isSome <;> simp [h]

theorem occupied_buckets_le (table : Nat → Option Nat) (M : Nat) :
    occupied_buckets table M ≤ M := by
  unfold occupied_buckets
  simpa using List.countP_le_length (fun i => (table i).isSome) (l := List.range M)

theorem occupied_buckets_full (table : Nat → Option Nat) (M : Nat)
    (h : M ≤ occupied_buckets table M) (i : Nat) (hi : i < M) : (table i).isSome := by
  have h1 : occupied_buckets table M = (List.range M).length := by
    have := occupied_buckets_le table M
    simp only [List.length_range]
    omega
  unfold occupied_buckets at h1
  exact List.countP_eq_length.mp h1 i (List.mem_range.mpr hi)

theorem occupied_buckets_congr (table : Nat → Option Nat) {table1 : Nat → Option Nat} {M : Nat}
    (h : ∀ i, i < M → table1 i = table i) :
    occupied_buckets table1 M = occupied_buckets table M := by
  rw [occupied_buckets_eq_sum, occupied_buckets_eq_sum]
  exact sum_range_congr _ _ M fun i hi => by rw [h i hi]

theorem occupied_buckets_update {table : Nat → Option Nat} {M idx : Nat} (p : Nat)
    (hidx : idx < M) (hn : table idx = none) :
    occupied_buckets (Function.update table idx (some p)) M = occupied_buckets table M + 1 := by
  rw [occupied_buckets_eq_sum, occupied_buckets_eq_sum]
  have := sum_range_except (fun i => if (table i).isSome then 1 else 0)
    (fun i => if (Function.update table idx (some p) i).isSome then 1 else 0) idx M
    (fun i hi => by simp [Function.update_noteq hi]) hidx
  simp [hn] at this
  simpa using this

theorem occupied_buckets_none (M : Nat) : occupied_buckets (fun _ => none) M = 0 := by
  rw [occupied_buckets_eq_sum]
  simp

theorem sum_range_le (f g : Nat → Nat) (M : Nat) (h : ∀ i, i < M → f i ≤ g i) :
    ((List.range M).map f).sum ≤ ((List.range M).map g).sum := by
  induction M with
  | zero => exact Nat.le_refl _
  | succ M ih =>
    simp only [List.range_succ, List.map_append, List.sum_append, List.map_cons, List.map_nil,
      List.sum_cons, List.sum_nil, Nat.add_zero]
    have h1 := ih fun i hi => h i (by omega)
    have h2 := h M (by omega)
    omega

theorem stored_congr {B B1 : Nat → List Nat} {M : Nat} (h : ∀ i, i < M → B1 i = B i) :
    stored B1 M = stored B M :=
  sum_range_congr _ _ M fun i hi => by rw [h i hi]

theorem stored_update {B : Nat → List Nat} {M idx : Nat} (l : List Nat) (hidx : idx < M) :
    stored (Function.update B idx l) M + (B idx).length = stored B M + l.length := by
  have := sum_range_except (fun i => (B i).length)
    (fun i => (Function.update B idx l i).length) idx M
    (fun i hi => by simp [Function.update_noteq hi]) hidx
  simpa [stored] using this

theorem stored_nil (M : Nat) : stored (fun _ => []) M = 0 := by
  simp [stored]

theorem stored_singletons {B : Nat → List Nat} {M : Nat}
    (h : ∀ i, i < M → (B i).length = 1) : stored B M = M := by
  have := sum_range_congr (fun _ => 1) (fun i => (B i).length) M h
  simpa [stored] using this

/-- There are no more occupied buckets than stored cells. -/
theorem occupied_buckets_le_stored {heap : Nat → Option t_hash_element}
    {table : Nat → Option Nat} {B : Nat → List Nat} {M : Nat}
    (hc : ∀ i, i < M → IsChain heap (table i) (B i)) : occupied_buckets table M ≤ stored B M := by
  rw [occupied_buckets_eq_sum]
  unfold stored
  refine sum_range_le _ _ M fun i hi => ?_
  have h := hc i hi
  cases hl : B i with
  | nil =>
    rw [hl] at h
    have h1 : table i = none := h
    simp [h1]
  | cons a l =>
    simp only [List.length_cons]
    split_ifs <;> omega

/-! ## Representation invariant -/

theorem Returns.of_ok {α : Type} {run : Nat → Run α} {r r1 : α} {fuel : Nat}
    (h : Returns run r) (h1 : run fuel = .ok r1) : r1 = r := by
  rcases h.1 fuel with h2 | h2
  · rw [h2] at h1
    cases h1
  · rw [h2] at h1
    cases h1
    rfl

theorem Returns.const {α : Type} (r : α) : Returns (fun _ => Run.ok r) r :=
  ⟨fun _ => Or.inr rfl, 0, fun _ _ => rfl⟩

theorem Represents.lt_brk {s : State} {B : Nat → List Nat} (h : Represents s B) {i a : Nat}
    (hi : i < s.self.table_max_size) (ha : a ∈ B i) : a < s.brk := by
  obtain ⟨e, he, -⟩ := h.place i hi a ha
  by_contra hlt
  rw [h.fresh a (Nat.le_of_not_lt hlt)] at he
  cases he

theorem Represents.disjoint {s : State} {B : Nat → List Nat} (h : Represents s B) {i j a : Nat}
    (hi : i < s.self.table_max_size) (hj : j < s.self.table_max_size) (ha : a ∈ B i)
    (hb : a ∈ B j) : i = j := by
  obtain ⟨e, he, hie⟩ := h.place i hi a ha
  obtain ⟨e1, he1, hje⟩ := h.place j hj a hb
  rw [he] at he1
  cases he1
  omega

theorem Represents.nil_iff {s : State} {B : Nat → List Nat} (h : Represents s B) {i : Nat}
    (hi : i < s.self.table_max_size) : B i = [] ↔ s.self.elements i = none := by
  have hc := h.chain i hi
  constructor
  · intro hn
    rw [hn] at hc
    exact hc
  · intro hn
    rw [hn] at hc
    exact hc.eq_nil

theorem Represents.create (D : Nat) (dd : Option Nat) (hD : 0 < D) :
    Represents (dictionary_create D dd) fun _ => [] where
  pos := hD
  chain := fun _ _ => rfl
  place := fun _ _ a ha => by cases ha
  fresh := fun _ _ => rfl
  occupied := (occupied_buckets_none D).symm

theorem dictionary_put_chain {s : State} {B : Nat → List Nat} (h : Represents s B)
    (key : List Nat) (data : Nat) {l : List Nat} {t : Nat}
    (hB : B (dictionary_hash key % s.self.table_max_size) = l ++ [t]) :
    ∃ et, s.heap t = some et ∧ et.next = none ∧
      Returns (fun fuel => dictionary_put fuel s key data) (put_chain_state s key data t et) := by
  have hM := h.pos
  have hidx : dictionary_hash key % s.self.table_max_size < s.self.table_max_size :=
    Nat.mod_lt _ hM
  have hc := h.chain _ hidx
  rw [hB] at hc
  obtain ⟨et, het, hetn⟩ := hc.last_next
  have htb : t < s.brk := h.lt_brk hidx (by rw [hB]; simp)
  refine ⟨et, het, hetn, ?_⟩
  cases hel : s.self.elements (dictionary_hash key % s.self.table_max_size) with
  | none =>
    rw [hel] at hc
    have := hc.eq_nil
    simp at this
  | some a =>
    rw [hel] at hc
    have hc1 : IsChain (Function.update s.heap s.brk (some (new_cell s.brk key data))) (some a)
        (l ++ [t]) := by
      refine hc.congr fun b hb => Function.update_noteq ?_ _ _
      have : b < s.brk := h.lt_brk hidx (by rw [hB]; exact hb)
      omega
    have hle := last_element_chain hc1
    have hne : t ≠ s.brk := by omega
    have hM0 : s.self.table_max_size ≠ 0 := by omega
    have key_eq : ∀ fuel,
        dictionary_put fuel s key data =
          match last_element fuel (Function.update s.heap s.brk (some (new_cell s.brk key data))) a with
          | .ok last =>
            if last = t then .ok (put_chain_state s key data t et)
            else dictionary_put fuel s key data
          | .timeout => .timeout
          | .fault => .fault := by
      intro fuel
      cases hl : last_element fuel (Function.update s.heap s.brk (some (new_cell s.brk key data))) a with
      | timeout =>
        simp [dictionary_put, hM0, dictionary_create_element, key_argument, hel, put_chain, new_cell] at hl ⊢
        simp [hl]
      | fault =>
        simp [dictionary_put, hM0, dictionary_create_element, key_argument, hel, put_chain, new_cell] at hl ⊢
        simp [hl]
      | ok last =>
        by_cases hlt : last = t
        · subst hlt
          simp [dictionary_put, hM0, dictionary_create_element, key_argument, hel, put_chain, new_cell,
            set_next, Function.update_noteq hne, het, count_element, put_chain_state] at hl ⊢
          simp [hl, Function.update_noteq hne, het]
        · simp [hlt]
    constructor
    · intro fuel
      rcases (hle fuel).1 with h1 | h1
      · left
        show dictionary_put fuel s key data = _
        rw [key_eq, h1]
      · right
        show dictionary_put fuel s key data = _
        rw [key_eq, h1]
        simp
    · refine ⟨l.length + 1, fun fuel hf => ?_⟩
      show dictionary_put fuel s key data = _
      rw [key_eq, (hle fuel).2 (by omega)]
      simp

theorem put_chain_state_heap (s : State) (key : List Nat) (data t : Nat) (et : t_hash_element)
    (a : Nat) :
    (put_chain_state s key data t et).heap a =
      if a = t then some { et with next := some s.brk }
      else if a = s.brk then some (new_cell s.brk key data) else s.heap a := by
  simp [put_chain_state, Function.update_apply]

theorem Represents.put_chain {s : State} {B : Nat → List Nat} (h : Represents s B)
    (key : List Nat) (data : Nat) {l : List Nat} {t index : Nat} {et : t_hash_element}
    (hindex : dictionary_hash key % s.self.table_max_size = index)
    (hB : B index = l ++ [t]) (het : s.heap t = some et) :
    Represents (put_chain_state s key data t et)
      (Function.update B index (B index ++ [s.brk])) := by
  have hidx : index < s.self.table_max_size := by
    rw [← hindex]
    exact Nat.mod_lt _ h.pos
  have htm : t ∈ B index := by rw [hB]; simp
  have htb : t < s.brk := h.lt_brk hidx htm
  have hnd : (l ++ [t]).Nodup := by
    have := (h.chain _ hidx).nodup
    rwa [hB] at this
  have htl : t ∉ l := by
    intro hm
    have := List.disjoint_of_nodup_append hnd hm
    simp at this
  refine ⟨h.pos, ?_, ?_, ?_, h.occupied⟩
  · intro i hi
    show IsChain (put_chain_state s key data t et).heap (s.self.elements i) _
    by_cases hii : i = index
    · subst hii
      rw [Function.update_same, hB]
      have hc := h.chain _ hidx
      rw [hB] at hc
      refine hc.snoc (d := new_cell s.brk key data) (c := et) ?_ ?_ ?_ rfl
      · intro a ha
        have hab : a < s.brk := h.lt_brk hidx (by rw [hB]; simp [ha])
        have hat : a ≠ t := fun hat => htl (hat ▸ ha)
        rw [put_chain_state_heap, if_neg hat, if_neg (by omega)]
      · rw [put_chain_state_heap, if_pos rfl]
      · rw [put_chain_state_heap, if_neg (by omega), if_pos rfl]
    · rw [Function.update_noteq hii]
      refine (h.chain i hi).congr fun a ha => ?_
      have hab : a < s.brk := h.lt_brk hi ha
      have hat : a ≠ t := fun hat => hii (h.disjoint hi hidx ha (hat ▸ htm))
      rw [put_chain_state_heap, if_neg hat, if_neg (by omega)]
  · intro i hi a ha
    show ∃ e, (put_chain_state s key data t et).heap a = some e ∧
      e.hashcode % s.self.table_max_size = i
    rw [put_chain_state_heap]
    by_cases hat : a = t
    · subst hat
      have hab : a ∈ B i := by
        by_cases hii : i = index
        · rw [hii]; exact htm
        · rwa [Function.update_noteq hii] at ha
      obtain ⟨e, he, hie⟩ := h.place i hi a hab
      rw [het] at he
      cases he
      exact ⟨_, if_pos rfl, hie⟩
    · rw [if_neg hat]
      by_cases hap : a = s.brk
      · rw [if_pos hap]
        refine ⟨_, rfl, ?_⟩
        by_cases hii : i = index
        · rw [hii, ← hindex]; rfl
        · rw [Function.update_noteq hii] at ha
          have := h.lt_brk hi ha
          omega
      · rw [if_neg hap]
        refine h.place i hi a ?_
        by_cases hii : i = index
        · subst hii
          rw [Function.update_same] at ha
          rcases List.mem_append.mp ha with ha | ha
          · exact ha
          · simp at ha
            exact absurd ha hap
        · rwa [Function.update_noteq hii] at ha
  · intro a ha
    have hab : s.brk + 1 ≤ a := ha
    rw [put_chain_state_heap, if_neg (by omega), if_neg (by omega)]
    exact h.fresh a (by omega)

theorem put_head_state_heap (s : State) (key : List Nat) (data index : Nat) (a : Nat) :
    (put_head_state s key data index).heap a =
      if a = s.brk then some (new_cell s.brk key data) else s.heap a := by
  simp [put_head_state, Function.update_apply]

theorem Represents.put_head {s : State} {B : Nat → List Nat} (h : Represents s B)
    (key : List Nat) (data : Nat) {index : Nat}
    (hindex : dictionary_hash key % s.self.table_max_size = index) (hB : B index = []) :
    Represents (put_head_state s key data index) (Function.update B index [s.brk]) := by
  have hidx : index < s.self.table_max_size := by
    rw [← hindex]
    exact Nat.mod_lt _ h.pos
  refine ⟨h.pos, ?_, ?_, ?_, ?_⟩
  · intro i hi
    show IsChain (put_head_state s key data index).heap
      (Function.update s.self.elements index (some s.brk) i) (Function.update B index [s.brk] i)
    by_cases hii : i = index
    · subst hii
      rw [Function.update_same, Function.update_same]
      exact ⟨rfl, new_cell s.brk key data, by rw [put_head_state_heap, if_pos rfl], rfl⟩
    · rw [Function.update_noteq hii, Function.update_noteq hii]
      refine (h.chain i hi).congr fun a ha => ?_
      have hab : a < s.brk := h.lt_brk hi ha
      rw [put_head_state_heap, if_neg (by omega)]
  · intro i hi a ha
    show ∃ e, (put_head_state s key data index).heap a = some e ∧
      e.hashcode % s.self.table_max_size = i
    rw [put_head_state_heap]
    by_cases hii : i = index
    · subst hii
      rw [Function.update_same] at ha
      simp at ha
      rw [if_pos ha]
      exact ⟨_, rfl, hindex⟩
    · rw [Function.update_noteq hii] at ha
      have hab : a < s.brk := h.lt_brk hi ha
      rw [if_neg (by omega)]
      exact h.place i hi a ha
  · intro a ha
    have hab : s.brk + 1 ≤ a := ha
    rw [put_head_state_heap, if_neg (by omega)]
    exact h.fresh a (by omega)
  · show s.self.table_current_size + 1 =
      occupied_buckets (Function.update s.self.elements index (some s.brk)) s.self.table_max_size
    rw [occupied_buckets_update _ hidx ((h.nil_iff hidx).mp hB), h.occupied]

theorem dictionary_put_head (fuel : Nat) (s : State) (key : List Nat) (data : Nat)
    (hM : 0 < s.self.table_max_size)
    (hel : s.self.elements (dictionary_hash key % s.self.table_max_size) = none) :
    dictionary_put fuel s key data =
      if s.self.table_max_size ≤ s.self.table_current_size + 1 then
        match dictionary_resize fuel
            (put_head_state s key data (dictionary_hash key % s.self.table_max_size))
            (s.self.table_max_size * 2) with
        | .timeout => .timeout
        | .fault => .fault
        | .ok s2 => .ok (count_element s2)
      else
        .ok (count_element
          (put_head_state s key data (dictionary_hash key % s.self.table_max_size))) := by
  have hM0 : s.self.table_max_size ≠ 0 := by omega
  simp only [dictionary_put, hM0, if_false, dictionary_create_element, key_argument, hel, put_head]
  split_ifs <;> rfl

/-! ## Resize -/

theorem payload_some {heap heap1 : Nat → Option t_hash_element} {x : Nat} {e : t_hash_element}
    (h : (heap1 x).map payload = (heap x).map payload) (hx : heap x = some e) :
    ∃ e1, heap1 x = some e1 ∧ payload e1 = payload e := by
  rw [hx] at h
  cases h1 : heap1 x with
  | none => rw [h1] at h; cases h
  | some e1 =>
    rw [h1] at h
    exact ⟨e1, rfl, by simpa using h⟩

/-- First pass through the body of the `do/while` of `dictionary_resize` for a
cell `a` that is not yet in the new table. -/
theorem resize_body_first {s : State} {nt : Nat → Option Nat} {NB : Nat → List Nat}
    {M2 a : Nat} {e : t_hash_element} (hM2 : 0 < M2)
    (hchain : ∀ j, j < M2 → IsChain s.heap (nt j) (NB j))
    (hplace : ∀ j, j < M2 → ∀ x ∈ NB j, ∃ ex, s.heap x = some ex ∧ ex.hashcode % M2 = j)
    (ha : s.heap a = some e) (hnew : ∀ j, j < M2 → a ∉ NB j)
    (hocc : s.self.table_current_size = occupied_buckets nt M2) :
    ∃ h1 c1 nt1,
      Returns (fun fuel => resize_body fuel s nt M2 a) (s.relink h1 c1, nt1, e.next) ∧
      h1 a = some { e with next := none } ∧
      (∀ j, j < M2 → IsChain h1 (nt1 j)
        (Function.update NB (e.hashcode % M2) (NB (e.hashcode % M2) ++ [a]) j)) ∧
      (∀ x, x ≠ a → (∀ j, j < M2 → x ∉ NB j) → h1 x = s.heap x) ∧
      (∀ x, (h1 x).map payload = (s.heap x).map payload) ∧
      c1 = occupied_buckets nt1 M2 := by
  have hM0 : M2 ≠ 0 := by omega
  obtain ⟨j, hj⟩ : ∃ j, j = e.hashcode % M2 := ⟨_, rfl⟩
  have hjlt : j < M2 := by rw [hj]; exact Nat.mod_lt _ hM2
  rw [← hj]
  rcases List.eq_nil_or_concat (NB j) with hnil | ⟨l, tl, hcat⟩
  · have hc := hchain j hjlt
    rw [hnil] at hc
    have hntj : nt j = none := hc
    refine ⟨Function.update s.heap a (some { e with next := none }),
      s.self.table_current_size + 1, Function.update nt j (some a), ?_, ?_, ?_, ?_, ?_, ?_⟩
    · have : ∀ fuel, resize_body fuel s nt M2 a =
          .ok (s.relink (Function.update s.heap a (some { e with next := none }))
            (s.self.table_current_size + 1), Function.update nt j (some a), e.next) := by
        intro fuel
        simp [resize_body, ha, hM0, ← hj, resize_link, hntj, set_next, State.relink]
      exact ⟨fun fuel => Or.inr (this fuel), 0, fun fuel _ => this fuel⟩
    · simp
    · intro j1 hj1
      by_cases hjj : j1 = j
      · subst hjj
        rw [Function.update_same, Function.update_same, hnil]
        exact ⟨rfl, _, Function.update_same _ _ _, rfl⟩
      · rw [Function.update_noteq hjj, Function.update_noteq hjj]
        refine (hchain j1 hj1).congr fun x hx => Function.update_noteq ?_ _ _
        exact fun hxa => hnew j1 hj1 (hxa ▸ hx)
    · intro x hxa _
      exact Function.update_noteq hxa _ _
    · intro x
      by_cases hxa : x = a
      · subst hxa
        simp [ha, payload]
      · rw [Function.update_noteq hxa]
    · rw [occupied_buckets_update _ hjlt hntj, hocc]
  · rw [List.concat_eq_append] at hcat
    have hc := hchain j hjlt
    rw [hcat] at hc
    obtain ⟨etl, hetl, -⟩ := hc.last_next
    have htlm : tl ∈ NB j := by rw [hcat]; simp
    have htla : tl ≠ a := fun h => hnew j hjlt (h ▸ htlm)
    have hnd : (l ++ [tl]).Nodup := hc.nodup
    have htll : tl ∉ l := by
      intro hm
      have := List.disjoint_of_nodup_append hnd hm
      simp at this
    cases hntj : nt j with
    | none =>
      rw [hntj] at hc
      have := hc.eq_nil
      simp at this
    | some hd =>
      rw [hntj] at hc
      have hle := last_element_chain hc
      have hstep : ∀ fuel, last_element fuel s.heap hd = .ok tl →
          resize_body fuel s nt M2 a =
            .ok (s.relink (Function.update
              (Function.update s.heap tl (some { etl with next := some a })) a
              (some { e with next := none })) s.self.table_current_size, nt, e.next) := by
        intro fuel hl
        simp [resize_body, ha, hM0, ← hj, resize_link, hntj, hl, set_next, hetl,
          Function.update_noteq htla.symm, State.relink]
      have htime : ∀ fuel, last_element fuel s.heap hd = .timeout →
          resize_body fuel s nt M2 a = .timeout := by
        intro fuel hl
        simp [resize_body, ha, hM0, ← hj, resize_link, hntj, hl]
      refine ⟨Function.update (Function.update s.heap tl (some { etl with next := some a })) a
        (some { e with next := none }), s.self.table_current_size, nt,
        ⟨fun fuel => ?_, l.length + 1, fun fuel hf => ?_⟩, ?_, ?_, ?_, ?_, hocc⟩
      · rcases (hle fuel).1 with h1 | h1
        · exact Or.inl (htime fuel h1)
        · exact Or.inr (hstep fuel h1)
      · exact hstep fuel ((hle fuel).2 (by omega))
      · simp
      · intro j1 hj1
        by_cases hjj : j1 = j
        · subst hjj
          rw [Function.update_same, hcat, hntj]
          refine hc.snoc (d := { e with next := none }) (c := etl) ?_ ?_ ?_ rfl
          · intro x hx
            have hxa : x ≠ a := fun h => hnew j1 hj1 (by rw [hcat, ← h]; simp [hx])
            have hxt : x ≠ tl := fun h => htll (h ▸ hx)
            rw [Function.update_noteq hxa, Function.update_noteq hxt]
          · rw [Function.update_noteq htla, Function.update_same]
          · rw [Function.update_same]
        · rw [Function.update_noteq hjj]
          refine (hchain j1 hj1).congr fun x hx => ?_
          have hxa : x ≠ a := fun h => hnew j1 hj1 (h ▸ hx)
          have hxt : x ≠ tl := by
            intro h
            subst h
            obtain ⟨e1, he1, hp1⟩ := hplace j1 hj1 x hx
            obtain ⟨e2, he2, hp2⟩ := hplace j hjlt x htlm
            rw [he1] at he2
            cases he2
            exact hjj (hp1.symm.trans hp2)
          rw [Function.update_noteq hxa, Function.update_noteq hxt]
      · intro x hxa hx
        have hxt : x ≠ tl := fun h => hx j hjlt (h ▸ htlm)
        rw [Function.update_noteq hxa, Function.update_noteq hxt]
      · intro x
        by_cases hxa : x = a
        · subst hxa
          simp [ha, payload]
        · rw [Function.update_noteq hxa]
          by_cases hxt : x = tl
          · subst hxt
            simp [hetl, payload]
          · rw [Function.update_noteq hxt]

theorem IsChain.head_some {heap : Nat → Option t_hash_element} {p : Option Nat} {l : List Nat}
    {t : Nat} (h : IsChain heap p (l ++ [t])) : ∃ hd, p = some hd := by
  cases l with
  | nil => exact ⟨t, h.1⟩
  | cons b l => exact ⟨b, h.1⟩

/-- A pass through the body of the `do/while` of `dictionary_resize` for a
cell `a` that is already the last one of its new chain: `a` is linked behind
itself, `next_element` is `a`, and `a->next = NULL` restores the state. -/
theorem resize_body_again {s : State} {nt : Nat → Option Nat} {M2 a hd : Nat}
    {e : t_hash_element} {l : List Nat} (hM2 : 0 < M2) (ha : s.heap a = some e)
    (hn : e.next = none) (hnt : nt (e.hashcode % M2) = some hd)
    (hc : IsChain s.heap (some hd) (l ++ [a])) (fuel : Nat) :
    resize_body fuel s nt M2 a = .timeout ∨ resize_body fuel s nt M2 a = .ok (s, nt, some a) := by
  have hM0 : M2 ≠ 0 := by omega
  rcases (last_element_chain hc fuel).1 with h1 | h1
  · left
    simp [resize_body, ha, hM0, resize_link, hnt, h1]
  · right
    have he : ({ e with next := none } : t_hash_element) = e := by
      cases e
      simp only at hn
      subst hn
      rfl
    have hh : Function.update s.heap a (some e) = s.heap := by
      rw [← ha]
      exact Function.update_eq_self a s.heap
    simp [resize_body, ha, hM0, resize_link, hnt, h1, set_next, he, hh]

theorem resize_do_while_again {s : State} {nt : Nat → Option Nat} {M2 a hd : Nat}
    {e : t_hash_element} {l : List Nat} (hM2 : 0 < M2) (ha : s.heap a = some e)
    (hn : e.next = none) (hnt : nt (e.hashcode % M2) = some hd)
    (hc : IsChain s.heap (some hd) (l ++ [a])) (fuel : Nat) :
    resize_do_while fuel s nt M2 a = .timeout := by
  induction fuel with
  | zero => rfl
  | succ n ih =>
    rcases resize_body_again hM2 ha hn hnt hc n with h1 | h1
    · simp [resize_do_while, h1]
    · simp [resize_do_while, h1, ih]

/-- The `do/while` of `dictionary_resize` on a cell with `next == NULL` that
is not yet in the new table makes one pass. -/
theorem resize_do_while_single {s : State} {nt : Nat → Option Nat} {NB : Nat → List Nat}
    {M2 a : Nat} {e : t_hash_element} (hM2 : 0 < M2)
    (hchain : ∀ j, j < M2 → IsChain s.heap (nt j) (NB j))
    (hplace : ∀ j, j < M2 → ∀ x ∈ NB j, ∃ ex, s.heap x = some ex ∧ ex.hashcode % M2 = j)
    (ha : s.heap a = some e) (hnew : ∀ j, j < M2 → a ∉ NB j)
    (hocc : s.self.table_current_size = occupied_buckets nt M2) (hn : e.next = none) :
    ∃ h1 c1 nt1,
      Returns (fun fuel => resize_do_while fuel s nt M2 a) (s.relink h1 c1, nt1) ∧
      h1 a = some e ∧
      (∀ j, j < M2 → IsChain h1 (nt1 j)
        (Function.update NB (e.hashcode % M2) (NB (e.hashcode % M2) ++ [a]) j)) ∧
      (∀ x, x ≠ a → (∀ j, j < M2 → x ∉ NB j) → h1 x = s.heap x) ∧
      (∀ x, (h1 x).map payload = (s.heap x).map payload) ∧
      c1 = occupied_buckets nt1 M2 := by
  obtain ⟨h1, c1, nt1, hret, h1a, hch, hfr, hpay, hc1⟩ :=
    resize_body_first hM2 hchain hplace ha hnew hocc
  have he : ({ e with next := none } : t_hash_element) = e := by
    cases e
    simp only at hn
    subst hn
    rfl
  rw [he] at h1a
  rw [hn] at hret
  refine ⟨h1, c1, nt1, ⟨fun fuel => ?_, ?_⟩, h1a, hch, hfr, hpay, hc1⟩
  · cases fuel with
    | zero => exact Or.inl rfl
    | succ n =>
      rcases hret.1 n with h2 | h2
      · left
        simp only [resize_do_while]
        simp only [] at h2
        rw [h2]
      · right
        simp only [resize_do_while]
        simp only [] at h2
        rw [h2]
  · obtain ⟨n, hn2⟩ := hret.2
    refine ⟨n + 1, fun fuel hf => ?_⟩
    obtain ⟨m, rfl⟩ : ∃ m, fuel = m + 1 := ⟨fuel - 1, by omega⟩
    have h2 := hn2 m (by omega)
    simp only [resize_do_while]
    simp only [] at h2
    rw [h2]

/-- The `do/while` of `dictionary_resize` on a cell with `next != NULL` never
exits: `old_element` is never advanced. -/
theorem resize_do_while_long {s : State} {nt : Nat → Option Nat} {NB : Nat → List Nat}
    {M2 a b : Nat} {e : t_hash_element} (hM2 : 0 < M2)
    (hchain : ∀ j, j < M2 → IsChain s.heap (nt j) (NB j))
    (hplace : ∀ j, j < M2 → ∀ x ∈ NB j, ∃ ex, s.heap x = some ex ∧ ex.hashcode % M2 = j)
    (ha : s.heap a = some e) (hnew : ∀ j, j < M2 → a ∉ NB j)
    (hocc : s.self.table_current_size = occupied_buckets nt M2) (hn : e.next = some b) :
    Diverges fun fuel => resize_do_while fuel s nt M2 a := by
  obtain ⟨h1, c1, nt1, hret, h1a, hch, -, -, -⟩ :=
    resize_body_first hM2 hchain hplace ha hnew hocc
  have hj : e.hashcode % M2 < M2 := Nat.mod_lt _ hM2
  have hcj := hch _ hj
  rw [Function.update_same] at hcj
  obtain ⟨hd, hhd⟩ := hcj.head_some
  rw [hhd] at hcj
  intro fuel
  cases fuel with
  | zero => rfl
  | succ n =>
    rcases hret.1 n with h2 | h2
    · simp only [resize_do_while]
      simp only [] at h2
      rw [h2]
    · simp only [resize_do_while]
      simp only [] at h2
      rw [h2, hn]
      exact resize_do_while_again (s := s.relink h1 c1) (e := { e with next := none }) hM2 h1a
        rfl hhd hcj n

theorem ResizeInv.start (s0 : State) (B : Nat → List Nat) (M2 : Nat)
    (h0 : s0.self.table_current_size = 0) :
    ResizeInv s0 B M2 0 s0 (fun _ => none) fun _ => [] where
  chain := fun _ _ => rfl
  place := fun _ _ x hx => by cases hx
  moved := fun _ _ x hx => by cases hx
  kept := fun i hi => by omega
  cells := fun _ => rfl
  rest := fun _ _ _ _ _ => rfl
  occupied := by rw [h0, occupied_buckets_none]
  total := stored_nil M2
  frame := rfl

/-- One bucket of the old table whose chain is the single cell `a`. -/
theorem ResizeInv.step {s0 s : State} {B NB : Nat → List Nat} {M2 t a : Nat}
    {nt : Nat → Option Nat} (hold : OldTable s0 B) (hM2 : 0 < M2)
    (h : ResizeInv s0 B M2 t s nt NB) (ht : t < s0.self.table_max_size) (hB : B t = [a]) :
    ∃ s1 nt1 NB1, ResizeInv s0 B M2 (t + 1) s1 nt1 NB1 ∧
      Returns (fun fuel => resize_do_while fuel s nt M2 a) (s1, nt1) := by
  have hc0 := hold.chain t ht
  rw [hB] at hc0
  obtain ⟨-, e, he0, hen⟩ := hc0
  have hen : e.next = none := hen
  have hat : a ∈ B t := by rw [hB]; simp
  have ha : s.heap a = some e := by rw [h.rest t (Nat.le_refl _) ht a hat, he0]
  have hnew : ∀ j, j < M2 → a ∉ NB j := by
    intro j hj hm
    obtain ⟨i, hi, hmi⟩ := h.moved j hj a hm
    have := hold.disjoint i t (by omega) ht a hmi hat
    omega
  obtain ⟨h1, c1, nt1, hret, h1a, hch, hfr, hpay, hc1⟩ :=
    resize_do_while_single hM2 h.chain h.place ha hnew h.occupied hen
  obtain ⟨j, hj⟩ : ∃ j, j = e.hashcode % M2 := ⟨_, rfl⟩
  have hjlt : j < M2 := by rw [hj]; exact Nat.mod_lt _ hM2
  rw [← hj] at hch
  have hsub : ∀ j1 x, x ∈ NB j1 → x ∈ Function.update NB j (NB j ++ [a]) j1 := by
    intro j1 x hx
    by_cases hjj : j1 = j
    · subst hjj
      rw [Function.update_same]
      exact List.mem_append_left _ hx
    · rwa [Function.update_noteq hjj]
  have hcases : ∀ j1 x, x ∈ Function.update NB j (NB j ++ [a]) j1 →
      x ∈ NB j1 ∨ (x = a ∧ j1 = j) := by
    intro j1 x hx
    by_cases hjj : j1 = j
    · subst hjj
      rw [Function.update_same] at hx
      rcases List.mem_append.mp hx with hx | hx
      · exact Or.inl hx
      · simp at hx
        exact Or.inr ⟨hx, rfl⟩
    · rw [Function.update_noteq hjj] at hx
      exact Or.inl hx
  refine ⟨s.relink h1 c1, nt1, Function.update NB j (NB j ++ [a]), ⟨hch, ?_, ?_, ?_, ?_, ?_, hc1, ?_, ?_⟩, hret⟩
  · intro j1 hj1 x hx
    show ∃ ex, h1 x = some ex ∧ ex.hashcode % M2 = j1
    rcases hcases j1 x hx with hx | ⟨hxa, hjj⟩
    · obtain ⟨ex, hex, hp⟩ := h.place j1 hj1 x hx
      obtain ⟨e1, he1, hp1⟩ := payload_some (hpay x) hex
      refine ⟨e1, he1, ?_⟩
      have : e1.hashcode = ex.hashcode := by
        simp only [payload, Prod.mk.injEq] at hp1
        exact hp1.2.1
      rw [this, hp]
    · subst hxa
      exact ⟨e, h1a, by rw [hjj, hj]⟩
  · intro j1 hj1 x hx
    rcases hcases j1 x hx with hx | ⟨hxa, -⟩
    · obtain ⟨i, hi, hm⟩ := h.moved j1 hj1 x hx
      exact ⟨i, by omega, hm⟩
    · subst hxa
      exact ⟨t, by omega, hat⟩
  · intro i hi x hx
    show ∃ ex, h1 x = some ex ∧ x ∈ Function.update NB j (NB j ++ [a]) (ex.hashcode % M2)
    rcases Nat.lt_succ_iff_lt_or_eq.mp hi with hlt | heq
    · obtain ⟨ex, hex, hm⟩ := h.kept i hlt x hx
      obtain ⟨e1, he1, hp1⟩ := payload_some (hpay x) hex
      refine ⟨e1, he1, ?_⟩
      have : e1.hashcode = ex.hashcode := by
        simp only [payload, Prod.mk.injEq] at hp1
        exact hp1.2.1
      rw [this]
      exact hsub _ _ hm
    · subst heq
      rw [hB] at hx
      simp at hx
      subst hx
      refine ⟨e, h1a, ?_⟩
      rw [← hj, Function.update_same]
      simp
  · intro x
    show (h1 x).map payload = (s0.heap x).map payload
    rw [hpay x, h.cells x]
  · intro i hi hiM x hx
    show h1 x = s0.heap x
    have hxa : x ≠ a := by
      intro hxa
      subst hxa
      have := hold.disjoint i t hiM ht x hx hat
      omega
    have hxn : ∀ j1, j1 < M2 → x ∉ NB j1 := by
      intro j1 hj1 hm
      obtain ⟨i1, hi1, hmi⟩ := h.moved j1 hj1 x hm
      have := hold.disjoint i i1 hiM (by omega) x hx hmi
      omega
    rw [hfr x hxa hxn, h.rest i (by omega) hiM x hx]
  · have := stored_update (B := NB) (NB j ++ [a]) hjlt
    have ht := h.total
    simp only [List.length_append, List.length_singleton] at this
    omega
  · show s.relink h1 c1 = s0.relink h1 c1
    rw [h.frame]
    rfl

theorem resize_for_returns {s0 : State} {B : Nat → List Nat} {M2 : Nat} (hold : OldTable s0 B)
    (hM2 : 0 < M2) (count : Nat) :
    ∀ (t : Nat) (s : State) (nt : Nat → Option Nat) (NB : Nat → List Nat),
      ResizeInv s0 B M2 t s nt NB → t + count = s0.self.table_max_size →
      (∀ i, t ≤ i → i < s0.self.table_max_size → ∃ a, B i = [a]) →
      ∃ s1 nt1 NB1, ResizeInv s0 B M2 s0.self.table_max_size s1 nt1 NB1 ∧
        Returns (fun fuel => resize_for count fuel s nt s0.self.elements M2 t) (s1, nt1) := by
  induction count with
  | zero =>
    intro t s nt NB h ht _
    have : t = s0.self.table_max_size := by omega
    subst this
    exact ⟨s, nt, NB, h, Returns.const _⟩
  | succ count ih =>
    intro t s nt NB h ht hall
    have htM : t < s0.self.table_max_size := by omega
    obtain ⟨a, hB⟩ := hall t (Nat.le_refl _) htM
    have hot : s0.self.elements t = some a := by
      have := hold.chain t htM
      rw [hB] at this
      exact this.1
    obtain ⟨s1, nt1, NB1, h1, hret1⟩ := h.step hold hM2 htM hB
    obtain ⟨s2, nt2, NB2, h2, hret2⟩ :=
      ih (t + 1) s1 nt1 NB1 h1 (by omega) fun i hi hiM => hall i (by omega) hiM
    refine ⟨s2, nt2, NB2, h2, fun fuel => ?_, ?_⟩
    · show resize_for (count + 1) fuel s nt s0.self.elements M2 t = _ ∨
        resize_for (count + 1) fuel s nt s0.self.elements M2 t = _
      simp only [resize_for, hot]
      rcases hret1.1 fuel with h3 | h3
      · simp only [] at h3
        rw [h3]
        exact Or.inl rfl
      · simp only [] at h3
        rw [h3]
        exact hret2.1 fuel
    · obtain ⟨n1, hn1⟩ := hret1.2
      obtain ⟨n2, hn2⟩ := hret2.2
      refine ⟨max n1 n2, fun fuel hf => ?_⟩
      show resize_for (count + 1) fuel s nt s0.self.elements M2 t = _
      simp only [resize_for, hot]
      have h3 := hn1 fuel (le_trans (le_max_left _ _) hf)
      simp only [] at h3
      rw [h3]
      exact hn2 fuel (le_trans (le_max_right _ _) hf)

theorem resize_for_diverges {s0 : State} {B : Nat → List Nat} {M2 : Nat} (hold : OldTable s0 B)
    (hM2 : 0 < M2) (count : Nat) :
    ∀ (t : Nat) (s : State) (nt : Nat → Option Nat) (NB : Nat → List Nat),
      ResizeInv s0 B M2 t s nt NB → t + count = s0.self.table_max_size →
      (∀ i, t ≤ i → i < s0.self.table_max_size → B i ≠ []) →
      (∃ i, t ≤ i ∧ i < s0.self.table_max_size ∧ 2 ≤ (B i).length) →
      Diverges fun fuel => resize_for count fuel s nt s0.self.elements M2 t := by
  induction count with
  | zero =>
    intro t s nt NB _ ht _ hex
    obtain ⟨i, hi, hiM, -⟩ := hex
    omega
  | succ count ih =>
    intro t s nt NB h ht hall hex fuel
    have htM : t < s0.self.table_max_size := by omega
    show resize_for (count + 1) fuel s nt s0.self.elements M2 t = .timeout
    have hc0 := hold.chain t htM
    cases hB : B t with
    | nil => exact absurd hB (hall t (Nat.le_refl _) htM)
    | cons a rest =>
      rw [hB] at hc0
      obtain ⟨hot, e, he0, hcr⟩ := hc0
      have hat : a ∈ B t := by rw [hB]; simp
      simp only [resize_for, hot]
      cases rest with
      | nil =>
        obtain ⟨s1, nt1, NB1, h1, hret1⟩ := h.step hold hM2 htM hB
        have hex1 : ∃ i, t + 1 ≤ i ∧ i < s0.self.table_max_size ∧ 2 ≤ (B i).length := by
          obtain ⟨i, hi, hiM, hlen⟩ := hex
          refine ⟨i, ?_, hiM, hlen⟩
          rcases Nat.eq_or_lt_of_le hi with heq | hlt
          · subst heq
            rw [hB] at hlen
            simp at hlen
          · exact hlt
        have hdiv := ih (t + 1) s1 nt1 NB1 h1 (by omega)
          (fun i hi hiM => hall i (by omega) hiM) hex1 fuel
        rcases hret1.1 fuel with h3 | h3
        · simp only [] at h3
          rw [h3]
        · simp only [] at h3
          rw [h3]
          exact hdiv
      | cons b rest =>
        have hen : e.next = some b := hcr.1
        have ha : s.heap a = some e := by rw [h.rest t (Nat.le_refl _) htM a hat, he0]
        have hnew : ∀ j, j < M2 → a ∉ NB j := by
          intro j hj hm
          obtain ⟨i, hi, hmi⟩ := h.moved j hj a hm
          have := hold.disjoint i t (by omega) htM a hmi hat
          omega
        have hdiv := resize_do_while_long hM2 h.chain h.place ha hnew h.occupied hen fuel
        simp only [] at hdiv
        rw [hdiv]

theorem OldTable.zero {s : State} {B : Nat → List Nat} (h : OldTable s B) :
    OldTable (s.relink s.heap 0) B :=
  ⟨h.chain, h.disjoint⟩

/-- When every chain of the old table is a single cell, `dictionary_resize`
returns. -/
theorem dictionary_resize_returns {s : State} {B : Nat → List Nat} (M2 : Nat)
    (hold : OldTable s B) (hM2 : 0 < M2)
    (hall : ∀ i, i < s.self.table_max_size → ∃ a, B i = [a]) :
    ∃ s1 NB, Resized s B M2 s1 NB ∧ Returns (fun fuel => dictionary_resize fuel s M2) s1 := by
  obtain ⟨s1, nt1, NB1, h1, hret⟩ :=
    resize_for_returns hold.zero hM2 s.self.table_max_size 0 (s.relink s.heap 0) (fun _ => none)
      (fun _ => []) (ResizeInv.start _ B M2 rfl) (Nat.zero_add _) fun i _ hi => hall i hi
  have hfr := h1.frame
  refine ⟨{ s1 with self := { s1.self with elements := nt1, table_max_size := M2 } }, NB1,
    ⟨rfl, h1.chain, h1.place, h1.moved, h1.kept, h1.cells, h1.occupied, h1.total, ?_, ?_, ?_, ?_,
      ?_⟩,
    fun fuel => ?_, ?_⟩
  · show s1.brk = s.brk
    rw [hfr]; rfl
  · show s1.destroyed = s.destroyed
    rw [hfr]; rfl
  · show s1.self.elements_amount = s.self.elements_amount
    rw [hfr]; rfl
  · show s1.self.data_destroyer = s.self.data_destroyer
    rw [hfr]; rfl
  · show s1.strings = s.strings
    rw [hfr]; rfl
  · show dictionary_resize fuel s M2 = _ ∨ dictionary_resize fuel s M2 = _
    rcases hret.1 fuel with h3 | h3
    · left
      simp only [dictionary_resize]
      simp only [State.relink] at h3
      rw [h3]
    · right
      simp only [dictionary_resize]
      simp only [State.relink] at h3
      rw [h3]
  · obtain ⟨n, hn⟩ := hret.2
    refine ⟨n, fun fuel hf => ?_⟩
    have h3 := hn fuel hf
    show dictionary_resize fuel s M2 = _
    simp only [dictionary_resize]
    simp only [State.relink] at h3
    rw [h3]

/-- When every bucket of the old table is occupied and some chain has two or
more cells, `dictionary_resize` never returns. -/
theorem dictionary_resize_diverges {s : State} {B : Nat → List Nat} (M2 : Nat)
    (hold : OldTable s B) (hM2 : 0 < M2)
    (hall : ∀ i, i < s.self.table_max_size → B i ≠ [])
    (hex : ∃ i, i < s.self.table_max_size ∧ 2 ≤ (B i).length) :
    Diverges fun fuel => dictionary_resize fuel s M2 := by
  intro fuel
  obtain ⟨i, hi, hlen⟩ := hex
  have h3 := resize_for_diverges hold.zero hM2 s.self.table_max_size 0 (s.relink s.heap 0)
    (fun _ => none) (fun _ => []) (ResizeInv.start _ B M2 rfl) (Nat.zero_add _)
    (fun i _ hi => hall i hi) ⟨i, Nat.zero_le _, hi, hlen⟩ fuel
  show dictionary_resize fuel s M2 = .timeout
  simp only [dictionary_resize]
  simp only [State.relink] at h3
  rw [h3]

/-! ## The invariant of the dictionary and `dictionary_put` -/

theorem Represents.count_element {s : State} {B : Nat → List Nat} (h : Represents s B) :
    Represents (count_element s) B :=
  ⟨h.pos, h.chain, h.place, h.fresh, h.occupied⟩

theorem Represents.oldTable {s : State} {B : Nat → List Nat} (h : Represents s B) :
    OldTable s B :=
  ⟨h.chain, fun _ _ hi hi1 _ hx hx1 => h.disjoint hi hi1 hx hx1⟩

theorem Resized.represents {s s1 : State} {B NB : Nat → List Nat} {M2 : Nat}
    (h : Resized s B M2 s1 NB) (hs : Represents s B) (hM2 : 0 < M2) : Represents s1 NB := by
  refine ⟨?_, ?_, ?_, ?_, ?_⟩
  · rw [h.size]; exact hM2
  · rw [h.size]; exact h.chain
  · rw [h.size]; exact h.place
  · intro a ha
    rw [h.brk] at ha
    have h1 := h.cells a
    rw [hs.fresh a ha] at h1
    cases h2 : s1.heap a with
    | none => rfl
    | some e => rw [h2] at h1; cases h1
  · rw [h.size]; exact h.occupied

theorem payload_hashcode {e e1 : t_hash_element} (h : payload e1 = payload e) :
    e1.hashcode = e.hashcode := by
  simp only [payload, Prod.mk.injEq] at h
  exact h.2.1

theorem payload_data {e e1 : t_hash_element} (h : payload e1 = payload e) :
    e1.data = e.data := by
  simp only [payload, Prod.mk.injEq] at h
  exact h.2.2

/-- Cells after a put without resize, given how the heap changed. -/
theorem PutCells.same_size {s : State} (s1 : State) {B : Nat → List Nat} (hr : Represents s B)
    (key : List Nat) (data : Nat) {index : Nat}
    (hindex : dictionary_hash key % s.self.table_max_size = index)
    (hsize : s1.self.table_max_size = s.self.table_max_size)
    (hnew : s1.heap s.brk = some (new_cell s.brk key data))
    (hcells : ∀ x, x ≠ s.brk → (s1.heap x).map payload = (s.heap x).map payload) :
    PutCells s B s1 (Function.update B index (B index ++ [s.brk])) key data := by
  refine ⟨⟨_, hnew, rfl⟩, ?_, hcells, ?_, ?_, ?_⟩
  · rw [hsize, hindex, Function.update_same]
    simp
  · intro j hj x hx
    rw [hsize] at hj
    by_cases hji : j = index
    · subst hji
      rw [Function.update_same] at hx
      rcases List.mem_append.mp hx with hx | hx
      · exact Or.inr ⟨j, hj, hx⟩
      · simp at hx
        exact Or.inl hx
    · rw [Function.update_noteq hji] at hx
      exact Or.inr ⟨j, hj, hx⟩
  · intro i hi x hx
    obtain ⟨e, he, hp⟩ := hr.place i hi x hx
    have hxb : x ≠ s.brk := by
      have := hr.lt_brk hi hx
      omega
    obtain ⟨e1, he1, hp1⟩ := payload_some (hcells x hxb) he
    refine ⟨e1, he1, ?_⟩
    rw [hsize, payload_hashcode hp1, hp]
    by_cases hii : i = index
    · subst hii
      rw [Function.update_same]
      exact List.mem_append_left _ hx
    · rwa [Function.update_noteq hii]
  · intro _
    rw [hindex]

theorem PutCells.chain {s : State} {B : Nat → List Nat} (hr : Represents s B) (key : List Nat)
    (data : Nat) {l : List Nat} {t index : Nat} {et : t_hash_element}
    (hindex : dictionary_hash key % s.self.table_max_size = index) (hB : B index = l ++ [t])
    (het : s.heap t = some et) :
    PutCells s B (put_chain_state s key data t et)
      (Function.update B index (B index ++ [s.brk])) key data := by
  have hidx : index < s.self.table_max_size := by
    rw [← hindex]
    exact Nat.mod_lt _ hr.pos
  have htb : t < s.brk := hr.lt_brk hidx (by rw [hB]; simp)
  refine PutCells.same_size _ hr key data hindex rfl ?_ ?_
  · rw [put_chain_state_heap, if_neg (by omega), if_pos rfl]
  · intro x hx
    rw [put_chain_state_heap]
    by_cases hxt : x = t
    · subst hxt
      rw [if_pos rfl, het]
      rfl
    · rw [if_neg hxt, if_neg hx]

theorem PutCells.head {s : State} {B : Nat → List Nat} (hr : Represents s B) (key : List Nat)
    (data : Nat) {index : Nat} (hindex : dictionary_hash key % s.self.table_max_size = index)
    (hB : B index = []) :
    PutCells s B (count_element (put_head_state s key data index))
      (Function.update B index [s.brk]) key data := by
  have h := PutCells.same_size (count_element (put_head_state s key data index)) hr key
    data hindex rfl (by
      show (put_head_state s key data index).heap s.brk = _
      rw [put_head_state_heap, if_pos rfl]) (by
      intro x hx
      show ((put_head_state s key data index).heap x).map payload = _
      rw [put_head_state_heap, if_neg hx])
  rwa [hB, List.nil_append] at h

theorem PutCells.resize {s s3 : State} {B NB : Nat → List Nat} (hr : Represents s B)
    (key : List Nat) (data : Nat) {index : Nat}
    (hindex : dictionary_hash key % s.self.table_max_size = index) (hB : B index = [])
    (hres : Resized (put_head_state s key data index) (Function.update B index [s.brk])
      (s.self.table_max_size * 2) s3 NB) :
    PutCells s B (count_element s3) NB key data := by
  have hidx : index < s.self.table_max_size := by
    rw [← hindex]
    exact Nat.mod_lt _ hr.pos
  have hs3 : s3.self.table_max_size = s.self.table_max_size * 2 := hres.size
  have hbrk : (put_head_state s key data index).heap s.brk = some (new_cell s.brk key data) := by
    rw [put_head_state_heap, if_pos rfl]
  obtain ⟨e, he, hp⟩ := payload_some (hres.cells s.brk) hbrk
  have hcells : ∀ x, x ≠ s.brk → (s3.heap x).map payload = (s.heap x).map payload := by
    intro x hx
    rw [hres.cells x, put_head_state_heap, if_neg hx]
  refine ⟨⟨e, he, hp⟩, ?_, hcells, ?_, ?_, ?_⟩
  · show s.brk ∈ NB (dictionary_hash key % s3.self.table_max_size)
    obtain ⟨e1, he1, hm⟩ := hres.kept index hidx s.brk (by rw [Function.update_same]; simp)
    rw [he] at he1
    cases he1
    have : e.hashcode = dictionary_hash key := payload_hashcode hp
    rwa [hs3, ← this]
  · intro j hj x hx
    have hj2 : j < s.self.table_max_size * 2 := by rw [← hs3]; exact hj
    obtain ⟨i, hi, hm⟩ := hres.moved j hj2 x hx
    by_cases hii : i = index
    · subst hii
      rw [Function.update_same] at hm
      simp at hm
      exact Or.inl hm
    · rw [Function.update_noteq hii] at hm
      exact Or.inr ⟨i, hi, hm⟩
  · intro i hi x hx
    have hii : i ≠ index := by
      intro hii
      rw [hii, hB] at hx
      cases hx
    obtain ⟨e1, he1, hm⟩ := hres.kept i hi x (by rwa [Function.update_noteq hii])
    refine ⟨e1, he1, ?_⟩
    show x ∈ NB (e1.hashcode % s3.self.table_max_size)
    rw [hs3]
    exact hm
  · intro hsz
    have h1 : s3.self.table_max_size = s.self.table_max_size := hsz
    have := hr.pos
    omega

/-- On a state that satisfies the invariant, `dictionary_put` either returns a
state that satisfies it again, or runs forever. -/
theorem dictionary_put_total {s : State} {B : Nat → List Nat} (h : Inv s B) (key : List Nat)
    (data : Nat) :
    (∃ s1 B1, Returns (fun fuel => dictionary_put fuel s key data) s1 ∧ Inv s1 B1 ∧
        PutPost s s1 key ∧ PutCells s B s1 B1 key data) ∨
      Diverges fun fuel => dictionary_put fuel s key data := by
  obtain ⟨hr, hamt⟩ := h
  obtain ⟨index, hindex⟩ : ∃ index, dictionary_hash key % s.self.table_max_size = index :=
    ⟨_, rfl⟩
  have hidx : index < s.self.table_max_size := by
    rw [← hindex]
    exact Nat.mod_lt _ hr.pos
  rcases List.eq_nil_or_concat (B index) with hnil | ⟨l, t, hcat⟩
  · have hel : s.self.elements (dictionary_hash key % s.self.table_max_size) = none := by
      rw [hindex]
      exact (hr.nil_iff hidx).mp hnil
    have hput := fun fuel => dictionary_put_head fuel s key data hr.pos hel
    rw [hindex] at hput
    have hr2 := hr.put_head key data hindex hnil
    have hst := stored_update (B := B) [s.brk] hidx
    rw [hnil] at hst
    simp only [List.length_nil, List.length_singleton, Nat.add_zero] at hst
    by_cases hfull : s.self.table_max_size ≤ s.self.table_current_size + 1
    · simp only [hfull, if_true] at hput
      have hne : ∀ i, i < s.self.table_max_size → Function.update B index [s.brk] i ≠ [] := by
        intro i hi hn
        have h1 := (hr2.nil_iff hi).mp hn
        have h2 := occupied_buckets_full (put_head_state s key data index).self.elements
          s.self.table_max_size (by
            have h3 := hr2.occupied
            have h4 : (put_head_state s key data index).self.table_current_size =
              s.self.table_current_size + 1 := rfl
            have h5 : (put_head_state s key data index).self.table_max_size =
              s.self.table_max_size := rfl
            rw [h4, h5] at h3
            omega) i hi
        rw [h1] at h2
        cases h2
      by_cases hall : ∀ i, i < s.self.table_max_size → ∃ a, Function.update B index [s.brk] i = [a]
      · left
        obtain ⟨s3, NB, hres, hret⟩ := dictionary_resize_returns
          (s.self.table_max_size * 2) hr2.oldTable (by have := hr.pos; omega) hall
        have hr3 := (hres.represents hr2 (by have := hr.pos; omega)).count_element
        refine ⟨count_element s3, NB, ⟨fun fuel => ?_, ?_⟩, ⟨hr3, ?_⟩, ?_,
          PutCells.resize hr key data hindex hnil hres⟩
        · show dictionary_put fuel s key data = _ ∨ dictionary_put fuel s key data = _
          rw [hput]
          rcases hret.1 fuel with h3 | h3
          · simp only [] at h3
            rw [h3]
            exact Or.inl rfl
          · simp only [] at h3
            rw [h3]
            exact Or.inr rfl
        · obtain ⟨n, hn⟩ := hret.2
          refine ⟨n, fun fuel hf => ?_⟩
          show dictionary_put fuel s key data = _
          have h3 := hn fuel hf
          simp only [] at h3
          rw [hput, h3]
        · show s3.self.elements_amount + 1 = stored NB s3.self.table_max_size
          have h4 := stored_singletons (B := Function.update B index [s.brk])
            (M := s.self.table_max_size) fun i hi => by
              obtain ⟨a, ha⟩ := hall i hi
              rw [ha]; rfl
          have h5 : s3.self.elements_amount = s.self.elements_amount := hres.amount
          have h6 : stored NB (s.self.table_max_size * 2) = s.self.table_max_size := hres.total
          rw [hres.size, h6, h5, hamt]
          omega
        · have hbelow : s3.self.table_current_size < s3.self.table_max_size := by
            have h7 := occupied_buckets_le_stored hres.chain
            have h8 := hres.occupied
            have h9 : stored NB (s.self.table_max_size * 2) = s.self.table_max_size := hres.total
            have h10 := hres.size
            have := hr.pos
            omega
          refine ⟨?_, Or.inr hres.size, ⟨fun _ => ⟨hel, hfull⟩, fun _ => hres.size⟩,
            hres.destroyer, hres.destroyed, hres.brk, fun _ => hbelow, hres.strings⟩
          show s3.self.elements_amount + 1 = _
          rw [hres.amount]
          rfl
      · right
        have hex : ∃ i, i < s.self.table_max_size ∧
            2 ≤ (Function.update B index [s.brk] i).length := by
          by_contra hcon
          apply hall
          intro i hi
          have h1 := hne i hi
          have h2 : ¬ 2 ≤ (Function.update B index [s.brk] i).length :=
            fun h2 => hcon ⟨i, hi, h2⟩
          cases hl : Function.update B index [s.brk] i with
          | nil => exact absurd hl h1
          | cons a rest =>
            cases rest with
            | nil => exact ⟨a, rfl⟩
            | cons b rest =>
              rw [hl] at h2
              simp at h2
        have hdiv := dictionary_resize_diverges (s.self.table_max_size * 2) hr2.oldTable
          (by have := hr.pos; omega) hne hex
        intro fuel
        show dictionary_put fuel s key data = .timeout
        have h3 := hdiv fuel
        simp only [] at h3
        rw [hput, h3]
    · left
      simp only [hfull, if_false] at hput
      have hne2 : s.self.table_max_size ≠ s.self.table_max_size * 2 := by
        have := hr.pos
        omega
      have hbelow : s.self.table_current_size + 1 < s.self.table_max_size := by omega
      refine ⟨_, _, ⟨fun fuel => Or.inr (hput fuel), 0, fun fuel _ => hput fuel⟩,
        ⟨hr2.count_element, ?_⟩,
        ⟨rfl, Or.inl rfl, ⟨fun h => absurd h hne2, fun h => absurd h.2 hfull⟩, rfl, rfl, rfl,
          fun _ => hbelow, rfl⟩,
        PutCells.head hr key data hindex hnil⟩
      show s.self.elements_amount + 1 = stored _ s.self.table_max_size
      omega
  · left
    rw [List.concat_eq_append] at hcat
    have hcat2 := hcat
    rw [← hindex] at hcat2
    obtain ⟨et, het, -, hret⟩ := dictionary_put_chain hr key data hcat2
    have hr2 := hr.put_chain key data hindex hcat het
    have hne2 : s.self.table_max_size ≠ s.self.table_max_size * 2 := by
      have := hr.pos
      omega
    have hsome : ¬ (s.self.elements (dictionary_hash key % s.self.table_max_size) = none ∧
        s.self.table_max_size ≤ s.self.table_current_size + 1) := by
      intro h
      have h1 := h.1
      rw [hindex] at h1
      have h2 := (hr.nil_iff hidx).mpr h1
      rw [hcat] at h2
      simp at h2
    refine ⟨_, _, hret, ⟨hr2, ?_⟩,
      ⟨rfl, Or.inl rfl, ⟨fun h => absurd h hne2, fun h => absurd h hsome⟩, rfl, rfl, rfl,
        fun h => h, rfl⟩,
      PutCells.chain hr key data hindex hcat het⟩
    have hst := stored_update (B := B) (B index ++ [s.brk]) hidx
    simp only [List.length_append, List.length_singleton] at hst
    show s.self.elements_amount + 1 = stored _ s.self.table_max_size
    omega

/-! ## `dictionary_clean` -/

/-- When the `do/while` of `dictionary_clean` returns, the chain had a single
cell: after the first pass the cell is freed, and a further pass would read
it again. -/
theorem clean_do_while_ok {s s1 : State} {a fuel : Nat} {e : t_hash_element}
    (ha : s.heap a = some e) (h : clean_do_while fuel s a = .ok s1) :
    e.next = none ∧ dictionary_destroy_element s a = .ok s1 := by
  cases fuel with
  | zero => cases h
  | succ n =>
    simp only [clean_do_while, ha] at h
    cases hd : dictionary_destroy_element s a with
    | timeout => rw [hd] at h; cases h
    | fault => rw [hd] at h; cases h
    | ok s2 =>
      rw [hd] at h
      cases hn : e.next with
      | none =>
        rw [hn] at h
        exact ⟨rfl, h⟩
      | some b =>
        rw [hn] at h
        have hfree : s2.heap a = none := by
          simp only [dictionary_destroy_element, ha] at hd
          cases hd
          simp
        cases n with
        | zero => cases h
        | succ m =>
          simp only [clean_do_while, hfree] at h
          cases h

theorem clean_for_ok {B : Nat → List Nat} {M fuel : Nat}
    (hdisj : ∀ i i1, i < M → i1 < M → ∀ x, x ∈ B i → x ∈ B i1 → i = i1) (count : Nat) :
    ∀ (t : Nat) (s s1 : State), t + count = M →
      (∀ i, t ≤ i → i < M → IsChain s.heap (s.self.elements i) (B i)) →
      clean_for count fuel s t = .ok s1 →
      Cleaned s t count s1 ∧ ∀ i, t ≤ i → i < M → (B i).length ≤ 1 := by
  induction count with
  | zero =>
    intro t s s1 ht _ h
    simp only [clean_for] at h
    cases h
    refine ⟨⟨rfl, ?_, rfl, rfl, fun _ h => h, fun i hi hi1 => by omega, fun _ _ => rfl⟩,
      fun i hi hiM => by omega⟩
    cases hdd : s.self.data_destroyer <;> simp [destroyer_calls, heads_data]
  | succ count ih =>
    intro t s s1 ht hch h
    have htM : t < M := by omega
    have hct := hch t (Nat.le_refl _) htM
    cases hel : s.self.elements t with
    | none =>
      simp only [clean_for, hel] at h
      obtain ⟨hcl, hlen⟩ := ih (t + 1) s s1 (by omega) (fun i hi hiM => hch i (by omega) hiM) h
      rw [hel] at hct
      refine ⟨⟨hcl.size, ?_, hcl.destroyer, hcl.brk, hcl.freed, fun i hi hi1 => ?_,
        fun i hi => hcl.below i (by omega)⟩, fun i hi hiM => ?_⟩
      · rw [hcl.log]
        unfold heads_data
        rw [List.range'_succ, List.filterMap_cons_none (by simp only [hel])]
      · rcases Nat.eq_or_lt_of_le hi with heq | hlt
        · subst heq
          rw [hcl.below _ (Nat.lt_succ_self _), hel]
        · exact hcl.emptied i hlt (by omega)
      · rcases Nat.eq_or_lt_of_le hi with heq | hlt
        · subst heq
          rw [hct.eq_nil]
          exact Nat.zero_le _
        · exact hlen i hlt hiM
    | some a =>
      simp only [clean_for, hel] at h
      rw [hel] at hct
      cases hB : B t with
      | nil => rw [hB] at hct; cases hct
      | cons a1 rest =>
        rw [hB] at hct
        obtain ⟨ha1, e, he, hrest⟩ := hct
        cases ha1
        have hat : a ∈ B t := by rw [hB]; simp
        cases hdw : clean_do_while fuel s a with
        | timeout => rw [hdw] at h; cases h
        | fault => rw [hdw] at h; cases h
        | ok s2 =>
          rw [hdw] at h
          obtain ⟨hn, hd⟩ := clean_do_while_ok he hdw
          simp only [dictionary_destroy_element, he] at hd
          cases hd
          obtain ⟨hcl, hlen⟩ := ih (t + 1) _ s1 (by omega) (fun i hi hiM => by
            have hit : i ≠ t := by omega
            show IsChain (Function.update s.heap a none) (Function.update s.self.elements t none i)
              (B i)
            rw [Function.update_noteq hit]
            refine (hch i (by omega) hiM).congr fun x hx => Function.update_noteq ?_ _ _
            intro hxa
            subst hxa
            exact hit (hdisj i t hiM htM x hx hat)) h
          refine ⟨⟨hcl.size, ?_, hcl.destroyer, hcl.brk, fun x hx => hcl.freed x ?_,
            fun i hi hi1 => ?_, fun i hi => ?_⟩, fun i hi hiM => ?_⟩
          · have hcongr : heads_data (Function.update s.heap a none)
                (Function.update s.self.elements t none) (t + 1) count =
                heads_data s.heap s.self.elements (t + 1) count := by
              unfold heads_data
              refine List.filterMap_congr fun i hi => ?_
              obtain ⟨hi1, hi2⟩ := List.mem_range'_1.mp hi
              have hit : i ≠ t := by omega
              rw [Function.update_noteq hit]
              cases hei : s.self.elements i with
              | none => rfl
              | some a2 =>
                have hci := hch i (by omega) (by omega)
                rw [hei] at hci
                have ha2 : a2 ∈ B i := by
                  cases hBi : B i with
                  | nil => rw [hBi] at hci; cases hci
                  | cons b r =>
                    rw [hBi] at hci
                    obtain ⟨hb, -⟩ := hci
                    cases hb
                    simp
                have hne : a2 ≠ a := by
                  intro h2
                  subst h2
                  exact hit (hdisj i t (by omega) htM a2 ha2 hat)
                simp only [Function.update_noteq hne]
            have hlog := hcl.log
            rw [hcongr] at hlog
            rw [hlog]
            show (match s.self.data_destroyer with
              | none => s.destroyed
              | some _ => s.destroyed ++ [e.data]) ++
                destroyer_calls s.self.data_destroyer
                  (heads_data s.heap s.self.elements (t + 1) count) = _
            have hhd : heads_data s.heap s.self.elements t (count + 1) =
                e.data :: heads_data s.heap s.self.elements (t + 1) count := by
              unfold heads_data
              rw [List.range'_succ, List.filterMap_cons_some (by simp only [hel, he]; rfl)]
            rw [hhd]
            cases s.self.data_destroyer <;> simp [destroyer_calls]
          · show Function.update s.heap a none x = none
            by_cases hxa : x = a
            · rw [hxa, Function.update_same]
            · rw [Function.update_noteq hxa, hx]
          · rcases Nat.eq_or_lt_of_le hi with heq | hlt
            · subst heq
              rw [hcl.below _ (Nat.lt_succ_self _)]
              exact Function.update_same _ _ _
            · exact hcl.emptied i hlt (by omega)
          · rw [hcl.below i (by omega)]
            exact Function.update_noteq (by omega) _ _
          · rcases Nat.eq_or_lt_of_le hi with heq | hlt
            · subst heq
              rw [hn] at hrest
              rw [hB, hrest.eq_nil]
              exact Nat.le_refl _
            · exact hlen i hlt hiM

/-- When `dictionary_clean` returns, the dictionary is empty and satisfies the
invariant, and every chain had at most one cell. -/
theorem dictionary_clean_ok {s s1 : State} {B : Nat → List Nat} {fuel : Nat} (h : Inv s B)
    (hc : dictionary_clean fuel s = .ok s1) :
    Inv s1 (fun _ => []) ∧ s1.self.table_max_size = s.self.table_max_size ∧
      s1.self.data_destroyer = s.self.data_destroyer ∧
      s1.self.elements_amount = 0 ∧ s1.self.table_current_size = 0 ∧
      (∀ i, i < s.self.table_max_size → s1.self.elements i = none) ∧
      (∀ i, i < s.self.table_max_size → (B i).length ≤ 1) ∧
      s1.destroyed = s.destroyed ++ destroyer_calls s.self.data_destroyer
        (heads_data s.heap s.self.elements 0 s.self.table_max_size) := by
  obtain ⟨hr, -⟩ := h
  simp only [dictionary_clean] at hc
  cases hf : clean_for s.self.table_max_size fuel s 0 with
  | timeout => rw [hf] at hc; cases hc
  | fault => rw [hf] at hc; cases hc
  | ok s2 =>
    rw [hf] at hc
    cases hc
    obtain ⟨hcl, hlen⟩ := clean_for_ok (B := B) (M := s.self.table_max_size)
      (fun _ _ hi hi1 _ hx hx1 => hr.disjoint hi hi1 hx hx1) s.self.table_max_size 0 s s2
      (Nat.zero_add _) (fun i _ hi => hr.chain i hi) hf
    have hem : ∀ i, i < s.self.table_max_size → s2.self.elements i = none :=
      fun i hi => hcl.emptied i (Nat.zero_le _) (by omega)
    refine ⟨⟨⟨?_, ?_, ?_, ?_, ?_⟩, ?_⟩, hcl.size, hcl.destroyer, rfl, rfl, hem,
      fun i hi => hlen i (Nat.zero_le _) hi, hcl.log⟩
    · show 0 < s2.self.table_max_size
      rw [hcl.size]; exact hr.pos
    · intro i hi
      have hi2 : i < s2.self.table_max_size := hi
      rw [hcl.size] at hi2
      exact hem i hi2
    · intro i _ a ha
      cases ha
    · intro a ha
      have ha2 : s2.brk ≤ a := ha
      rw [hcl.brk] at ha2
      exact hcl.freed a (hr.fresh a ha2)
    · show 0 = occupied_buckets s2.self.elements s2.self.table_max_size
      rw [hcl.size, occupied_buckets_congr (fun _ => none) hem, occupied_buckets_none]
    · show 0 = stored (fun _ => []) s2.self.table_max_size
      rw [stored_nil]

/-- On a chain of a single cell the `do/while` of `dictionary_clean` makes one
pass. -/
theorem clean_do_while_returns {s : State} {a : Nat} {e : t_hash_element}
    (ha : s.heap a = some e) (hn : e.next = none) :
    ∃ s1, dictionary_destroy_element s a = .ok s1 ∧
      Returns (fun fuel => clean_do_while fuel s a) s1 := by
  cases hd : dictionary_destroy_element s a with
  | timeout => simp [dictionary_destroy_element, ha] at hd
  | fault => simp [dictionary_destroy_element, ha] at hd
  | ok s1 =>
    have hstep : ∀ fuel, clean_do_while (fuel + 1) s a = .ok s1 := by
      intro fuel
      simp only [clean_do_while, ha, hd, hn]
    refine ⟨s1, rfl, fun fuel => ?_, 1, fun fuel hf => ?_⟩
    · cases fuel with
      | zero => exact Or.inl rfl
      | succ n => exact Or.inr (hstep n)
    · obtain ⟨m, rfl⟩ : ∃ m, fuel = m + 1 := ⟨fuel - 1, by omega⟩
      exact hstep m

theorem clean_for_returns {B : Nat → List Nat} {M : Nat}
    (hdisj : ∀ i i1, i < M → i1 < M → ∀ x, x ∈ B i → x ∈ B i1 → i = i1) (count : Nat) :
    ∀ (t : Nat) (s : State), t + count = M →
      (∀ i, t ≤ i → i < M → IsChain s.heap (s.self.elements i) (B i)) →
      (∀ i, t ≤ i → i < M → (B i).length ≤ 1) →
      ∃ s1, Returns (fun fuel => clean_for count fuel s t) s1 := by
  induction count with
  | zero =>
    intro t s _ _ _
    exact ⟨s, Returns.const s⟩
  | succ count ih =>
    intro t s ht hch hlen
    have htM : t < M := by omega
    have hct := hch t (Nat.le_refl _) htM
    cases hel : s.self.elements t with
    | none =>
      obtain ⟨s1, hret⟩ := ih (t + 1) s (by omega) (fun i hi hiM => hch i (by omega) hiM)
        fun i hi hiM => hlen i (by omega) hiM
      refine ⟨s1, fun fuel => ?_, ?_⟩
      · show clean_for (count + 1) fuel s t = _ ∨ clean_for (count + 1) fuel s t = _
        simp only [clean_for, hel]
        exact hret.1 fuel
      · obtain ⟨n, hn⟩ := hret.2
        refine ⟨n, fun fuel hf => ?_⟩
        show clean_for (count + 1) fuel s t = _
        simp only [clean_for, hel]
        exact hn fuel hf
    | some a =>
      rw [hel] at hct
      have hl := hlen t (Nat.le_refl _) htM
      cases hB : B t with
      | nil => rw [hB] at hct; cases hct
      | cons a1 rest =>
        rw [hB] at hct hl
        obtain ⟨ha1, e, he, hrest⟩ := hct
        cases ha1
        have hat : a ∈ B t := by rw [hB]; simp
        have hrn : rest = [] := by
          cases rest with
          | nil => rfl
          | cons b r => simp at hl
        subst hrn
        have hn : e.next = none := hrest
        obtain ⟨s2, hd, hret2⟩ := clean_do_while_returns he hn
        simp only [dictionary_destroy_element, he] at hd
        cases hd
        obtain ⟨s1, hret⟩ := ih (t + 1)
          { s with
            destroyed :=
              match s.self.data_destroyer with
              | none => s.destroyed
              | some _ => s.destroyed ++ [e.data]
            heap := Function.update s.heap a none
            strings := Function.update s.strings e.key none
            self := { s.self with elements := Function.update s.self.elements t none } }
          (by omega) (fun i hi hiM => by
          have hit : i ≠ t := by omega
          show IsChain (Function.update s.heap a none) (Function.update s.self.elements t none i)
            (B i)
          rw [Function.update_noteq hit]
          refine (hch i (by omega) hiM).congr fun x hx => Function.update_noteq ?_ _ _
          intro hxa
          subst hxa
          exact hit (hdisj i t hiM htM x hx hat)) fun i hi hiM => hlen i (by omega) hiM
        refine ⟨s1, fun fuel => ?_, ?_⟩
        · show clean_for (count + 1) fuel s t = _ ∨ clean_for (count + 1) fuel s t = _
          simp only [clean_for, hel]
          rcases hret2.1 fuel with h3 | h3
          · simp only [] at h3
            rw [h3]
            exact Or.inl rfl
          · simp only [] at h3
            rw [h3]
            exact hret.1 fuel
        · obtain ⟨n1, hn1⟩ := hret2.2
          obtain ⟨n2, hn2⟩ := hret.2
          refine ⟨max n1 n2, fun fuel hf => ?_⟩
          show clean_for (count + 1) fuel s t = _
          simp only [clean_for, hel]
          have h3 := hn1 fuel (le_trans (le_max_left _ _) hf)
          simp only [] at h3
          rw [h3]
          exact hn2 fuel (le_trans (le_max_right _ _) hf)

/-- On a dictionary whose chains have at most one cell each, `dictionary_clean`
returns. -/
theorem dictionary_clean_returns {s : State} {B : Nat → List Nat} (h : Inv s B)
    (hlen : ∀ i, i < s.self.table_max_size → (B i).length ≤ 1) :
    ∃ s1, Returns (fun fuel => dictionary_clean fuel s) s1 := by
  obtain ⟨s2, hret⟩ := clean_for_returns (B := B) (M := s.self.table_max_size)
    (fun _ _ hi hi1 _ hx hx1 => h.1.disjoint hi hi1 hx hx1) s.self.table_max_size 0 s
    (Nat.zero_add _) (fun i _ hi => h.1.chain i hi) fun i _ hi => hlen i hi
  refine ⟨{ s2 with self := { s2.self with table_current_size := 0, elements_amount := 0 } },
    fun fuel => ?_, ?_⟩
  · show dictionary_clean fuel s = _ ∨ dictionary_clean fuel s = _
    simp only [dictionary_clean]
    rcases hret.1 fuel with h3 | h3
    · simp only [] at h3
      rw [h3]
      exact Or.inl rfl
    · simp only [] at h3
      rw [h3]
      exact Or.inr rfl
  · obtain ⟨n, hn⟩ := hret.2
    refine ⟨n, fun fuel hf => ?_⟩
    show dictionary_clean fuel s = _
    simp only [dictionary_clean]
    have h3 := hn fuel hf
    simp only [] at h3
    rw [h3]

/-! ## Reachable dictionaries -/

theorem Inv.put_ok {s s1 : State} {B : Nat → List Nat} {fuel : Nat} {key : List Nat}
    {data : Nat} (h : Inv s B) (hp : dictionary_put fuel s key data = .ok s1) :
    ∃ B1, Inv s1 B1 ∧ PutPost s s1 key ∧ PutCells s B s1 B1 key data := by
  rcases dictionary_put_total h key data with ⟨s2, B1, hret, hinv, hpost, hcells⟩ | hdiv
  · have := hret.of_ok hp
    subst this
    exact ⟨B1, hinv, hpost, hcells⟩
  · have := hdiv fuel
    simp only [] at this
    rw [this] at hp
    cases hp

theorem Reachable.inv {D : Nat} {dd : Option Nat} {s : State} (hD : 0 < D)
    (h : Reachable D dd s) : ∃ B, Inv s B := by
  induction h with
  | create => exact ⟨fun _ => [], Represents.create D dd hD, (stored_nil D).symm⟩
  | put fuel key data _ hp ih =>
    obtain ⟨B, hB⟩ := ih
    obtain ⟨B1, hB1, -, -⟩ := hB.put_ok hp
    exact ⟨B1, hB1⟩
  | clean fuel _ hc ih =>
    obtain ⟨B, hB⟩ := ih
    exact ⟨_, (dictionary_clean_ok hB hc).1⟩

/-! ## Stored entries and lookup -/

theorem chain_cells_eq {heap : Nat → Option t_hash_element} {p : Option Nat} {l : List Nat}
    (h : IsChain heap p l) (n : Nat) (hn : l.length ≤ n) :
    chain_cells n heap p = l.filterMap heap := by
  induction l generalizing p n with
  | nil =>
    have hp : p = none := h
    subst hp
    cases n <;> rfl
  | cons a l ih =>
    obtain ⟨hp, e, he, hl⟩ := h
    subst hp
    cases n with
    | zero => simp at hn
    | succ m =>
      simp only [chain_cells, he, List.filterMap_cons_some he]
      rw [ih hl m (by simpa using hn)]

theorem length_le_of_nodup_lt {l : List Nat} {n : Nat} (hnd : l.Nodup) (hlt : ∀ a ∈ l, a < n) :
    l.length ≤ n := by
  have h1 : l.toFinset ⊆ Finset.range n := by
    intro a ha
    exact Finset.mem_range.mpr (hlt a (List.mem_toFinset.mp ha))
  have h2 := Finset.card_le_card h1
  rwa [List.toFinset_card_of_nodup hnd, Finset.card_range] at h2

theorem Represents.mem_entries {s : State} {B : Nat → List Nat} (h : Represents s B)
    (e : t_hash_element) :
    e ∈ dictionary_entries s ↔
      ∃ i, i < s.self.table_max_size ∧ ∃ a, a ∈ B i ∧ s.heap a = some e := by
  simp only [dictionary_entries, List.mem_flatMap, List.mem_range]
  constructor
  · rintro ⟨i, hi, he⟩
    rw [chain_cells_eq (h.chain i hi) s.brk
      (length_le_of_nodup_lt (h.chain i hi).nodup fun a ha => h.lt_brk hi ha)] at he
    obtain ⟨a, ha, hae⟩ := List.mem_filterMap.mp he
    exact ⟨i, hi, a, ha, hae⟩
  · rintro ⟨i, hi, a, ha, hae⟩
    refine ⟨i, hi, ?_⟩
    rw [chain_cells_eq (h.chain i hi) s.brk
      (length_le_of_nodup_lt (h.chain i hi).nodup fun a ha => h.lt_brk hi ha)]
    exact List.mem_filterMap.mpr ⟨a, ha, hae⟩

theorem dictionary_get_returns {s : State} {B : Nat → List Nat} (h : Represents s B)
    (key : List Nat) :
    Returns (fun fuel => dictionary_get fuel s key)
      (chain_lookup s.heap (dictionary_hash key)
        (B (dictionary_hash key % s.self.table_max_size))) := by
  have hM0 : s.self.table_max_size ≠ 0 := by have := h.pos; omega
  have hidx : dictionary_hash key % s.self.table_max_size < s.self.table_max_size :=
    Nat.mod_lt _ h.pos
  have hc := h.chain _ hidx
  have hpl := h.place _ hidx
  have hget : ∀ fuel, dictionary_get fuel s key =
      match s.self.elements (dictionary_hash key % s.self.table_max_size) with
      | none => .ok 0
      | some element =>
        match get_element_do_while fuel s.heap element (dictionary_hash key) with
        | .timeout => .timeout
        | .fault => .fault
        | .ok none => .ok 0
        | .ok (some a) =>
          match s.heap a with
          | none => .fault
          | some e => .ok e.data := by
    intro fuel
    simp only [dictionary_get, dictionary_get_element, hM0, if_false]
    cases s.self.elements (dictionary_hash key % s.self.table_max_size) with
    | none => rfl
    | some element => simp only []
  generalize dictionary_hash key % s.self.table_max_size = index at hc hpl hget
  generalize dictionary_hash key = kh at hget
  cases hel : s.self.elements index with
  | none =>
    rw [hel] at hc
    rw [hc.eq_nil]
    simp only [hel] at hget
    exact ⟨fun fuel => Or.inr (hget fuel), 0, fun fuel _ => hget fuel⟩
  | some a0 =>
    rw [hel] at hc
    simp only [hel] at hget
    have hspec := get_element_do_while_chain kh hc
    have hfound : ∀ fuel, get_element_do_while fuel s.heap a0 kh =
        .ok (chain_find s.heap kh (B index)) →
        dictionary_get fuel s key = .ok (chain_lookup s.heap kh (B index)) := by
      intro fuel hf
      rw [hget, hf]
      unfold chain_lookup
      cases hcf : chain_find s.heap kh (B index) with
      | none => rfl
      | some a =>
        have ham : a ∈ B index := List.mem_of_find?_eq_some hcf
        obtain ⟨e, he, -⟩ := hpl a ham
        simp only [he]
    refine ⟨fun fuel => ?_, (B index).length, fun fuel hf => hfound fuel ((hspec fuel).2 hf)⟩
    rcases (hspec fuel).1 with h1 | h1
    · left
      show dictionary_get fuel s key = _
      rw [hget, h1]
    · exact Or.inr (hfound fuel h1)

theorem chain_lookup_absent {s : State} {B : Nat → List Nat} (h : Represents s B) (kh : Nat)
    {i : Nat} (hi : i < s.self.table_max_size)
    (hk : ∀ e ∈ dictionary_entries s, e.hashcode ≠ kh) : chain_lookup s.heap kh (B i) = 0 := by
  have : chain_find s.heap kh (B i) = none := by
    unfold chain_find
    rw [List.find?_eq_none]
    intro a ha
    obtain ⟨e, he, -⟩ := h.place i hi a ha
    have := hk e ((h.mem_entries e).mpr ⟨i, hi, a, ha, he⟩)
    simp [he, this]
  simp [chain_lookup, this]

theorem chain_find_first {heap : Nat → Option t_hash_element} {kh a : Nat} {l : List Nat}
    {e : t_hash_element} (l2 : List Nat) (ha : a ∈ l) (he : heap a = some e)
    (hh : e.hashcode = kh)
    (hu : ∀ x ∈ l, x ≠ a → ∀ ex, heap x = some ex → ex.hashcode ≠ kh) :
    chain_find heap kh (l ++ l2) = some a := by
  induction l with
  | nil => cases ha
  | cons x l ih =>
    unfold chain_find
    by_cases hxa : x = a
    · subst hxa
      simp [he, hh]
    · have hpx : (match heap x with
          | some e => e.hashcode == kh
          | none => false) = false := by
        cases hx : heap x with
        | none => rfl
        | some ex =>
          have := hu x (List.mem_cons_self _ _) hxa ex hx
          simp [this]
      rw [List.cons_append, List.find?_cons_of_neg _ (by simp [hpx])]
      have ha2 : a ∈ l := by
        rcases List.mem_cons.mp ha with h | h
        · exact absurd h.symm hxa
        · exact h
      exact ih ha2 fun y hy => hu y (List.mem_cons_of_mem _ hy)

theorem chain_lookup_first {heap : Nat → Option t_hash_element} (kh : Nat) {a : Nat}
    {l : List Nat} {e : t_hash_element} (l2 : List Nat) (ha : a ∈ l) (he : heap a = some e)
    (hh : e.hashcode = kh)
    (hu : ∀ x ∈ l, x ≠ a → ∀ ex, heap x = some ex → ex.hashcode ≠ kh) :
    chain_lookup heap kh (l ++ l2) = e.data := by
  simp [chain_lookup, chain_find_first l2 ha he hh hu, he]

/-- Cells that were stored before a put keep their hash, so the cells of the
new chains other than the new cell do not have a hash that no stored entry
had. -/
theorem PutCells.other_hash {s s1 : State} {B B1 : Nat → List Nat} {key : List Nat}
    {data kh : Nat} (hr : Represents s B) (hc : PutCells s B s1 B1 key data)
    (hk : ∀ e ∈ dictionary_entries s, e.hashcode ≠ kh) {j x : Nat}
    (hj : j < s1.self.table_max_size) (hx : x ∈ B1 j) (hxb : x ≠ s.brk) (ex : t_hash_element)
    (hex : s1.heap x = some ex) : ex.hashcode ≠ kh := by
  rcases hc.origin j hj x hx with h | ⟨i, hi, hm⟩
  · exact absurd h hxb
  · obtain ⟨e0, he0, -⟩ := hr.place i hi x hm
    obtain ⟨e1, he1, hp1⟩ := payload_some (hc.cells x hxb) he0
    rw [hex] at he1
    cases he1
    rw [payload_hashcode hp1]
    exact hk e0 ((hr.mem_entries e0).mpr ⟨i, hi, x, hm, he0⟩)

/-- Put/get round trip whenever the put returns: on a reachable dictionary
none of whose entries has the hash of the key, a returning put of the key is
followed by a get of the key that returns the value put. -/
theorem dictionary_put_get {D : Nat} {dd : Option Nat} {s s1 : State} {key : List Nat}
    {data fuel : Nat} (hD : 0 < D) (hs : Reachable D dd s)
    (hk : ∀ e ∈ dictionary_entries s, e.hashcode ≠ dictionary_hash key)
    (hp : dictionary_put fuel s key data = .ok s1) :
    Returns (fun fuel => dictionary_get fuel s1 key) data := by
  obtain ⟨B, hinv⟩ := hs.inv hD
  obtain ⟨B1, hinv1, -, hc⟩ := hinv.put_ok hp
  have h := dictionary_get_returns hinv1.1 key
  obtain ⟨e, he, hpe⟩ := hc.newcell
  have hidx : dictionary_hash key % s1.self.table_max_size < s1.self.table_max_size :=
    Nat.mod_lt _ hinv1.1.pos
  have hl := chain_lookup_first (dictionary_hash key) [] hc.placed he
    (payload_hashcode hpe) fun x hx hxb ex hex => hc.other_hash hinv.1 hk hidx hx hxb ex hex
  rw [List.append_nil] at hl
  rw [hl, payload_data hpe] at h
  exact h

/-- First stored entry wins whenever the puts return: on a reachable
dictionary without entry of hash `h`, two returning puts of keys of hash `h`
grow the size by 2 and leave the value of the first put to the get of either
key. -/
theorem dictionary_put_put_get {D : Nat} {dd : Option Nat} {s s1 s2 : State}
    {k1 k2 : List Nat} {v1 v2 fuel fuel2 : Nat} (hD : 0 < D) (hs : Reachable D dd s)
    (hk : ∀ e ∈ dictionary_entries s, e.hashcode ≠ dictionary_hash k1)
    (hh : dictionary_hash k1 = dictionary_hash k2)
    (hp1 : dictionary_put fuel s k1 v1 = .ok s1) (hp2 : dictionary_put fuel2 s1 k2 v2 = .ok s2) :
    dictionary_size s2 = dictionary_size s + 2 ∧
      Returns (fun fuel => dictionary_get fuel s2 k1) v1 ∧
      Returns (fun fuel => dictionary_get fuel s2 k2) v1 := by
  obtain ⟨B, hinv⟩ := hs.inv hD
  obtain ⟨B1, hinv1, hpost1, hc1⟩ := hinv.put_ok hp1
  obtain ⟨B2, hinv2, hpost2, hc2⟩ := hinv1.put_ok hp2
  have hget : Returns (fun fuel => dictionary_get fuel s2 k1) v1 := by
    have h := dictionary_get_returns hinv2.1 k1
    obtain ⟨e, he, hpe⟩ := hc1.newcell
    have hidx1 : dictionary_hash k1 % s1.self.table_max_size < s1.self.table_max_size :=
      Nat.mod_lt _ hinv1.1.pos
    have hplaced := hc1.placed
    have hsome : s1.self.elements (dictionary_hash k2 % s1.self.table_max_size) ≠ none := by
      intro hn
      rw [← hh] at hn
      have := (hinv1.1.nil_iff hidx1).mpr hn
      rw [this] at hplaced
      cases hplaced
    have hsz : s2.self.table_max_size = s1.self.table_max_size := by
      rcases hpost2.size with h1 | h1
      · exact h1
      · exact absurd (hpost2.grows.mp h1).1 hsome
    have happ := hc2.append hsz
    have hb : s.brk ≠ s1.brk := by
      have := hpost1.brk
      omega
    obtain ⟨e2, he2, hpe2⟩ := payload_some (hc2.cells s.brk hb) he
    rw [hsz, happ, ← hh, Function.update_same] at h
    have hl := chain_lookup_first (dictionary_hash k1) [s1.brk] hplaced he2
      ((payload_hashcode hpe2).trans (payload_hashcode hpe)) fun x hx hxb ex hex => by
        have hxlt : x ≠ s1.brk := by
          have := hinv1.1.lt_brk hidx1 hx
          omega
        obtain ⟨e0, he0, hp0⟩ : ∃ e0, s1.heap x = some e0 ∧ payload ex = payload e0 := by
          have h3 := hc2.cells x hxlt
          rw [hex] at h3
          cases h4 : s1.heap x with
          | none => rw [h4] at h3; cases h3
          | some e0 =>
            rw [h4] at h3
            exact ⟨e0, rfl, by simpa using h3⟩
        rw [payload_hashcode hp0]
        exact hc1.other_hash hinv.1 hk hidx1 hx hxb e0 he0
    rw [hl, payload_data hpe2, payload_data hpe] at h
    exact h
  refine ⟨?_, hget, ?_⟩
  · have h1 := hpost1.amount
    have h2 := hpost2.amount
    simp only [dictionary_size]
    omega
  · have : ∀ fuel, dictionary_get fuel s2 k2 = dictionary_get fuel s2 k1 := by
      intro fuel
      simp only [dictionary_get, dictionary_get_element, hh]
    constructor
    · intro fuel
      show dictionary_get fuel s2 k2 = _ ∨ dictionary_get fuel s2 k2 = _
      rw [this]
      exact hget.1 fuel
    · obtain ⟨n, hn⟩ := hget.2
      refine ⟨n, fun fuel hf => ?_⟩
      show dictionary_get fuel s2 k2 = _
      rw [this]
      exact hn fuel hf

/-! ## Sequences of calls -/

theorem dictionary_puts_append (fuel : Nat) (s : State) (l l2 : List (List Nat × Nat)) :
    dictionary_puts fuel s (l ++ l2) =
      match dictionary_puts fuel s l with
      | .timeout => .timeout
      | .fault => .fault
      | .ok s1 => dictionary_puts fuel s1 l2 := by
  induction l generalizing s with
  | nil => rfl
  | cons kd l ih =>
    obtain ⟨key, data⟩ := kd
    simp only [List.cons_append, dictionary_puts]
    cases dictionary_put fuel s key data with
    | timeout => rfl
    | fault => rfl
    | ok s1 => exact ih s1

theorem Reachable.puts {D : Nat} {dd : Option Nat} {s s1 : State} {fuel : Nat}
    (l : List (List Nat × Nat)) (h : Reachable D dd s) (hp : dictionary_puts fuel s l = .ok s1) :
    Reachable D dd s1 := by
  induction l generalizing s with
  | nil =>
    simp only [dictionary_puts] at hp
    cases hp
    exact h
  | cons kd l ih =>
    obtain ⟨key, data⟩ := kd
    simp only [dictionary_puts] at hp
    cases hput : dictionary_put fuel s key data with
    | timeout => rw [hput] at hp; cases hp
    | fault => rw [hput] at hp; cases hp
    | ok s2 =>
      rw [hput] at hp
      exact ih (Reachable.put fuel key data h hput) hp

/-- A sequence of puts on a state that satisfies the invariant either returns,
with `elements_amount` increased by the number of puts, or runs forever. -/
theorem dictionary_puts_total {s : State} {B : Nat → List Nat} (h : Inv s B)
    (l : List (List Nat × Nat)) :
    (∃ s1 B1, Returns (fun fuel => dictionary_puts fuel s l) s1 ∧ Inv s1 B1 ∧
        dictionary_size s1 = dictionary_size s + l.length) ∨
      Diverges fun fuel => dictionary_puts fuel s l := by
  induction l generalizing s B with
  | nil => exact Or.inl ⟨s, B, Returns.const s, h, rfl⟩
  | cons kd l ih =>
    obtain ⟨key, data⟩ := kd
    rcases dictionary_put_total h key data with ⟨s1, B1, hret, hinv, hpost, -⟩ | hdiv
    · rcases ih hinv with ⟨s2, B2, hret2, hinv2, hsize⟩ | hdiv2
      · left
        refine ⟨s2, B2, ⟨fun fuel => ?_, ?_⟩, hinv2, ?_⟩
        · show dictionary_puts fuel s ((key, data) :: l) = _ ∨
            dictionary_puts fuel s ((key, data) :: l) = _
          simp only [dictionary_puts]
          rcases hret.1 fuel with h3 | h3
          · simp only [] at h3
            rw [h3]
            exact Or.inl rfl
          · simp only [] at h3
            rw [h3]
            exact hret2.1 fuel
        · obtain ⟨n1, hn1⟩ := hret.2
          obtain ⟨n2, hn2⟩ := hret2.2
          refine ⟨max n1 n2, fun fuel hf => ?_⟩
          show dictionary_puts fuel s ((key, data) :: l) = _
          simp only [dictionary_puts]
          have h3 := hn1 fuel (le_trans (le_max_left _ _) hf)
          simp only [] at h3
          rw [h3]
          exact hn2 fuel (le_trans (le_max_right _ _) hf)
        · have := hpost.amount
          simp only [dictionary_size, List.length_cons] at hsize ⊢
          omega
      · right
        intro fuel
        show dictionary_puts fuel s ((key, data) :: l) = .timeout
        simp only [dictionary_puts]
        rcases hret.1 fuel with h3 | h3
        · simp only [] at h3
          rw [h3]
        · simp only [] at h3
          rw [h3]
          exact hdiv2 fuel
    · right
      intro fuel
      show dictionary_puts fuel s ((key, data) :: l) = .timeout
      simp only [dictionary_puts]
      have h3 := hdiv fuel
      simp only [] at h3
      rw [h3]

/-- A put that fills the last empty bucket while some bucket holds a chain of
two or more cells never returns. -/
theorem dictionary_put_long {D : Nat} {dd : Option Nat} {s : State} (hD : 0 < D)
    (hs : Reachable D dd s) (key : List Nat) (data : Nat)
    (hel : s.self.elements (dictionary_hash key % s.self.table_max_size) = none)
    (hfull : s.self.table_max_size ≤ s.self.table_current_size + 1) {i a b : Nat}
    {e : t_hash_element} (hi : i < s.self.table_max_size) (ha : s.self.elements i = some a)
    (he : s.heap a = some e) (hn : e.next = some b) :
    Diverges fun fuel => dictionary_put fuel s key data := by
  obtain ⟨B, hr, -⟩ := hs.inv hD
  have hput := fun fuel => dictionary_put_head fuel s key data hr.pos hel
  obtain ⟨index, hindex⟩ : ∃ index, dictionary_hash key % s.self.table_max_size = index :=
    ⟨_, rfl⟩
  have hidx : index < s.self.table_max_size := by
    rw [← hindex]
    exact Nat.mod_lt _ hr.pos
  rw [hindex] at hput hel
  have hnil : B index = [] := (hr.nil_iff hidx).mpr hel
  have hr2 := hr.put_head key data hindex hnil
  simp only [hfull, if_true] at hput
  have hne : ∀ i, i < s.self.table_max_size → Function.update B index [s.brk] i ≠ [] := by
    intro i hi hn
    have h1 := (hr2.nil_iff hi).mp hn
    have h2 := occupied_buckets_full (put_head_state s key data index).self.elements
      s.self.table_max_size (by
        have h3 := hr2.occupied
        have h4 : (put_head_state s key data index).self.table_current_size =
          s.self.table_current_size + 1 := rfl
        have h5 : (put_head_state s key data index).self.table_max_size =
          s.self.table_max_size := rfl
        rw [h4, h5] at h3
        omega) i hi
    rw [h1] at h2
    cases h2
  have hii : i ≠ index := by
    intro hii
    rw [hii, hel] at ha
    cases ha
  have hex : ∃ i, i < s.self.table_max_size ∧
      2 ≤ (Function.update B index [s.brk] i).length := by
    refine ⟨i, hi, ?_⟩
    rw [Function.update_noteq hii]
    have hc := hr.chain i hi
    rw [ha] at hc
    cases hB : B i with
    | nil => rw [hB] at hc; cases hc
    | cons a1 rest =>
      rw [hB] at hc
      obtain ⟨ha1, e1, he1, hrest⟩ := hc
      cases ha1
      rw [he] at he1
      cases he1
      rw [hn] at hrest
      cases rest with
      | nil => cases hrest
      | cons b1 rest => simp
  have hdiv := dictionary_resize_diverges (s.self.table_max_size * 2) hr2.oldTable
    (by have := hr.pos; omega) hne hex
  intro fuel
  show dictionary_put fuel s key data = .timeout
  have h3 := hdiv fuel
  simp only [] at h3
  rw [hput, h3]

/-- On a dictionary one of whose chains has two or more cells,
`dictionary_clean` never returns. -/
theorem dictionary_clean_long {D : Nat} {dd : Option Nat} {s : State} (hD : 0 < D)
    (hs : Reachable D dd s) {i a b : Nat} {e : t_hash_element}
    (hi : i < s.self.table_max_size) (ha : s.self.elements i = some a)
    (he : s.heap a = some e) (hn : e.next = some b) (fuel : Nat) :
    dictionary_clean fuel s = .timeout ∨ dictionary_clean fuel s = .fault := by
  obtain ⟨B, hinv⟩ := hs.inv hD
  cases hc : dictionary_clean fuel s with
  | timeout => exact Or.inl rfl
  | fault => exact Or.inr rfl
  | ok s1 =>
    exfalso
    have hlen := (dictionary_clean_ok hinv hc).2.2.2.2.2.2.1 i hi
    have hch := hinv.1.chain i hi
    rw [ha] at hch
    cases hB : B i with
    | nil => rw [hB] at hch; cases hch
    | cons a1 rest =>
      rw [hB] at hch hlen
      obtain ⟨ha1, e1, he1, hrest⟩ := hch
      cases ha1
      rw [he] at he1
      cases he1
      rw [hn] at hrest
      cases rest with
      | nil => cases hrest
      | cons b1 rest => simp at hlen

theorem stored_eq_zero {B : Nat → List Nat} {M : Nat} (h : stored B M = 0) (i : Nat)
    (hi : i < M) : B i = [] := by
  unfold stored at h
  rw [List.sum_eq_zero_iff] at h
  have := h (B i).length (List.mem_map.mpr ⟨i, List.mem_range.mpr hi, rfl⟩)
  exact List.eq_nil_of_length_eq_zero this

/-- On a table without entries, a put returns and makes the value reachable
through every key that has the hash of the key put. -/
theorem put_get_empty {s : State} (hM : 0 < s.self.table_max_size)
    (hcur : s.self.table_current_size = 0)
    (hel : ∀ i, i < s.self.table_max_size → s.self.elements i = none) (k1 k2 : List Nat)
    (v : Nat) (hh : dictionary_hash k1 = dictionary_hash k2) :
    ∃ s1, Returns (fun fuel => dictionary_put fuel s k1 v) s1 ∧
      Returns (fun fuel => dictionary_get fuel s1 k2) v := by
  have hidx : dictionary_hash k1 % s.self.table_max_size < s.self.table_max_size :=
    Nat.mod_lt _ hM
  have hput := fun fuel => dictionary_put_head fuel s k1 v hM (hel _ hidx)
  rw [hcur] at hput
  by_cases h1 : s.self.table_max_size ≤ 0 + 1
  · have hM1 : s.self.table_max_size = 1 := by omega
    simp only [h1, if_true] at hput
    have hM0 : s.self.table_max_size ≠ 0 := by omega
    have hres : ∀ fuel, dictionary_resize (fuel + 1)
        (put_head_state s k1 v (dictionary_hash k1 % s.self.table_max_size))
        (s.self.table_max_size * 2) =
        .ok (Run.state s (dictionary_resize 1
          (put_head_state s k1 v (dictionary_hash k1 % s.self.table_max_size))
          (s.self.table_max_size * 2))) := by
      intro fuel
      simp [dictionary_resize, resize_for, resize_do_while, resize_body, resize_link, set_next,
        put_head_state, hM1, Run.state, new_cell, Nat.mod_one]
    refine ⟨count_element (Run.state s (dictionary_resize 1
          (put_head_state s k1 v (dictionary_hash k1 % s.self.table_max_size))
          (s.self.table_max_size * 2))), ⟨fun fuel => ?_, 1, fun fuel hf => ?_⟩, ?_⟩
    · show dictionary_put fuel s k1 v = _ ∨ dictionary_put fuel s k1 v = _
      cases fuel with
      | zero =>
        left
        rw [hput]
        simp [dictionary_resize, resize_for, resize_do_while, put_head_state, hM1, Nat.mod_one]
      | succ n =>
        right
        rw [hput, hres]
    · obtain ⟨m, rfl⟩ : ∃ m, fuel = m + 1 := ⟨fuel - 1, by omega⟩
      show dictionary_put (m + 1) s k1 v = _
      rw [hput, hres]
    · have hget : ∀ fuel, dictionary_get (fuel + 1)
          (count_element (Run.state s (dictionary_resize 1
          (put_head_state s k1 v (dictionary_hash k1 % s.self.table_max_size))
          (s.self.table_max_size * 2)))) k2 = .ok v := by
        intro fuel
        simp [dictionary_resize, resize_for, resize_do_while, resize_body, resize_link, set_next,
          put_head_state, hM1, Run.state, new_cell, Nat.mod_one, dictionary_get,
          dictionary_get_element, count_element, ← hh, get_element_do_while]
      refine ⟨fun fuel => ?_, 1, fun fuel hf => ?_⟩
      · cases fuel with
        | zero =>
          left
          simp [dictionary_resize, resize_for, resize_do_while, resize_body, resize_link,
            set_next, put_head_state, hM1, Run.state, new_cell, Nat.mod_one, dictionary_get,
            dictionary_get_element, count_element, ← hh, get_element_do_while]
        | succ n => exact Or.inr (hget n)
      · obtain ⟨m, rfl⟩ : ∃ m, fuel = m + 1 := ⟨fuel - 1, by omega⟩
        exact hget m
  · simp only [h1, if_false] at hput
    refine ⟨_, ⟨fun fuel => Or.inr (hput fuel), 0, fun fuel _ => hput fuel⟩, ?_⟩
    have hM0 : s.self.table_max_size ≠ 0 := by omega
    have hget : ∀ fuel, dictionary_get (fuel + 1)
        (count_element (put_head_state s k1 v (dictionary_hash k1 % s.self.table_max_size)))
        k2 = .ok v := by
      intro fuel
      simp [dictionary_get, dictionary_get_element, count_element, put_head_state, hM0, ← hh,
        get_element_do_while, new_cell]
    refine ⟨fun fuel => ?_, 1, fun fuel hf => ?_⟩
    · cases fuel with
      | zero =>
        left
        simp [dictionary_get, dictionary_get_element, count_element, put_head_state, hM0, ← hh,
          get_element_do_while]
      | succ n => exact Or.inr (hget n)
    · obtain ⟨m, rfl⟩ : ∃ m, fuel = m + 1 := ⟨fuel - 1, by omega⟩
      exact hget m

theorem dictionary_entries_of_empty {s : State}
    (hel : ∀ i, i < s.self.table_max_size → s.self.elements i = none) :
    dictionary_entries s = [] := by
  unfold dictionary_entries
  rw [List.flatMap_eq_nil_iff]
  intro i hi
  rw [hel i (List.mem_range.mp hi)]
  cases s.brk <;> rfl

/-- A new dictionary stores no entry. -/
theorem dictionary_entries_create (D : Nat) (dd : Option Nat) :
    dictionary_entries (dictionary_create D dd) = [] :=
  dictionary_entries_of_empty fun _ _ => rfl

/-- Whenever `dictionary_clean` returns on a reachable dictionary, the
dictionary is empty, keeps its capacity, and is usable: a put followed by a
get of the same key returns the value put. -/
theorem dictionary_clean_usable {D : Nat} {dd : Option Nat} {s s1 : State} {fuel : Nat}
    (hD : 0 < D) (hs : Reachable D dd s) (hc : dictionary_clean fuel s = .ok s1) :
    dictionary_size s1 = 0 ∧ dictionary_is_empty s1 = true ∧
      s1.self.table_current_size = 0 ∧
      (∀ i, i < s1.self.table_max_size → s1.self.elements i = none) ∧
      dictionary_entries s1 = [] ∧
      s1.self.table_max_size = s.self.table_max_size ∧
      ∀ (key : List Nat) (v : Nat),
        ∃ s2, Returns (fun fuel => dictionary_put fuel s1 key v) s2 ∧
          Returns (fun fuel => dictionary_get fuel s2 key) v := by
  obtain ⟨B, hinv⟩ := hs.inv hD
  obtain ⟨hinv1, hsz, -, hamt, hcur, hel, -, -⟩ := dictionary_clean_ok hinv hc
  have hel1 : ∀ i, i < s1.self.table_max_size → s1.self.elements i = none := by
    intro i hi
    rw [hsz] at hi
    exact hel i hi
  refine ⟨hamt, ?_, hcur, hel1, dictionary_entries_of_empty hel1, hsz, fun key v => ?_⟩
  · simp [dictionary_is_empty, hamt]
  · exact put_get_empty hinv1.1.pos hcur hel1 key key v rfl

theorem Reachable.destroyer {D : Nat} {dd : Option Nat} {s : State} (hD : 0 < D)
    (h : Reachable D dd s) : s.self.data_destroyer = dd := by
  induction h with
  | create => rfl
  | put fuel key data hs hp ih =>
    obtain ⟨B, hB⟩ := hs.inv hD
    obtain ⟨B1, -, hpost, -⟩ := hB.put_ok hp
    rw [hpost.destroyer, ih]
  | clean fuel hs hc ih =>
    obtain ⟨B, hB⟩ := hs.inv hD
    rw [(dictionary_clean_ok hB hc).2.2.1, ih]

theorem flatMap_congr_mem {α β : Type} {f g : α → List β} {l : List α}
    (h : ∀ x ∈ l, f x = g x) : l.flatMap f = l.flatMap g := by
  induction l with
  | nil => rfl
  | cons x l ih =>
    rw [List.flatMap_cons, List.flatMap_cons, h x (List.mem_cons_self _ _),
      ih fun y hy => h y (List.mem_cons_of_mem _ hy)]

theorem flatMap_toList {α β : Type} (g : α → Option β) (l : List α) :
    (l.flatMap fun i => (g i).toList) = l.filterMap g := by
  induction l with
  | nil => rfl
  | cons x l ih =>
    rw [List.flatMap_cons, ih]
    cases hg : g x with
    | none => rw [List.filterMap_cons_none hg]; rfl
    | some b => rw [List.filterMap_cons_some hg]; rfl

theorem Represents.cells_eq {s : State} {B : Nat → List Nat} (h : Represents s B) {i : Nat}
    (hi : i < s.self.table_max_size) :
    chain_cells s.brk s.heap (s.self.elements i) = (B i).filterMap s.heap :=
  chain_cells_eq (h.chain i hi) s.brk
    (length_le_of_nodup_lt (h.chain i hi).nodup fun _ ha => h.lt_brk hi ha)

theorem Represents.cells_length {s : State} {B : Nat → List Nat} (h : Represents s B) {i : Nat}
    (hi : i < s.self.table_max_size) :
    (chain_cells s.brk s.heap (s.self.elements i)).length = (B i).length := by
  rw [h.cells_eq hi]
  have hall : ∀ a ∈ B i, ∃ e, s.heap a = some e := fun a ha => by
    obtain ⟨e, he, -⟩ := h.place i hi a ha
    exact ⟨e, he⟩
  generalize B i = l at hall
  induction l with
  | nil => rfl
  | cons a l ih =>
    obtain ⟨e, he⟩ := hall a (List.mem_cons_self _ _)
    rw [List.filterMap_cons_some he, List.length_cons, List.length_cons,
      ih fun b hb => hall b (List.mem_cons_of_mem _ hb)]

/-- On a dictionary that satisfies the invariant, `dictionary_size` is the
number of stored entries. -/
theorem Inv.entries_length {s : State} {B : Nat → List Nat} (h : Inv s B) :
    (dictionary_entries s).length = dictionary_size s := by
  unfold dictionary_entries dictionary_size
  rw [h.2, List.length_flatMap]
  exact sum_range_congr _ _ _ fun i hi => h.1.cells_length hi

/-- When every chain has at most one cell, the data of the heads of the
buckets are the data of the stored entries. -/
theorem Represents.heads_data_eq {s : State} {B : Nat → List Nat} (h : Represents s B)
    (hlen : ∀ i, i < s.self.table_max_size → (B i).length ≤ 1) :
    heads_data s.heap s.self.elements 0 s.self.table_max_size =
      (dictionary_entries s).map fun e => e.data := by
  unfold heads_data dictionary_entries
  rw [List.map_flatMap, ← List.range_eq_range', ← flatMap_toList]
  refine flatMap_congr_mem fun i hi => ?_
  have hi2 := List.mem_range.mp hi
  rw [h.cells_eq hi2]
  have hc := h.chain i hi2
  have hl := hlen i hi2
  cases hB : B i with
  | nil =>
    rw [hB] at hc
    have hn : s.self.elements i = none := hc
    simp [hn]
  | cons a rest =>
    rw [hB] at hc hl
    obtain ⟨hp, e, he, -⟩ := hc
    cases rest with
    | nil => simp [hp, he]
    | cons b rest => simp at hl

/-- Whenever `dictionary_destroy` returns on a reachable dictionary, the
destroyer, if there is one, has been called once on the data of each stored
entry, in the order of the buckets, and there are `dictionary_size` stored
entries; without destroyer nothing is called. -/
theorem dictionary_destroy_calls {D : Nat} {dd : Option Nat} {s s1 : State} {fuel : Nat}
    (hD : 0 < D) (hs : Reachable D dd s) (hd : dictionary_destroy fuel s = .ok s1) :
    s1.destroyed = s.destroyed ++
        destroyer_calls dd ((dictionary_entries s).map fun e => e.data) ∧
      (dictionary_entries s).length = dictionary_size s := by
  obtain ⟨B, hinv⟩ := hs.inv hD
  obtain ⟨-, -, -, -, -, -, hlen, hlog⟩ := dictionary_clean_ok hinv hd
  rw [hinv.1.heads_data_eq hlen, hs.destroyer hD] at hlog
  exact ⟨hlog, hinv.entries_length⟩

theorem Stores.get {s : State} {B : Nat → List Nat} {L : List (List Nat × Nat)}
    (hr : Represents s B) (h : Stores s B L) (kd : List Nat × Nat) (hkd : kd ∈ L) :
    Returns (fun fuel => dictionary_get fuel s kd.1) kd.2 := by
  obtain ⟨i, a, e, hi, ha, he, hh, hd⟩ := h.found kd hkd
  obtain ⟨e1, he1, hp⟩ := hr.place i hi a ha
  rw [he] at he1
  cases he1
  have hg := dictionary_get_returns hr kd.1
  rw [← hh, hp] at hg
  have hl := chain_lookup_first e.hashcode [] ha he rfl fun x hx hxa ex hex hhx =>
    hxa (h.unique i i x a ex e hi hi hx ha hex he hhx)
  rw [List.append_nil] at hl
  rw [hl, hd] at hg
  exact hg

theorem Stores.put {s s1 : State} {B B1 : Nat → List Nat} {L : List (List Nat × Nat)}
    {key : List Nat} {data : Nat} (hr : Represents s B) (hr1 : Represents s1 B1)
    (h : Stores s B L) (hc : PutCells s B s1 B1 key data)
    (hnew : ∀ kd ∈ L, dictionary_hash kd.1 ≠ dictionary_hash key) :
    Stores s1 B1 (L ++ [(key, data)]) := by
  obtain ⟨en, hen, hpn⟩ := hc.newcell
  have hold : ∀ j x, j < s1.self.table_max_size → x ∈ B1 j → x ≠ s.brk →
      ∀ ex, s1.heap x = some ex →
      ∃ i e0, i < s.self.table_max_size ∧ x ∈ B i ∧ s.heap x = some e0 ∧
        payload ex = payload e0 := by
    intro j x hj hx hxb ex hex
    rcases hc.origin j hj x hx with h1 | ⟨i, hi, hm⟩
    · exact absurd h1 hxb
    · obtain ⟨e0, he0, -⟩ := hr.place i hi x hm
      obtain ⟨e1, he1, hp1⟩ := payload_some (hc.cells x hxb) he0
      rw [hex] at he1
      cases he1
      exact ⟨i, e0, hi, hm, he0, hp1⟩
  refine ⟨?_, ?_, ?_⟩
  · intro j hj x hx ex hex
    by_cases hxb : x = s.brk
    · subst hxb
      rw [hen] at hex
      cases hex
      exact ⟨(key, data), by simp, payload_hashcode hpn⟩
    · obtain ⟨i, e0, hi, hm, he0, hp⟩ := hold j x hj hx hxb ex hex
      obtain ⟨kd, hkd, hh⟩ := h.closed i hi x hm e0 he0
      exact ⟨kd, List.mem_append_left _ hkd, by rw [payload_hashcode hp, hh]⟩
  · intro kd hkd
    rcases List.mem_append.mp hkd with hkd | hkd
    · obtain ⟨i, a, e, hi, ha, he, hh, hd⟩ := h.found kd hkd
      obtain ⟨e1, he1, hm⟩ := hc.kept i hi a ha
      have hab : a ≠ s.brk := by
        have := hr.lt_brk hi ha
        omega
      obtain ⟨e2, he2, hp2⟩ := payload_some (hc.cells a hab) he
      rw [he1] at he2
      cases he2
      exact ⟨_, a, e1, Nat.mod_lt _ hr1.pos, hm, he1, by rw [payload_hashcode hp2, hh],
        by rw [payload_data hp2, hd]⟩
    · simp only [List.mem_singleton] at hkd
      subst hkd
      exact ⟨_, s.brk, en, Nat.mod_lt _ hr1.pos, hc.placed, hen, payload_hashcode hpn,
        payload_data hpn⟩
  · intro j j1 x x1 ex ex1 hj hj1 hx hx1 hex hex1 hhx
    by_cases hxb : x = s.brk
    · by_cases hx1b : x1 = s.brk
      · rw [hxb, hx1b]
      · exfalso
        subst hxb
        rw [hen] at hex
        cases hex
        obtain ⟨i, e0, hi, hm, he0, hp⟩ := hold j1 x1 hj1 hx1 hx1b ex1 hex1
        obtain ⟨kd, hkd, hh⟩ := h.closed i hi x1 hm e0 he0
        apply hnew kd hkd
        rw [← hh, ← payload_hashcode hp, ← hhx, payload_hashcode hpn]
        rfl
    · by_cases hx1b : x1 = s.brk
      · exfalso
        subst hx1b
        rw [hen] at hex1
        cases hex1
        obtain ⟨i, e0, hi, hm, he0, hp⟩ := hold j x hj hx hxb ex hex
        obtain ⟨kd, hkd, hh⟩ := h.closed i hi x hm e0 he0
        apply hnew kd hkd
        rw [← hh, ← payload_hashcode hp, hhx, payload_hashcode hpn]
        rfl
      · obtain ⟨i, e0, hi, hm, he0, hp⟩ := hold j x hj hx hxb ex hex
        obtain ⟨i1, e01, hi1, hm1, he01, hp1⟩ := hold j1 x1 hj1 hx1 hx1b ex1 hex1
        exact h.unique i i1 x x1 e0 e01 hi hi1 hm hm1 he0 he01
          (by rw [← payload_hashcode hp, ← payload_hashcode hp1, hhx])

theorem dictionary_puts_stores {fuel : Nat} (l : List (List Nat × Nat)) :
    ∀ {s s1 : State} {B : Nat → List Nat} {L : List (List Nat × Nat)}, Inv s B →
      Stores s B L →
      ((L ++ l).map fun (kd : List Nat × Nat) => dictionary_hash kd.1).Nodup →
      dictionary_puts fuel s l = .ok s1 →
      ∃ B1, Inv s1 B1 ∧ Stores s1 B1 (L ++ l) ∧
        s1.self.table_max_size = s.self.table_max_size * 2 ^ dictionary_puts_triggers fuel s l := by
  induction l with
  | nil =>
    intro s s1 B L hinv hst _ hp
    simp only [dictionary_puts] at hp
    cases hp
    exact ⟨B, hinv, by rwa [List.append_nil], by simp [dictionary_puts_triggers]⟩
  | cons kd l ih =>
    intro s s1 B L hinv hst hnd hp
    obtain ⟨key, data⟩ := kd
    simp only [dictionary_puts] at hp
    cases hput : dictionary_put fuel s key data with
    | timeout => rw [hput] at hp; cases hp
    | fault => rw [hput] at hp; cases hp
    | ok s2 =>
      rw [hput] at hp
      obtain ⟨B2, hinv2, hpost, hc⟩ := hinv.put_ok hput
      have hnd2 : (((L ++ [(key, data)]) ++ l).map
          fun (kd : List Nat × Nat) => dictionary_hash kd.1).Nodup := by
        rwa [List.append_assoc]
      have hnew : ∀ kd ∈ L, dictionary_hash kd.1 ≠ dictionary_hash key := by
        intro kd hkd hh
        rw [List.map_append, List.map_cons] at hnd
        have hdj := List.disjoint_of_nodup_append hnd
          (List.mem_map.mpr ⟨kd, hkd, rfl⟩)
        exact hdj (by rw [hh]; exact List.mem_cons_self _ _)
      obtain ⟨B1, hinv1, hst1, hsz⟩ :=
        ih hinv2 (hst.put hinv.1 hinv2.1 hc hnew) hnd2 hp
      refine ⟨B1, hinv1, by rwa [List.append_assoc] at hst1, ?_⟩
      rw [hsz]
      simp only [dictionary_puts_triggers, hput]
      by_cases hg : s.self.elements (dictionary_hash key % s.self.table_max_size) = none ∧
          s.self.table_max_size ≤ s.self.table_current_size + 1
      · rw [if_pos hg, hpost.grows.mpr hg, Nat.pow_add, Nat.pow_one]
        ring
      · rw [if_neg hg, Nat.zero_add]
        rcases hpost.size with h1 | h1
        · rw [h1]
        · exact absurd (hpost.grows.mp h1) hg

/-- Resize correctness whenever the puts return: after a returning sequence
of puts of keys with pairwise distinct hashes on a new dictionary, every key
is returned with its value, the size is the number of puts, and the capacity
is the initial one times 2 to the number of puts that filled the table. -/
theorem dictionary_puts_get {D fuel : Nat} {dd : Option Nat} {s : State}
    {l : List (List Nat × Nat)} (hD : 0 < D)
    (hnd : (l.map fun (kd : List Nat × Nat) => dictionary_hash kd.1).Nodup)
    (hp : dictionary_puts fuel (dictionary_create D dd) l = .ok s) :
    (∀ kd ∈ l, Returns (fun fuel => dictionary_get fuel s kd.1) kd.2) ∧
      dictionary_size s = l.length ∧
      s.self.table_max_size =
        D * 2 ^ dictionary_puts_triggers fuel (dictionary_create D dd) l := by
  have hinv : Inv (dictionary_create D dd) fun _ => [] :=
    ⟨Represents.create D dd hD, (stored_nil D).symm⟩
  have hst : Stores (dictionary_create D dd) (fun _ => []) [] :=
    ⟨fun _ _ a ha => (by cases ha), fun kd hkd => (by cases hkd),
      fun _ _ a _ _ _ _ _ ha => (by cases ha)⟩
  obtain ⟨B1, hinv1, hst1, hsz⟩ := dictionary_puts_stores l hinv hst (by simpa using hnd) hp
  rw [List.nil_append] at hst1
  refine ⟨fun kd hkd => hst1.get hinv1.1 kd hkd, ?_, hsz⟩
  rcases dictionary_puts_total hinv l with ⟨s2, B2, hret, -, hsize⟩ | hdiv
  · have := hret.of_ok hp
    subst this
    simpa [dictionary_size, dictionary_create] using hsize
  · have h3 := hdiv fuel
    simp only [] at h3
    rw [h3] at hp
    cases hp

/-- When a sequence of puts returns from a reachable state and one more put
runs forever on the state reached, the longer sequence runs forever. -/
theorem dictionary_puts_hang {D : Nat} {dd : Option Nat} {s0 s : State} {n : Nat} (hD : 0 < D)
    (hs0 : Reachable D dd s0) (l : List (List Nat × Nat)) (key : List Nat) (data : Nat)
    (hl : dictionary_puts n s0 l = .ok s)
    (hdiv : Diverges fun fuel => dictionary_put fuel s key data) :
    Diverges fun fuel => dictionary_puts fuel s0 (l ++ [(key, data)]) := by
  obtain ⟨B, hinv⟩ := hs0.inv hD
  intro fuel
  show dictionary_puts fuel s0 (l ++ [(key, data)]) = .timeout
  rw [dictionary_puts_append]
  rcases dictionary_puts_total hinv l with ⟨s1, B1, hret, -, -⟩ | hdiv1
  · have := hret.of_ok hl
    subst this
    rcases hret.1 fuel with h3 | h3
    · simp only [] at h3
      rw [h3]
    · simp only [] at h3
      rw [h3]
      simp only [dictionary_puts]
      have h4 := hdiv fuel
      simp only [] at h4
      rw [h4]
  · have h3 := hdiv1 n
    simp only [] at h3
    rw [h3] at hl
    cases hl

/-! ## Concrete runs -/

theorem full19_eq : dictionary_puts 1 (dictionary_create 20 none) letters20 = .ok full19 :=
  rfl

theorem full19_reachable : Reachable 20 none full19 :=
  Reachable.puts letters20 Reachable.create full19_eq

/-- On `full19`, a put of a key of bucket 0 runs forever: it fills the last
empty bucket while bucket 2 holds the chain of the two `"a"`. -/
theorem full19_put_diverges (key : List Nat) (data : Nat)
    (hk : dictionary_hash key % 20 = 0) :
    Diverges fun fuel => dictionary_put fuel full19 key data := by
  have h0 : full19.self.table_max_size = 20 := by decide
  have hel : full19.self.elements (dictionary_hash key % full19.self.table_max_size) = none := by
    rw [h0, hk]
    decide
  exact dictionary_put_long (e := { key := 0, hashcode := 3392050242, data := 1, next := some 1 })
    (by decide : 0 < 20) full19_reachable key data hel (by decide)
    (by decide : 2 < full19.self.table_max_size) (by decide : full19.self.elements 2 = some 0)
    (by decide) rfl

theorem twice_a_eq :
    dictionary_puts 1 (dictionary_create 20 none) [([97], 1), ([97], 2)] = .ok twice_a :=
  rfl

theorem twice_a_reachable : Reachable 20 none twice_a :=
  Reachable.puts [([97], 1), ([97], 2)] Reachable.create twice_a_eq

theorem a_b_a_eq :
    dictionary_puts 1 (dictionary_create 20 none) [([97], 1), ([98], 2), ([97], 3)] =
      .ok a_b_a :=
  rfl

theorem a_b_a_reachable : Reachable 20 none a_b_a :=
  Reachable.puts [([97], 1), ([98], 2), ([97], 3)] Reachable.create a_b_a_eq

theorem a_h_eq :
    dictionary_puts 1 (dictionary_create 20 (some 1)) [([97], 1), ([104], 2)] = .ok a_h :=
  rfl

theorem a_h_reachable : Reachable 20 (some 1) a_h :=
  Reachable.puts [([97], 1), ([104], 2)] Reachable.create a_h_eq

theorem grown39_eq : dictionary_puts 1 (dictionary_create 20 none) distinct40 = .ok grown39 :=
  rfl

/-- The scenario `put("a", 1)`, `put("b", 2)`, `put("a", 3)` on a new
dictionary: the size is 3 and the get of `"a"` returns 1, the value of the
first of the two entries of `"a"`. -/
theorem a_b_a_get :
    dictionary_size a_b_a = 3 ∧ ∀ fuel, dictionary_get (fuel + 1) a_b_a [97] = .ok 1 :=
  ⟨by decide, fun _ => rfl⟩

theorem small_a_a_eq :
    dictionary_puts 1 (dictionary_create 2 none) [([97], 1), ([97], 2)] = .ok small_a_a :=
  rfl

/-- The hang of `dictionary_put` does not depend on the initial size being
20: with the initial size 2, the puts of `"a"`, `"a"` and `"b"` already run
forever, the third one filling bucket 1 while bucket 0 holds two cells. -/
theorem small_puts_diverge :
    Diverges fun fuel =>
      dictionary_puts fuel (dictionary_create 2 none) [([97], 1), ([97], 2), ([98], 3)] := by
  have hr : Reachable 2 none small_a_a :=
    Reachable.puts [([97], 1), ([97], 2)] Reachable.create small_a_a_eq
  refine dictionary_puts_hang (by decide : 0 < 2) Reachable.create [([97], 1), ([97], 2)]
    [98] 3 small_a_a_eq ?_
  exact dictionary_put_long
    (e := { key := 0, hashcode := 3392050242, data := 1, next := some 1 })
    (by decide : 0 < 2) hr [98] 3 (by decide) (by decide)
    (by decide : 0 < small_a_a.self.table_max_size)
    (by decide : small_a_a.self.elements 0 = some 0) (by decide) rfl

/-! ## The hash -/

theorem hash_round_eq (h : BitVec 32) (c : Nat) (hc : c < 256) :
    hash_round h.toNat c = (one_at_a_time_round h c).toNat := by
  have h1 : c % 256 = c := Nat.mod_eq_of_lt hc
  have h2 : c % 4294967296 = c := Nat.mod_eq_of_lt (by omega)
  simp only [hash_round, one_at_a_time_round, BitVec.toNat_xor, BitVec.toNat_ushiftRight,
    BitVec.toNat_add, BitVec.toNat_shiftLeft, BitVec.toNat_ofNat, h1]
  norm_num [h2]

theorem hash_foldl_eq (key : List Nat) (hbytes : ∀ c ∈ key, c < 256) (h : BitVec 32) :
    key.foldl hash_round h.toNat = (key.foldl one_at_a_time_round h).toNat := by
  induction key generalizing h with
  | nil => rfl
  | cons c key ih =>
    rw [List.foldl_cons, List.foldl_cons, hash_round_eq h c (hbytes c (List.mem_cons_self _ _))]
    exact ih (fun d hd => hbytes d (List.mem_cons_of_mem _ hd)) _

theorem dictionary_hash_eq (key : List Nat) (hbytes : ∀ c ∈ key, c < 256) :
    dictionary_hash key = (one_at_a_time key).toNat := by
  have h : key.foldl hash_round 0 = (key.foldl one_at_a_time_round 0).toNat :=
    hash_foldl_eq key hbytes 0
  simp only [dictionary_hash, one_at_a_time, BitVec.toNat_xor, BitVec.toNat_ushiftRight,
    BitVec.toNat_add, BitVec.toNat_shiftLeft]
  rw [← h]

theorem hash_round_mod (h c : Nat) : hash_round h (c % 256) = hash_round h c := by
  simp [hash_round]

theorem hash_foldl_mod (key : List Nat) (h : Nat) :
    (key.map fun c => c % 256).foldl hash_round h = key.foldl hash_round h := by
  induction key generalizing h with
  | nil => rfl
  | cons c key ih =>
    rw [List.map_cons, List.foldl_cons, List.foldl_cons, hash_round_mod]
    exact ih _

/-- The hash reads every character as the byte it is modulo 256: it is the
one-at-a-time hash of the bytes. -/
theorem dictionary_hash_bytes (key : List Nat) :
    dictionary_hash key = (one_at_a_time (key.map fun c => c % 256)).toNat := by
  rw [← dictionary_hash_eq _ (by
    intro c hc
    obtain ⟨d, -, rfl⟩ := List.mem_map.mp hc
    exact Nat.mod_lt _ (by decide))]
  simp only [dictionary_hash, hash_foldl_mod]

/-- The hash is a 32-bit number. -/
theorem dictionary_hash_lt (key : List Nat) : dictionary_hash key < 4294967296 := by
  rw [dictionary_hash_bytes]
  exact (one_at_a_time _).isLt

/-! ## Invariants of the reachable dictionaries -/

theorem Keyed.after_put {s s1 : State} {B B1 : Nat → List Nat} {key : List Nat} {data : Nat}
    (hk : Keyed s B) (hr : Represents s B) (hr1 : Represents s1 B1)
    (hc : PutCells s B s1 B1 key data) (hp : PutPost s s1 key) : Keyed s1 B1 := by
  intro j hj x hx
  obtain ⟨e1, he1, -⟩ := hr1.place j hj x hx
  rcases hc.origin j hj x hx with hxb | ⟨i, hi, hxi⟩
  · subst hxb
    obtain ⟨e, he, hpay⟩ := hc.newcell
    rw [he1] at he
    cases he
    simp only [payload, new_cell, Prod.mk.injEq] at hpay
    refine ⟨e1, key, he1, ?_, ?_, hpay.2.1⟩
    · rw [hpay.1, hp.brk]
      omega
    · rw [hpay.1, hp.strings, Function.update_same]
  · obtain ⟨e, bytes, he, hlt, hs, hh⟩ := hk i hi x hxi
    have hne : x ≠ s.brk := Nat.ne_of_lt (hr.lt_brk hi hxi)
    have h1 := hc.cells x hne
    rw [he1, he] at h1
    simp only [Option.map_some', Option.some.injEq, payload, Prod.mk.injEq] at h1
    refine ⟨e1, bytes, he1, ?_, ?_, ?_⟩
    · rw [h1.1, hp.brk]
      omega
    · rw [h1.1, hp.strings, Function.update_noteq (by omega)]
      exact hs
    · rw [h1.2.1]
      exact hh

theorem Reachable.sound {D : Nat} {dd : Option Nat} {s : State} (hD : 0 < D)
    (h : Reachable D dd s) :
    ∃ B, Inv s B ∧ Keyed s B ∧ s.self.table_current_size < s.self.table_max_size ∧
      ∃ k, s.self.table_max_size = D * 2 ^ k := by
  induction h with
  | create =>
    exact ⟨fun _ => [], ⟨Represents.create D dd hD, (stored_nil D).symm⟩,
      fun _ _ a ha => (by cases ha), hD, 0, (Nat.mul_one D).symm⟩
  | put fuel key data _ hp ih =>
    obtain ⟨B, hB, hk, hlt, k, hk2⟩ := ih
    obtain ⟨B1, hB1, hpost, hcells⟩ := hB.put_ok hp
    refine ⟨B1, hB1, hk.after_put hB.1 hB1.1 hcells hpost, hpost.below hlt, ?_⟩
    rcases hpost.size with h1 | h1
    · exact ⟨k, by rw [h1, hk2]⟩
    · exact ⟨k + 1, by rw [h1, hk2, Nat.pow_succ, Nat.mul_assoc]⟩
  | clean fuel _ hc ih =>
    obtain ⟨B, hB, hk, hlt, k, hk2⟩ := ih
    obtain ⟨h1, h2, -, -, h5, -⟩ := dictionary_clean_ok hB hc
    refine ⟨_, h1, fun _ _ a ha => (by cases ha), ?_, k, by rw [h2, hk2]⟩
    rw [h5]
    exact h1.1.pos

theorem resize_link_count (fuel : Nat) (s : State) (nt : Nat → Option Nat) (idx a : Nat) :
    resize_link fuel (count_element s) nt idx a =
      Run.map (fun (r : State × (Nat → Option Nat)) => (count_element r.1, r.2))
        (resize_link fuel s nt idx a) := by
  unfold resize_link
  cases nt idx with
  | none => rfl
  | some ne =>
    simp only [show (count_element s).heap = s.heap from rfl]
    cases last_element fuel s.heap ne with
    | timeout => rfl
    | fault => rfl
    | ok last =>
      simp only []
      cases set_next s.heap last (some a) with
      | timeout => rfl
      | fault => rfl
      | ok heap => rfl

theorem resize_body_count (fuel : Nat) (s : State) (nt : Nat → Option Nat) (M2 a : Nat) :
    resize_body fuel (count_element s) nt M2 a =
      Run.map (fun (r : State × (Nat → Option Nat) × Option Nat) => (count_element r.1, r.2))
        (resize_body fuel s nt M2 a) := by
  unfold resize_body
  simp only [show (count_element s).heap = s.heap from rfl]
  cases s.heap a with
  | none => rfl
  | some e =>
    by_cases hM : M2 = 0
    · simp only [hM, if_true]
      rfl
    · simp only [hM, if_false]
      rw [resize_link_count]
      cases resize_link fuel s nt (e.hashcode % M2) a with
      | timeout => rfl
      | fault => rfl
      | ok r =>
        obtain ⟨s1, nt1⟩ := r
        simp only [Run.map, show (count_element s1).heap = s1.heap from rfl]
        cases s1.heap a with
        | none => rfl
        | some e1 =>
          cases set_next s1.heap a none with
          | timeout => rfl
          | fault => rfl
          | ok heap => rfl

theorem resize_do_while_count (fuel : Nat) (s : State) (nt : Nat → Option Nat) (M2 a : Nat) :
    resize_do_while fuel (count_element s) nt M2 a =
      Run.map (fun (r : State × (Nat → Option Nat)) => (count_element r.1, r.2))
        (resize_do_while fuel s nt M2 a) := by
  induction fuel generalizing s nt with
  | zero => rfl
  | succ fuel ih =>
    simp only [resize_do_while]
    rw [resize_body_count]
    cases resize_body fuel s nt M2 a with
    | timeout => rfl
    | fault => rfl
    | ok r =>
      obtain ⟨s1, nt1, nx⟩ := r
      cases nx with
      | none => rfl
      | some b => exact ih s1 nt1

theorem resize_for_count (count fuel : Nat) (s : State) (nt old : Nat → Option Nat)
    (M2 t : Nat) :
    resize_for count fuel (count_element s) nt old M2 t =
      Run.map (fun (r : State × (Nat → Option Nat)) => (count_element r.1, r.2))
        (resize_for count fuel s nt old M2 t) := by
  induction count generalizing s nt t with
  | zero => rfl
  | succ count ih =>
    simp only [resize_for]
    cases old t with
    | none => rfl
    | some a =>
      simp only []
      rw [resize_do_while_count]
      cases resize_do_while fuel s nt M2 a with
      | timeout => rfl
      | fault => rfl
      | ok r =>
        obtain ⟨s1, nt1⟩ := r
        exact ih s1 nt1 (t + 1)

/-- `dictionary_resize` does not read `elements_amount`, nor write it. -/
theorem dictionary_resize_count (fuel : Nat) (s : State) (M2 : Nat) :
    dictionary_resize fuel (count_element s) M2 =
      Run.map count_element (dictionary_resize fuel s M2) := by
  have h1 : dictionary_resize fuel (count_element s) M2 =
      (match resize_for s.self.table_max_size fuel
          (count_element { s with self := { s.self with table_current_size := 0 } })
          (fun _ => none) s.self.elements M2 0 with
        | Run.timeout => Run.timeout
        | Run.fault => Run.fault
        | Run.ok (s1, new_table) =>
          Run.ok
            { s1 with self := { s1.self with elements := new_table, table_max_size := M2 } }) :=
    rfl
  rw [h1, resize_for_count]
  unfold dictionary_resize
  cases resize_for s.self.table_max_size fuel
      { s with self := { s.self with table_current_size := 0 } } (fun _ => none)
      s.self.elements M2 0 with
  | timeout => rfl
  | fault => rfl
  | ok r => rfl

/-- The `for` loop of `dictionary_resize` returns only when every bucket it
visits has a head. -/
theorem resize_for_ok_some {count fuel : Nat} {s : State} {nt old : Nat → Option Nat}
    {M2 t : Nat} {r : State × (Nat → Option Nat)}
    (h : resize_for count fuel s nt old M2 t = .ok r) (i : Nat) (hti : t ≤ i)
    (hi : i < t + count) : old i ≠ none := by
  induction count generalizing s nt t with
  | zero => omega
  | succ count ih =>
    simp only [resize_for] at h
    cases ho : old t with
    | none => rw [ho] at h; cases h
    | some a =>
      rw [ho] at h
      simp only [] at h
      cases hd : resize_do_while fuel s nt M2 a with
      | timeout => rw [hd] at h; cases h
      | fault => rw [hd] at h; cases h
      | ok r1 =>
        rw [hd] at h
        obtain ⟨s1, nt1⟩ := r1
        by_cases hit : i = t
        · subst hit
          rw [ho]
          exact fun hc => by cases hc
        · exact ih h (by omega) (by omega)

theorem dictionary_resize_ok_some {fuel : Nat} {s s1 : State} {M2 : Nat}
    (h : dictionary_resize fuel s M2 = .ok s1) (i : Nat) (hi : i < s.self.table_max_size) :
    s.self.elements i ≠ none := by
  unfold dictionary_resize at h
  cases hf : resize_for s.self.table_max_size fuel
      { s with self := { s.self with table_current_size := 0 } } (fun _ => none)
      s.self.elements M2 0 with
  | timeout => rw [hf] at h; cases h
  | fault => rw [hf] at h; cases h
  | ok r => exact resize_for_ok_some hf i (Nat.zero_le _) (by omega)

theorem bucket_chain_eq {s : State} {B : Nat → List Nat} (h : Represents s B) {i : Nat}
    (hi : i < s.self.table_max_size) : bucket_chain s i = (B i).filterMap s.heap :=
  h.cells_eq hi

/-- What `dictionary_put` does to the chains when the bucket of the key is
not empty. -/
theorem put_chain_state_chains {s : State} {B : Nat → List Nat} (h : Represents s B)
    (key : List Nat) (data : Nat) {l : List Nat} {t index : Nat} {et : t_hash_element}
    (hindex : dictionary_hash key % s.self.table_max_size = index)
    (hB : B index = l ++ [t]) (het : s.heap t = some et) :
    (∀ i, i < s.self.table_max_size → i ≠ index →
        bucket_chain (put_chain_state s key data t et) i = bucket_chain s i) ∧
      (bucket_chain (put_chain_state s key data t et) index).map payload =
        (bucket_chain s index).map payload ++ [(s.brk, dictionary_hash key, data)] := by
  have hidx : index < s.self.table_max_size := by
    rw [← hindex]
    exact Nat.mod_lt _ h.pos
  have h1 := h.put_chain key data hindex hB het
  have htm : t ∈ B index := by rw [hB]; simp
  have hnd : (l ++ [t]).Nodup := by
    have := (h.chain _ hidx).nodup
    rwa [hB] at this
  constructor
  · intro i hi hne
    rw [bucket_chain_eq h1 hi, bucket_chain_eq h hi, Function.update_noteq hne]
    refine List.filterMap_congr fun a ha => ?_
    have hab : a < s.brk := h.lt_brk hi ha
    have hat : a ≠ t := fun hc => hne (h.disjoint hi hidx ha (hc ▸ htm))
    rw [put_chain_state_heap, if_neg hat, if_neg (by omega)]
  · rw [bucket_chain_eq h1 hidx, bucket_chain_eq h hidx, Function.update_same, hB]
    have htb : t < s.brk := h.lt_brk hidx htm
    have hl : l.filterMap (put_chain_state s key data t et).heap = l.filterMap s.heap := by
      refine List.filterMap_congr fun a ha => ?_
      have hab : a < s.brk := h.lt_brk hidx (by rw [hB]; simp [ha])
      have hat : a ≠ t := fun hc => by
        subst hc
        exact (List.nodup_append.mp hnd).2.2 ha (List.mem_singleton_self _)
      rw [put_chain_state_heap, if_neg hat, if_neg (by omega)]
    have ht : (put_chain_state s key data t et).heap t = some { et with next := some s.brk } := by
      rw [put_chain_state_heap, if_pos rfl]
    have hb : (put_chain_state s key data t et).heap s.brk = some (new_cell s.brk key data) := by
      rw [put_chain_state_heap, if_neg (by omega), if_pos rfl]
    simp only [List.filterMap_append, List.filterMap_cons, List.filterMap_nil, hl, ht, hb, het,
      List.map_append, List.map_cons, List.map_nil, List.append_assoc]
    rfl

theorem OldTable.ne_nil {s : State} {B : Nat → List Nat} (h : OldTable s B) {i : Nat}
    (hi : i < s.self.table_max_size) (hne : s.self.elements i ≠ none) : B i ≠ [] := by
  intro hn
  have hc := h.chain i hi
  rw [hn] at hc
  exact hne hc

/-- On a table whose buckets all have a head, `dictionary_resize` returns when
every chain is a single cell and runs forever otherwise. -/
theorem dictionary_resize_total {s : State} {B : Nat → List Nat} (M2 : Nat)
    (hold : OldTable s B) (hM2 : 0 < M2)
    (hall : ∀ i, i < s.self.table_max_size → B i ≠ []) :
    ((∀ i, i < s.self.table_max_size → (B i).length = 1) ∧
        ∃ s1 NB, Resized s B M2 s1 NB ∧ Returns (fun fuel => dictionary_resize fuel s M2) s1) ∨
      ((∃ i, i < s.self.table_max_size ∧ 2 ≤ (B i).length) ∧
        Diverges fun fuel => dictionary_resize fuel s M2) := by
  by_cases hone : ∀ i, i < s.self.table_max_size → (B i).length = 1
  · left
    refine ⟨hone, dictionary_resize_returns M2 hold hM2 fun i hi => ?_⟩
    exact List.length_eq_one.mp (hone i hi)
  · right
    have hex : ∃ i, i < s.self.table_max_size ∧ 2 ≤ (B i).length := by
      by_contra hcon
      apply hone
      intro i hi
      have h1 := hall i hi
      have h2 : ¬ 2 ≤ (B i).length := fun h2 => hcon ⟨i, hi, h2⟩
      have h3 : (B i).length ≠ 0 := fun h3 => h1 (List.length_eq_zero.mp h3)
      omega
    exact ⟨hex, dictionary_resize_diverges M2 hold hM2 hall hex⟩

/-- When `dictionary_resize` returns, the new table has the new size and
`table_current_size` counts its occupied buckets. -/
theorem dictionary_resize_occupied {s s1 : State} {B : Nat → List Nat} {M2 fuel : Nat}
    (hold : OldTable s B) (hM2 : 0 < M2) (hres : dictionary_resize fuel s M2 = .ok s1) :
    s1.self.table_max_size = M2 ∧
      s1.self.table_current_size = occupied_buckets s1.self.elements s1.self.table_max_size ∧
      s1.self.elements_amount = s.self.elements_amount := by
  have hall : ∀ i, i < s.self.table_max_size → B i ≠ [] := fun i hi =>
    hold.ne_nil hi (dictionary_resize_ok_some hres i hi)
  rcases dictionary_resize_total M2 hold hM2 hall with ⟨-, s2, NB, hr, hret⟩ | ⟨-, hdiv⟩
  · have := hret.of_ok hres
    subst this
    refine ⟨hr.size, ?_, hr.amount⟩
    rw [hr.size]
    exact hr.occupied
  · have h1 := hdiv fuel
    simp only [] at h1
    rw [h1] at hres
    cases hres

theorem resize_spec_entry_eq (fuel : Nat) (s : State) (nt : Nat → Option Nat) (M2 a : Nat) :
    resize_spec_entry fuel s nt M2 a = resize_body fuel s nt M2 a :=
  rfl

/-- On an entry without successor the walk of the specification and the
`do/while` of the program do the same. -/
theorem resize_spec_chain_single {s s1 : State} {nt nt1 : Nat → Option Nat} {M2 a : Nat}
    (hb : Returns (fun fuel => resize_body fuel s nt M2 a) (s1, nt1, none)) (fuel : Nat) :
    resize_spec_chain fuel s nt M2 (some a) = resize_do_while fuel s nt M2 a := by
  cases fuel with
  | zero => rfl
  | succ n =>
    simp only [resize_spec_chain, resize_do_while, resize_spec_entry_eq]
    rcases hb.1 n with h | h
    · simp only [] at h
      rw [h]
    · simp only [] at h
      rw [h]
      cases n <;> rfl

theorem resize_spec_for_eq {s0 : State} {B : Nat → List Nat} {M2 : Nat} (hold : OldTable s0 B)
    (hM2 : 0 < M2) (fuel count : Nat) :
    ∀ (t : Nat) (s : State) (nt : Nat → Option Nat) (NB : Nat → List Nat),
      ResizeInv s0 B M2 t s nt NB → t + count = s0.self.table_max_size →
      (∀ i, t ≤ i → i < s0.self.table_max_size → ∃ a, B i = [a]) →
      resize_spec_for count fuel s nt s0.self.elements M2 t =
        resize_for count fuel s nt s0.self.elements M2 t := by
  induction count with
  | zero =>
    intro t s nt NB _ _ _
    rfl
  | succ count ih =>
    intro t s nt NB h ht hall
    have htM : t < s0.self.table_max_size := by omega
    obtain ⟨a, hB⟩ := hall t (Nat.le_refl _) htM
    have hc0 := hold.chain t htM
    rw [hB] at hc0
    obtain ⟨hot, e, he0, hen⟩ := hc0
    have hen : e.next = none := hen
    have hat : a ∈ B t := by rw [hB]; simp
    have ha : s.heap a = some e := by rw [h.rest t (Nat.le_refl _) htM a hat, he0]
    have hnew : ∀ j, j < M2 → a ∉ NB j := by
      intro j hj hm
      obtain ⟨i, hi, hmi⟩ := h.moved j hj a hm
      have := hold.disjoint i t (by omega) htM a hmi hat
      omega
    obtain ⟨h1, c1, nt1, hret, -⟩ := resize_body_first hM2 h.chain h.place ha hnew h.occupied
    rw [hen] at hret
    simp only [resize_spec_for, resize_for, hot, resize_spec_chain_single hret fuel]
    obtain ⟨s2, nt2, NB2, h2, hret2⟩ := h.step hold hM2 htM hB
    cases hd : resize_do_while fuel s nt M2 a with
    | timeout => rfl
    | fault => rfl
    | ok r =>
      have hr := hret2.of_ok hd
      subst hr
      exact ih (t + 1) s2 nt2 NB2 h2 (by omega) fun i hi hiM => hall i (by omega) hiM

/-- On a table whose chains are single cells, the resize of the specification
and `dictionary_resize` do the same. -/
theorem dictionary_resize_spec_eq {s : State} {B : Nat → List Nat} (M2 : Nat)
    (hold : OldTable s B) (hM2 : 0 < M2)
    (hall : ∀ i, i < s.self.table_max_size → ∃ a, B i = [a]) (fuel : Nat) :
    dictionary_resize_spec fuel s M2 = dictionary_resize fuel s M2 := by
  have h := resize_spec_for_eq hold.zero hM2 fuel s.self.table_max_size 0 (s.relink s.heap 0)
    (fun _ => none) (fun _ => []) (ResizeInv.start _ B M2 rfl) (Nat.zero_add _)
    fun i _ hi => hall i hi
  simp only [State.relink] at h
  simp only [dictionary_resize_spec, dictionary_resize]
  rw [h]

theorem put_chain_self {fuel : Nat} {s s2 : State} {element new_element : Nat}
    (hp : put_chain fuel s element new_element = .ok s2) : s2.self = s.self := by
  simp only [put_chain] at hp
  cases hl : last_element fuel s.heap element with
  | timeout => rw [hl] at hp; cases hp
  | fault => rw [hl] at hp; cases hp
  | ok last =>
    rw [hl] at hp
    simp only [] at hp
    cases hs : set_next s.heap last (some new_element) with
    | timeout => rw [hs] at hp; cases hp
    | fault => rw [hs] at hp; cases hp
    | ok heap =>
      rw [hs] at hp
      cases hp
      rfl

/-- The put of the specification into an empty bucket. -/
theorem dictionary_put_spec_head (fuel : Nat) (s : State) (key : List Nat) (data : Nat)
    (hM : 0 < s.self.table_max_size)
    (hel : s.self.elements (dictionary_hash key % s.self.table_max_size) = none) :
    dictionary_put_spec fuel s key data =
      if s.self.table_max_size ≤ s.self.table_current_size + 1 then
        dictionary_resize_spec fuel
          (count_element
            (put_head_state s key data (dictionary_hash key % s.self.table_max_size)))
          (s.self.table_max_size * 2)
      else
        .ok (count_element
          (put_head_state s key data (dictionary_hash key % s.self.table_max_size))) := by
  have hM0 : s.self.table_max_size ≠ 0 := by omega
  by_cases hfull : s.self.table_max_size ≤ s.self.table_current_size + 1
  · rw [if_pos hfull]
    simp only [dictionary_put_spec, hM0, if_false, dictionary_create_element, key_argument, hel]
    exact if_pos hfull
  · rw [if_neg hfull]
    simp only [dictionary_put_spec, hM0, if_false, dictionary_create_element, key_argument, hel]
    exact if_neg hfull

/-- The put of the specification into an occupied bucket, when fewer buckets
are occupied than the table has, does what `dictionary_put` does. -/
theorem dictionary_put_spec_chain (fuel : Nat) (s : State) (key : List Nat) (data : Nat)
    (hlt : s.self.table_current_size < s.self.table_max_size) {element : Nat}
    (hel : s.self.elements (dictionary_hash key % s.self.table_max_size) = some element) :
    dictionary_put_spec fuel s key data = dictionary_put fuel s key data := by
  have hM0 : s.self.table_max_size ≠ 0 := by omega
  simp only [dictionary_put, dictionary_put_spec, hM0, if_false, dictionary_create_element,
    key_argument, hel]
  cases hp : put_chain fuel
      { s with
        heap := Function.update s.heap s.brk
          (some { key := s.brk, data := data, hashcode := dictionary_hash key, next := none })
        brk := s.brk + 1
        strings := Function.update s.strings s.brk (some key) } element s.brk with
  | timeout => rfl
  | fault => rfl
  | ok s2 =>
    have h2 : s2.self = s.self := by
      have h := put_chain_self hp
      exact h
    have h3 : ¬ (count_element s2).self.table_max_size ≤
        (count_element s2).self.table_current_size := by
      show ¬ s2.self.table_max_size ≤ s2.self.table_current_size
      rw [h2]
      omega
    simp only [h3, if_false]

theorem spread19_eq :
    dictionary_puts 1 (dictionary_create 20 none) (distinct40.take 19) = .ok spread19 :=
  rfl

theorem spread19_reachable : Reachable 20 none spread19 :=
  Reachable.puts (distinct40.take 19) Reachable.create spread19_eq

/-- When `dictionary_put` has filled the last empty bucket, every bucket has a
head that is an allocated cell. -/
theorem put_head_state_full {s : State} {B : Nat → List Nat} (h : Represents s B)
    (key : List Nat) (data : Nat) {index : Nat}
    (hindex : dictionary_hash key % s.self.table_max_size = index) (hB : B index = [])
    (hfull : s.self.table_max_size ≤ s.self.table_current_size + 1) (i : Nat)
    (hi : i < s.self.table_max_size) :
    Function.update B index [s.brk] i ≠ [] ∧
      ∃ a e, (put_head_state s key data index).self.elements i = some a ∧
        (put_head_state s key data index).heap a = some e := by
  have hr2 := h.put_head key data hindex hB
  have h2 := occupied_buckets_full (put_head_state s key data index).self.elements
    s.self.table_max_size (by
      have h3 := hr2.occupied
      have h4 : (put_head_state s key data index).self.table_current_size =
        s.self.table_current_size + 1 := rfl
      have h5 : (put_head_state s key data index).self.table_max_size =
        s.self.table_max_size := rfl
      rw [h4, h5] at h3
      omega) i hi
  have hne : Function.update B index [s.brk] i ≠ [] := by
    intro hn
    have h1 := (hr2.nil_iff hi).mp hn
    rw [h1] at h2
    cases h2
  refine ⟨hne, ?_⟩
  have hc := hr2.chain i hi
  cases hl : Function.update B index [s.brk] i with
  | nil => exact absurd hl hne
  | cons a l =>
    rw [hl] at hc
    obtain ⟨hp, e, he, -⟩ := hc
    exact ⟨a, e, hp, he⟩

/-- Whenever `dictionary_put` returns, the put of the specification returns
the same dictionary. -/
theorem dictionary_put_ok_spec {s s1 : State} {B : Nat → List Nat} (h : Inv s B)
    (hlt : s.self.table_current_size < s.self.table_max_size) {fuel : Nat} {key : List Nat}
    {data : Nat} (hp : dictionary_put fuel s key data = .ok s1) :
    dictionary_put_spec fuel s key data = .ok s1 := by
  obtain ⟨hr, -⟩ := h
  cases hel : s.self.elements (dictionary_hash key % s.self.table_max_size) with
  | some element =>
    rw [dictionary_put_spec_chain fuel s key data hlt hel]
    exact hp
  | none =>
    rw [dictionary_put_spec_head fuel s key data hr.pos hel]
    rw [dictionary_put_head fuel s key data hr.pos hel] at hp
    obtain ⟨index, hindex⟩ : ∃ index, dictionary_hash key % s.self.table_max_size = index :=
      ⟨_, rfl⟩
    rw [hindex] at hel hp ⊢
    have hidx : index < s.self.table_max_size := by
      rw [← hindex]
      exact Nat.mod_lt _ hr.pos
    by_cases hfull : s.self.table_max_size ≤ s.self.table_current_size + 1
    · rw [if_pos hfull] at hp ⊢
      have hnil : B index = [] := (hr.nil_iff hidx).mpr hel
      have hr2 := hr.put_head key data hindex hnil
      have hfl := put_head_state_full hr key data hindex hnil hfull
      have hpos : 0 < s.self.table_max_size * 2 := by
        have := hr.pos
        omega
      cases hres : dictionary_resize fuel (put_head_state s key data index)
          (s.self.table_max_size * 2) with
      | timeout => rw [hres] at hp; cases hp
      | fault => rw [hres] at hp; cases hp
      | ok s2 =>
        rw [hres] at hp
        rcases dictionary_resize_total (s.self.table_max_size * 2) hr2.oldTable hpos
            (fun i hi => (hfl i hi).1) with ⟨hone, -⟩ | ⟨-, hdiv⟩
        · have hold2 : OldTable (count_element (put_head_state s key data index))
              (Function.update B index [s.brk]) :=
            ⟨hr2.chain, hr2.oldTable.disjoint⟩
          rw [dictionary_resize_spec_eq (s.self.table_max_size * 2) hold2 hpos
            (fun i hi => List.length_eq_one.mp (hone i hi)) fuel, dictionary_resize_count, hres]
          exact hp
        · have h1 := hdiv fuel
          simp only [] at h1
          rw [h1] at hres
          cases hres
    · rw [if_neg hfull] at hp ⊢
      exact hp

/-- On a reachable dictionary fewer buckets are occupied than the table has,
and a put that returns yields the dictionary that the put of the specification
yields. -/
theorem Reachable.put_spec {D : Nat} {dd : Option Nat} {s : State} (hD : 0 < D)
    (hs : Reachable D dd s) :
    occupied_buckets s.self.elements s.self.table_max_size < s.self.table_max_size ∧
      ∀ fuel key data s1, dictionary_put fuel s key data = .ok s1 →
        dictionary_put_spec fuel s key data = .ok s1 ∧
          occupied_buckets s1.self.elements s1.self.table_max_size <
            s1.self.table_max_size := by
  obtain ⟨B, hB, -, hlt, -⟩ := hs.sound hD
  constructor
  · rw [← hB.1.occupied]
    exact hlt
  · intro fuel key data s1 hp
    refine ⟨dictionary_put_ok_spec hB hlt hp, ?_⟩
    obtain ⟨B1, hB1, -, hlt1, -⟩ := (Reachable.put fuel key data hs hp).sound hD
    rw [← hB1.1.occupied]
    exact hlt1

theorem lone_a_oldTable : OldTable lone_a fun _ => [0] :=
  ⟨fun _ hi => by
      have hi1 : _ < 1 := hi
      have h0 := Nat.lt_one_iff.mp hi1
      subst h0
      exact ⟨rfl, new_cell 0 [97] 1, rfl, rfl⟩,
    fun _ _ hi hi1 _ _ _ => by
      have h1 : _ < 1 := hi
      have h2 : _ < 1 := hi1
      omega⟩

/-! ## The put of the specification and the loop budget -/

theorem last_element_mono {fuel : Nat} {heap : Nat → Option t_hash_element} {a r : Nat}
    (h : last_element fuel heap a = .ok r) : last_element (fuel + 1) heap a = .ok r := by
  induction fuel generalizing a with
  | zero => cases h
  | succ n ih =>
    simp only [last_element] at h ⊢
    cases he : heap a with
    | none => rw [he] at h; cases h
    | some e =>
      rw [he] at h
      simp only [] at h ⊢
      cases hn : e.next with
      | none => rw [hn] at h; exact h
      | some b =>
        rw [hn] at h
        simp only [] at h ⊢
        exact ih h

theorem resize_spec_entry_mono {fuel : Nat} {s : State} {nt : Nat → Option Nat} {M2 a : Nat}
    {r : State × (Nat → Option Nat) × Option Nat}
    (h : resize_spec_entry fuel s nt M2 a = .ok r) :
    resize_spec_entry (fuel + 1) s nt M2 a = .ok r := by
  simp only [resize_spec_entry] at h ⊢
  cases he : s.heap a with
  | none => rw [he] at h; cases h
  | some e =>
    rw [he] at h
    simp only [] at h ⊢
    by_cases hM : M2 = 0
    · simp only [hM, if_true] at h
      cases h
    · simp only [hM, if_false] at h ⊢
      cases hnt : nt (e.hashcode % M2) with
      | none =>
        rw [hnt] at h
        exact h
      | some hd =>
        rw [hnt] at h
        simp only [] at h ⊢
        cases hl : last_element fuel s.heap hd with
        | timeout => rw [hl] at h; cases h
        | fault => rw [hl] at h; cases h
        | ok tail =>
          rw [hl] at h
          rw [last_element_mono hl]
          exact h

theorem resize_spec_chain_mono {fuel : Nat} {s : State} {nt : Nat → Option Nat} {M2 : Nat}
    {p : Option Nat} {r : State × (Nat → Option Nat)}
    (h : resize_spec_chain fuel s nt M2 p = .ok r) :
    resize_spec_chain (fuel + 1) s nt M2 p = .ok r := by
  induction fuel generalizing s nt p with
  | zero =>
    cases p with
    | none =>
      simp only [resize_spec_chain] at h ⊢
      exact h
    | some a => cases h
  | succ n ih =>
    cases p with
    | none =>
      simp only [resize_spec_chain] at h ⊢
      exact h
    | some a =>
      simp only [resize_spec_chain] at h ⊢
      cases he : resize_spec_entry n s nt M2 a with
      | timeout => rw [he] at h; cases h
      | fault => rw [he] at h; cases h
      | ok r1 =>
        rw [he] at h
        rw [resize_spec_entry_mono he]
        obtain ⟨s1, nt1, nx⟩ := r1
        exact ih h

theorem resize_spec_for_mono {count fuel : Nat} {s : State} {nt old : Nat → Option Nat}
    {M2 t : Nat} {r : State × (Nat → Option Nat)}
    (h : resize_spec_for count fuel s nt old M2 t = .ok r) :
    resize_spec_for count (fuel + 1) s nt old M2 t = .ok r := by
  induction count generalizing s nt t with
  | zero => exact h
  | succ count ih =>
    simp only [resize_spec_for] at h ⊢
    cases hc : resize_spec_chain fuel s nt M2 (old t) with
    | timeout => rw [hc] at h; cases h
    | fault => rw [hc] at h; cases h
    | ok r1 =>
      rw [hc] at h
      rw [resize_spec_chain_mono hc]
      obtain ⟨s1, nt1⟩ := r1
      exact ih h

theorem dictionary_resize_spec_mono {fuel : Nat} {s s1 : State} {M2 : Nat}
    (h : dictionary_resize_spec fuel s M2 = .ok s1) :
    dictionary_resize_spec (fuel + 1) s M2 = .ok s1 := by
  simp only [dictionary_resize_spec] at h ⊢
  cases hf : resize_spec_for s.self.table_max_size fuel
      { s with self := { s.self with table_current_size := 0 } } (fun _ => none)
      s.self.elements M2 0 with
  | timeout => rw [hf] at h; cases h
  | fault => rw [hf] at h; cases h
  | ok r =>
    rw [hf] at h
    rw [resize_spec_for_mono hf]
    exact h

theorem put_chain_mono {fuel : Nat} {s s1 : State} {element new_element : Nat}
    (h : put_chain fuel s element new_element = .ok s1) :
    put_chain (fuel + 1) s element new_element = .ok s1 := by
  simp only [put_chain] at h ⊢
  cases hl : last_element fuel s.heap element with
  | timeout => rw [hl] at h; cases h
  | fault => rw [hl] at h; cases h
  | ok last =>
    rw [hl] at h
    rw [last_element_mono hl]
    exact h

/-- A larger loop budget does not change what the put of the specification
returns. -/
theorem dictionary_put_spec_mono {fuel : Nat} {s s1 : State} {key : List Nat} {data : Nat}
    (h : dictionary_put_spec fuel s key data = .ok s1) :
    dictionary_put_spec (fuel + 1) s key data = .ok s1 := by
  by_cases hM0 : s.self.table_max_size = 0
  · simp only [dictionary_put_spec, hM0, if_true] at h
    cases h
  · obtain ⟨index, hindex⟩ : ∃ index, dictionary_hash key % s.self.table_max_size = index :=
      ⟨_, rfl⟩
    simp only [dictionary_put_spec, hM0, if_false, hindex, dictionary_create_element,
      key_argument] at h ⊢
    cases hel : s.self.elements index with
    | none =>
      rw [hel] at h
      simp only [] at h ⊢
      split_ifs at h ⊢ with hfull
      · exact dictionary_resize_spec_mono h
      · exact h
    | some element =>
      rw [hel] at h
      simp only [] at h ⊢
      cases hp : put_chain fuel
          { s with
            heap := Function.update s.heap s.brk
              (some { key := s.brk, data := data, hashcode := dictionary_hash key, next := none })
            brk := s.brk + 1
            strings := Function.update s.strings s.brk (some key) } element s.brk with
      | timeout => rw [hp] at h; cases h
      | fault => rw [hp] at h; cases h
      | ok s2 =>
        rw [hp] at h
        rw [put_chain_mono hp]
        simp only [] at h ⊢
        split_ifs at h ⊢ with hfull
        · exact dictionary_resize_spec_mono h
        · exact h

theorem dictionary_put_spec_le {fuel n : Nat} {s s1 : State} {key : List Nat} {data : Nat}
    (h : dictionary_put_spec fuel s key data = .ok s1) (hn : fuel ≤ n) :
    dictionary_put_spec n s key data = .ok s1 := by
  induction n with
  | zero =>
    have : fuel = 0 := by omega
    subst this
    exact h
  | succ n ih =>
    rcases Nat.lt_or_ge n fuel with hlt | hge
    · have : fuel = n + 1 := by omega
      subst this
      exact h
    · exact dictionary_put_spec_mono (ih hge)

theorem full19_put_spec :
    Returns (fun fuel => dictionary_put_spec fuel full19 [75] 21)
      (Run.state full19 (dictionary_put_spec 3 full19 [75] 21)) := by
  have h3 : dictionary_put_spec 3 full19 [75] 21 =
      .ok (Run.state full19 (dictionary_put_spec 3 full19 [75] 21)) := rfl
  refine ⟨fun fuel => ?_, 3, fun fuel hf => dictionary_put_spec_le h3 hf⟩
  rcases Nat.lt_or_ge fuel 3 with hlt | hge
  · left
    show dictionary_put_spec fuel full19 [75] 21 = .timeout
    interval_cases fuel <;> rfl
  · exact Or.inr (dictionary_put_spec_le h3 hge)

/-! ## Writes of the caller to its character buffers -/

theorem resize_link_writes (fuel : Nat) (s : State) (m : Nat → Option (List Nat)) (nt : Nat → Option Nat) (idx a : Nat) :
    resize_link fuel (caller_writes s m) nt idx a =
      Run.map (fun (r : State × (Nat → Option Nat)) => (caller_writes r.1 m, r.2))
        (resize_link fuel s nt idx a) := by
  unfold resize_link
  cases nt idx with
  | none => rfl
  | some ne =>
    simp only [show (caller_writes s m).heap = s.heap from rfl]
    cases last_element fuel s.heap ne with
    | timeout => rfl
    | fault => rfl
    | ok last =>
      simp only []
      cases set_next s.heap last (some a) with
      | timeout => rfl
      | fault => rfl
      | ok heap => rfl

theorem resize_body_writes (fuel : Nat) (s : State) (m : Nat → Option (List Nat)) (nt : Nat → Option Nat) (M2 a : Nat) :
    resize_body fuel (caller_writes s m) nt M2 a =
      Run.map (fun (r : State × (Nat → Option Nat) × Option Nat) => (caller_writes r.1 m, r.2))
        (resize_body fuel s nt M2 a) := by
  unfold resize_body
  simp only [show (caller_writes s m).heap = s.heap from rfl]
  cases s.heap a with
  | none => rfl
  | some e =>
    by_cases hM : M2 = 0
    · simp only [hM, if_true]
      rfl
    · simp only [hM, if_false]
      rw [resize_link_writes]
      cases resize_link fuel s nt (e.hashcode % M2) a with
      | timeout => rfl
      | fault => rfl
      | ok r =>
        obtain ⟨s1, nt1⟩ := r
        simp only [Run.map, show (caller_writes s1 m).heap = s1.heap from rfl]
        cases s1.heap a with
        | none => rfl
        | some e1 =>
          cases set_next s1.heap a none with
          | timeout => rfl
          | fault => rfl
          | ok heap => rfl

theorem resize_do_while_writes (fuel : Nat) (s : State) (m : Nat → Option (List Nat)) (nt : Nat → Option Nat) (M2 a : Nat) :
    resize_do_while fuel (caller_writes s m) nt M2 a =
      Run.map (fun (r : State × (Nat → Option Nat)) => (caller_writes r.1 m, r.2))
        (resize_do_while fuel s nt M2 a) := by
  induction fuel generalizing s nt with
  | zero => rfl
  | succ fuel ih =>
    simp only [resize_do_while]
    rw [resize_body_writes]
    cases resize_body fuel s nt M2 a with
    | timeout => rfl
    | fault => rfl
    | ok r =>
      obtain ⟨s1, nt1, nx⟩ := r
      cases nx with
      | none => rfl
      | some b => exact ih s1 nt1

theorem resize_for_writes (count fuel : Nat) (s : State) (m : Nat → Option (List Nat)) (nt old : Nat → Option Nat)
    (M2 t : Nat) :
    resize_for count fuel (caller_writes s m) nt old M2 t =
      Run.map (fun (r : State × (Nat → Option Nat)) => (caller_writes r.1 m, r.2))
        (resize_for count fuel s nt old M2 t) := by
  induction count generalizing s nt t with
  | zero => rfl
  | succ count ih =>
    simp only [resize_for]
    cases old t with
    | none => rfl
    | some a =>
      simp only []
      rw [resize_do_while_writes]
      cases resize_do_while fuel s nt M2 a with
      | timeout => rfl
      | fault => rfl
      | ok r =>
        obtain ⟨s1, nt1⟩ := r
        exact ih s1 nt1 (t + 1)

/-- `dictionary_resize` does not read the character buffers, nor write them. -/
theorem dictionary_resize_writes (fuel : Nat) (s : State) (m : Nat → Option (List Nat)) (M2 : Nat) :
    dictionary_resize fuel (caller_writes s m) M2 =
      Run.map (fun s1 => caller_writes s1 m) (dictionary_resize fuel s M2) := by
  have h1 : dictionary_resize fuel (caller_writes s m) M2 =
      (match resize_for s.self.table_max_size fuel
          (caller_writes { s with self := { s.self with table_current_size := 0 } } m)
          (fun _ => none) s.self.elements M2 0 with
        | Run.timeout => Run.timeout
        | Run.fault => Run.fault
        | Run.ok (s1, new_table) =>
          Run.ok
            { s1 with self := { s1.self with elements := new_table, table_max_size := M2 } }) :=
    rfl
  rw [h1, resize_for_writes]
  unfold dictionary_resize
  cases resize_for s.self.table_max_size fuel
      { s with self := { s.self with table_current_size := 0 } } (fun _ => none)
      s.self.elements M2 0 with
  | timeout => rfl
  | fault => rfl
  | ok r => rfl


/-- `dictionary_put` does not read the character buffers: on a dictionary
whose buffers the caller has written, it does what it does otherwise, and
records the bytes of its key. -/
theorem dictionary_put_writes (fuel : Nat) (s : State) (m : Nat → Option (List Nat))
    (key : List Nat) (data : Nat) :
    dictionary_put fuel (caller_writes s m) key data =
      Run.map (fun s1 => caller_writes s1 (Function.update m s.brk (some key)))
        (dictionary_put fuel s key data) := by
  by_cases hM0 : s.self.table_max_size = 0
  · have h1 : (caller_writes s m).self.table_max_size = 0 := hM0
    simp only [dictionary_put, hM0, h1, if_true]
    rfl
  · have h1 : ¬ (caller_writes s m).self.table_max_size = 0 := hM0
    obtain ⟨index, hindex⟩ : ∃ index, dictionary_hash key % s.self.table_max_size = index :=
      ⟨_, rfl⟩
    have hindex1 : dictionary_hash key % (caller_writes s m).self.table_max_size = index :=
      hindex
    simp only [dictionary_put, hM0, h1, if_false, hindex, hindex1, dictionary_create_element,
      key_argument]
    have hel1 : (caller_writes s m).self.elements index = s.self.elements index := rfl
    cases hel : s.self.elements index with
    | none =>
      simp only [caller_writes, hel, put_head]
      by_cases hfull : s.self.table_max_size ≤ s.self.table_current_size + 1
      · simp only [hfull, if_true]
        have h := dictionary_resize_writes fuel
          { s with
            self :=
              { s.self with
                elements := Function.update s.self.elements index (some s.brk)
                table_current_size := s.self.table_current_size + 1 }
            heap := Function.update s.heap s.brk
              (some { key := s.brk, data := data, hashcode := dictionary_hash key, next := none })
            brk := s.brk + 1
            strings := Function.update s.strings s.brk (some key) }
          (Function.update m s.brk (some key)) (s.self.table_max_size * 2)
        simp only [caller_writes] at h
        rw [h]
        cases dictionary_resize fuel _ (s.self.table_max_size * 2) with
        | timeout => rfl
        | fault => rfl
        | ok s2 => rfl
      · simp only [hfull, if_false]
        rfl
    | some element =>
      simp only [caller_writes, hel, put_chain]
      cases last_element fuel (Function.update s.heap s.brk
          (some { key := s.brk, data := data, hashcode := dictionary_hash key, next := none }))
          element with
      | timeout => rfl
      | fault => rfl
      | ok last =>
        simp only []
        cases set_next (Function.update s.heap s.brk
            (some { key := s.brk, data := data, hashcode := dictionary_hash key, next := none }))
            last (some s.brk) with
        | timeout => rfl
        | fault => rfl
        | ok heap => rfl

theorem clean_do_while_writes (fuel : Nat) (s : State) (m : Nat → Option (List Nat))
    (a : Nat) :
    ∃ m1, clean_do_while fuel (caller_writes s m) a =
      Run.map (fun s1 => caller_writes s1 m1) (clean_do_while fuel s a) := by
  induction fuel generalizing s m with
  | zero => exact ⟨m, rfl⟩
  | succ fuel ih =>
    simp only [clean_do_while, dictionary_destroy_element,
      show (caller_writes s m).heap = s.heap from rfl]
    cases he : s.heap a with
    | none => exact ⟨m, rfl⟩
    | some e =>
      simp only []
      cases hn : e.next with
      | none => exact ⟨Function.update m e.key none, rfl⟩
      | some b =>
        simp only []
        exact ih
          { s with
            destroyed :=
              match s.self.data_destroyer with
              | none => s.destroyed
              | some _ => s.destroyed ++ [e.data]
            heap := Function.update s.heap a none
            strings := Function.update s.strings e.key none }
          (Function.update m e.key none)

theorem clean_for_writes (count fuel : Nat) (s : State) (m : Nat → Option (List Nat))
    (t : Nat) :
    ∃ m1, clean_for count fuel (caller_writes s m) t =
      Run.map (fun s1 => caller_writes s1 m1) (clean_for count fuel s t) := by
  induction count generalizing s m t with
  | zero => exact ⟨m, rfl⟩
  | succ count ih =>
    simp only [clean_for, show (caller_writes s m).self.elements = s.self.elements from rfl]
    cases hel : s.self.elements t with
    | none => exact ih s m (t + 1)
    | some a =>
      simp only []
      obtain ⟨m1, h1⟩ := clean_do_while_writes fuel s m a
      rw [h1]
      cases clean_do_while fuel s a with
      | timeout => exact ⟨m, rfl⟩
      | fault => exact ⟨m, rfl⟩
      | ok s1 =>
        exact ih
          { s1 with self := { s1.self with elements := Function.update s1.self.elements t none } }
          m1 (t + 1)

/-- `dictionary_clean` does not read the character buffers: it only releases
those of the keys of the cells that it destroys. -/
theorem dictionary_clean_writes (fuel : Nat) (s : State) (m : Nat → Option (List Nat)) :
    ∃ m1, dictionary_clean fuel (caller_writes s m) =
      Run.map (fun s1 => caller_writes s1 m1) (dictionary_clean fuel s) := by
  obtain ⟨m1, h1⟩ := clean_for_writes s.self.table_max_size fuel s m 0
  refine ⟨m1, ?_⟩
  simp only [dictionary_clean,
    show (caller_writes s m).self.table_max_size = s.self.table_max_size from rfl, h1]
  cases clean_for s.self.table_max_size fuel s 0 with
  | timeout => rfl
  | fault => rfl
  | ok s1 => rfl

/-- A dictionary reached with writes of the caller in between is a dictionary
reachable without them, up to what the character buffers hold. -/
theorem Reached.reachable {D : Nat} {dd : Option Nat} {s : State} (h : Reached D dd s) :
    ∃ s0 m, Reachable D dd s0 ∧ s = caller_writes s0 m := by
  induction h with
  | create => exact ⟨_, _, Reachable.create, rfl⟩
  | put fuel key data _ hp ih =>
    obtain ⟨s0, m, h0, rfl⟩ := ih
    rw [dictionary_put_writes] at hp
    cases hq : dictionary_put fuel s0 key data with
    | timeout => rw [hq] at hp; cases hp
    | fault => rw [hq] at hp; cases hp
    | ok s2 =>
      rw [hq] at hp
      cases hp
      exact ⟨s2, _, Reachable.put fuel key data h0 hq, rfl⟩
  | clean fuel _ hc ih =>
    obtain ⟨s0, m, h0, rfl⟩ := ih
    obtain ⟨m1, h1⟩ := dictionary_clean_writes fuel s0 m
    rw [h1] at hc
    cases hq : dictionary_clean fuel s0 with
    | timeout => rw [hq] at hc; cases hc
    | fault => rw [hq] at hc; cases hc
    | ok s2 =>
      rw [hq] at hc
      cases hc
      exact ⟨s2, _, Reachable.clean fuel h0 hq, rfl⟩
  | write m _ ih =>
    obtain ⟨s0, m0, h0, rfl⟩ := ih
    exact ⟨s0, m, h0, rfl⟩

/-- C1, at a failing input: the claim is that after any `N` puts on a new
dictionary `dictionary_size` returns `N`.  The twenty puts of `letters20`
return and leave the size at 20, but the twenty-first put, of the key `"?"`,
fills the last empty bucket while a chain of two cells exists: the run of the
twenty-one puts exhausts every loop budget, so no size is ever returned. -/
theorem dictionary_puts_size_hangs :
    dictionary_puts 1 (dictionary_create 20 none) letters20 = .ok full19 ∧
      dictionary_size full19 = 20 ∧
      Diverges fun fuel =>
        dictionary_puts fuel (dictionary_create 20 none) (letters20 ++ [([63], 21)]) :=
  ⟨full19_eq, by decide,
    dictionary_puts_hang (by decide : 0 < 20) Reachable.create letters20 [63] 21 full19_eq
      (full19_put_diverges [63] 21 (by decide))⟩

/-- C2, at a failing input: the claim is that on a reachable dictionary a put
of a key whose hash no stored entry has, followed by a get of that key,
returns the value put, also when the put resizes.  On the reachable
dictionary `full19` no entry has the hash of `"S"`, and the put of `"S"`
followed by the get of `"S"` exhausts every loop budget. -/
theorem dictionary_put_get_hangs :
    Reachable 20 none full19 ∧
      (∀ e ∈ dictionary_entries full19, e.hashcode ≠ dictionary_hash [83]) ∧
      Diverges fun fuel =>
        (dictionary_put fuel full19 [83] 21).bind fun s => dictionary_get fuel s [83] := by
  refine ⟨full19_reachable, by decide, fun fuel => ?_⟩
  have h := full19_put_diverges [83] 21 (by decide) fuel
  simp only [] at h
  show (dictionary_put fuel full19 [83] 21).bind _ = .timeout
  rw [h]
  rfl

/-- C3: on a dictionary reachable from `dictionary_create` by puts and cleans
that return (the initial size being positive), `dictionary_get` of a key
whose hash differs from the hash of every stored entry returns `NULL`: it
never faults, and it returns `0` as soon as the loop budget suffices. -/
theorem dictionary_get_absent (D : Nat) (dd : Option Nat) (s : State) (key : List Nat)
    (hD : 0 < D) (hs : Reachable D dd s)
    (hk : ∀ e ∈ dictionary_entries s, e.hashcode ≠ dictionary_hash key) :
    Returns (fun fuel => dictionary_get fuel s key) 0 := by
  obtain ⟨B, hr, -⟩ := hs.inv hD
  have h := dictionary_get_returns hr key
  rwa [chain_lookup_absent hr (dictionary_hash key) (Nat.mod_lt _ hr.pos) hk] at h

/-- Instance of C3: in `full19` the bucket of `"h"` holds the two entries of
`"a"`, whose hash is another one, and the get of `"h"` returns `NULL`. -/
theorem dictionary_get_absent_witness :
    (0 < 20 ∧ Reachable 20 none full19 ∧
        ∀ e ∈ dictionary_entries full19, e.hashcode ≠ dictionary_hash [104]) ∧
      Returns (fun fuel => dictionary_get fuel full19 [104]) 0 :=
  ⟨⟨by decide, full19_reachable, by decide⟩,
    dictionary_get_absent 20 none full19 [104] (by decide) full19_reachable (by decide)⟩

/-- C4, at a failing input: the claim is that after puts of keys with
pairwise distinct hashes that bring the occupied buckets to the capacity two
times or more, every key is still found, the size is the number of puts and
the capacity is the initial one times a power of two.  The forty puts of
`distinct40` return: one of them, the twentieth, filled the table of 20, which
was resized to 40, and 39 buckets of the table of 40 are occupied.  The forty-first put,
of the key `"bj"`, fills bucket 37, the last empty one, and exhausts every
loop budget in the second resize, because bucket 2 holds a chain of two
cells. -/
theorem dictionary_resize_twice_hangs :
    ((distinct40 ++ [([98, 106], 41)]).map fun (kd : List Nat × Nat) => dictionary_hash kd.1).Nodup ∧
      dictionary_puts 1 (dictionary_create 20 none) distinct40 = .ok grown39 ∧
      dictionary_puts_triggers 1 (dictionary_create 20 none) distinct40 = 1 ∧
      grown39.self.table_max_size = 40 ∧ grown39.self.table_current_size = 39 ∧
      dictionary_size grown39 = 40 ∧
      grown39.self.elements (dictionary_hash [98, 106] % 40) = none ∧
      Diverges fun fuel =>
        dictionary_puts fuel (dictionary_create 20 none) (distinct40 ++ [([98, 106], 41)]) := by
  have hr : Reachable 20 none grown39 := Reachable.puts distinct40 Reachable.create grown39_eq
  refine ⟨by decide, grown39_eq, by decide, by decide, by decide, by decide, by decide, ?_⟩
  refine dictionary_puts_hang (by decide : 0 < 20) Reachable.create distinct40 [98, 106] 41
    grown39_eq ?_
  exact dictionary_put_long
    (e := { key := 0, hashcode := 3392050242, data := 1, next := some 20 })
    (by decide : 0 < 20) hr [98, 106] 41 (by decide) (by decide)
    (by decide : 2 < grown39.self.table_max_size) (by decide : grown39.self.elements 2 = some 0)
    (by decide) rfl

/-- C5, at a failing input: the claim is that `dictionary_clean` empties every
dictionary reachable by puts and leaves it usable.  After two puts of the key
`"a"`, a reachable dictionary of size 2, `dictionary_clean` never returns: it
runs out of budget or, from the budget 2 on, reads the cell it has just
freed. -/
theorem dictionary_clean_hangs :
    Reachable 20 none twice_a ∧ dictionary_size twice_a = 2 ∧
      (∀ fuel, dictionary_clean fuel twice_a = .timeout ∨
        dictionary_clean fuel twice_a = .fault) ∧
      ∀ fuel, dictionary_clean (fuel + 2) twice_a = .fault :=
  ⟨twice_a_reachable, by decide,
    dictionary_clean_long
      (e := { key := 0, hashcode := 3392050242, data := 1, next := some 1 })
      (by decide : 0 < 20) twice_a_reachable (by decide : 2 < twice_a.self.table_max_size)
      (by decide : twice_a.self.elements 2 = some 0) (by decide) rfl,
    fun _ => rfl⟩

/-- C6, at a failing input: the claim is that `dictionary_destroy` calls the
destroyer once on the value of each stored entry.  After the puts `("a", 1)`
and `("h", 2)` on a dictionary with a destroyer, the first pass of the loop of
`dictionary_clean` calls the destroyer on the value 1 and frees the cell at
address 0; the cell at address 1, with the value 2, is never visited, and
`dictionary_destroy` never returns: from the budget 2 on it reads the freed
cell. -/
theorem dictionary_destroy_hangs :
    Reachable 20 (some 1) a_h ∧ dictionary_size a_h = 2 ∧
      (∃ s1, dictionary_destroy_element a_h 0 = .ok s1 ∧ s1.destroyed = [1] ∧
        s1.heap 0 = none ∧ (s1.heap 1).map (fun e => e.data) = some 2) ∧
      (∀ fuel, dictionary_destroy fuel a_h = .timeout ∨ dictionary_destroy fuel a_h = .fault) ∧
      ∀ fuel, dictionary_destroy (fuel + 2) a_h = .fault :=
  ⟨a_h_reachable, by decide, ⟨_, rfl, by decide, by decide, by decide⟩,
    dictionary_clean_long
      (e := { key := 0, hashcode := 3392050242, data := 1, next := some 1 })
      (by decide : 0 < 20) a_h_reachable (by decide : 2 < a_h.self.table_max_size)
      (by decide : a_h.self.elements 2 = some 0) (by decide) rfl,
    fun _ => rfl⟩

/-- C7, at a failing input: the claim is that `dictionary_put` terminates on
every dictionary reachable by puts, resize included.  On the reachable
dictionary `full19`, 19 of the 20 buckets are occupied, bucket 2 by a chain of
two cells, and the bucket of the key `"K"` is empty: the put of `"K"` calls
`dictionary_resize` and exhausts every loop budget. -/
theorem dictionary_put_hangs :
    Reachable 20 none full19 ∧ full19.self.table_max_size = 20 ∧
      full19.self.table_current_size = 19 ∧
      full19.self.elements (dictionary_hash [75] % 20) = none ∧
      Diverges fun fuel => dictionary_put fuel full19 [75] 21 :=
  ⟨full19_reachable, by decide, by decide, by decide, full19_put_diverges [75] 21 (by decide)⟩

/-- C8, at a failing input: the claim is that `dictionary_clean` terminates
after destroying each entry of each chain.  After the puts `("a", 1)`,
`("b", 2)`, `("a", 3)`, bucket 2 holds a chain of two cells and
`dictionary_clean` never returns: it runs out of budget or, from the budget 2
on, reads the cell it has just freed, before it has visited the second cell of
the chain or the bucket of `"b"`. -/
theorem dictionary_clean_chain_hangs :
    Reachable 20 none a_b_a ∧ dictionary_size a_b_a = 3 ∧
      (∀ fuel, dictionary_clean fuel a_b_a = .timeout ∨
        dictionary_clean fuel a_b_a = .fault) ∧
      ∀ fuel, dictionary_clean (fuel + 2) a_b_a = .fault :=
  ⟨a_b_a_reachable, by decide,
    dictionary_clean_long
      (e := { key := 0, hashcode := 3392050242, data := 1, next := some 2 })
      (by decide : 0 < 20) a_b_a_reachable (by decide : 2 < a_b_a.self.table_max_size)
      (by decide : a_b_a.self.elements 2 = some 0) (by decide) rfl,
    fun _ => rfl⟩

/-- C9: `dictionary_get` depends on the key through its hash only: two keys
with the same hash get the same result on every dictionary and with every
loop budget; and on a reachable dictionary that is empty, a put of the first
key returns, after which the get of the second key returns the value put. -/
theorem dictionary_get_hash_only (k1 k2 : List Nat)
    (hh : dictionary_hash k1 = dictionary_hash k2) :
    (∀ (fuel : Nat) (s : State), dictionary_get fuel s k1 = dictionary_get fuel s k2) ∧
      ∀ (D : Nat) (dd : Option Nat) (s : State) (v : Nat), 0 < D → Reachable D dd s →
        dictionary_is_empty s = true →
        ∃ s1, Returns (fun fuel => dictionary_put fuel s k1 v) s1 ∧
          Returns (fun fuel => dictionary_get fuel s1 k2) v := by
  constructor
  · intro fuel s
    simp only [dictionary_get, dictionary_get_element, hh]
  · intro D dd s v hD hs hempty
    obtain ⟨B, hr, hamt⟩ := hs.inv hD
    have h0 : s.self.elements_amount = 0 := by
      simpa [dictionary_is_empty] using hempty
    rw [h0] at hamt
    have hel : ∀ i, i < s.self.table_max_size → s.self.elements i = none :=
      fun i hi => (hr.nil_iff hi).mp (stored_eq_zero hamt.symm i hi)
    have hcur : s.self.table_current_size = 0 := by
      rw [hr.occupied, occupied_buckets_congr (fun _ => none) hel, occupied_buckets_none]
    exact put_get_empty hr.pos hcur hel k1 k2 v hh

/-- Instance of C9: the keys `"aqaa"` and `"elue"` have the same hash; after
the put of `"aqaa"` with the value 5 on a new dictionary, the get of `"elue"`
returns 5. -/
theorem dictionary_get_hash_only_witness :
    dictionary_hash [97, 113, 97, 97] = dictionary_hash [101, 108, 117, 101] ∧
      ∃ s1, Returns (fun fuel => dictionary_put fuel (dictionary_create 20 none)
          [97, 113, 97, 97] 5) s1 ∧
        Returns (fun fuel => dictionary_get fuel s1 [101, 108, 117, 101]) 5 :=
  ⟨by decide,
    (dictionary_get_hash_only [97, 113, 97, 97] [101, 108, 117, 101] (by decide)).2 20 none
      (dictionary_create 20 none) 5 (by decide) Reachable.create rfl⟩

/-- C10, at a failing input: the claim is that on a reachable dictionary
without entry of hash `h`, two puts of keys of hash `h` store two entries and
leave the first value to `dictionary_get`.  On the reachable dictionary
`full19` no entry has the hash of `"Z"`, and the first of the two puts of
`"Z"` exhausts every loop budget. -/
theorem dictionary_put_twice_hangs :
    Reachable 20 none full19 ∧
      (∀ e ∈ dictionary_entries full19, e.hashcode ≠ dictionary_hash [90]) ∧
      Diverges fun fuel =>
        (dictionary_put fuel full19 [90] 1).bind fun s => dictionary_put fuel s [90] 2 := by
  refine ⟨full19_reachable, by decide, fun fuel => ?_⟩
  have h := full19_put_diverges [90] 1 (by decide) fuel
  simp only [] at h
  show (dictionary_put fuel full19 [90] 1).bind _ = .timeout
  rw [h]
  rfl

/-- C11: for every key made of bytes (numbers below 256), `dictionary_hash`
is the one-at-a-time hash of the specification, computed on 32-bit words: from
`h = 0`, for each byte `h += byte; h += h << 10; h ^= h >> 6`, then
`h += h << 3; h ^= h >> 11; h += h << 15`.  The result is a 32-bit number and
a function of the bytes only; the hash of `""` is 0 and the hash of `"a"` is
`0xCA2E9442`. -/
theorem dictionary_hash_one_at_a_time (key : List Nat) (hbytes : ∀ c ∈ key, c < 256) :
    dictionary_hash key = (one_at_a_time key).toNat ∧ dictionary_hash key < 4294967296 ∧
      dictionary_hash [] = 0 ∧ dictionary_hash [97] = 3392050242 :=
  ⟨dictionary_hash_eq key hbytes, dictionary_hash_lt key, by decide, by decide⟩

/-- Instance of C11: the key `"ab"`. -/
theorem dictionary_hash_one_at_a_time_witness :
    (∀ c ∈ [97, 98], c < 256) ∧ dictionary_hash [97, 98] = (one_at_a_time [97, 98]).toNat ∧
      dictionary_hash [97, 98] = 1172708952 :=
  ⟨by decide, (dictionary_hash_one_at_a_time [97, 98] (by decide)).1, by decide⟩

/-- C12: `dictionary_is_empty` answers true exactly when `dictionary_size`
is 0, and `dictionary_size` is the field `elements_amount`.  Both are
functions of the dictionary that return a value only: they write no field. -/
theorem dictionary_is_empty_iff_size (s : State) :
    (dictionary_is_empty s = true ↔ dictionary_size s = 0) ∧
      dictionary_size s = s.self.elements_amount := by
  simp [dictionary_is_empty, dictionary_size]

/-- C13: the dictionary that `dictionary_create` returns, the initial size
being positive, is empty: its size is 0, `dictionary_is_empty` is true, no
bucket is occupied, the capacity is the initial size, every bucket is `NULL`,
the stored destroyer is the argument, no entry is stored, and
`dictionary_get` returns `NULL` for every key, whatever the loop budget. -/
theorem dictionary_create_empty (D : Nat) (dd : Option Nat) (hD : 0 < D) :
    dictionary_size (dictionary_create D dd) = 0 ∧
      dictionary_is_empty (dictionary_create D dd) = true ∧
      (dictionary_create D dd).self.table_current_size = 0 ∧
      (dictionary_create D dd).self.table_max_size = D ∧
      (∀ i, (dictionary_create D dd).self.elements i = none) ∧
      (dictionary_create D dd).self.data_destroyer = dd ∧
      dictionary_entries (dictionary_create D dd) = [] ∧
      ∀ key fuel, dictionary_get fuel (dictionary_create D dd) key = .ok 0 := by
  refine ⟨rfl, rfl, rfl, rfl, fun _ => rfl, rfl, dictionary_entries_create D dd, ?_⟩
  intro key fuel
  have hD0 : D ≠ 0 := by omega
  simp [dictionary_get, dictionary_get_element, dictionary_create, hD0]

/-- Instance of C13: the initial size 20 and the destroyer number 1. -/
theorem dictionary_create_empty_witness :
    0 < 20 ∧ (dictionary_create 20 (some 1)).self.table_max_size = 20 ∧
      dictionary_get 0 (dictionary_create 20 (some 1)) [97] = .ok 0 :=
  ⟨by decide, (dictionary_create_empty 20 (some 1) (by decide)).2.2.2.1,
    (dictionary_create_empty 20 (some 1) (by decide)).2.2.2.2.2.2.2 [97] 0⟩

/-- C14: on every dictionary reachable from `dictionary_create` by puts
and cleans that return (the initial size `D` being positive),
`table_max_size` is `D * 2 ^ k` for some `k`, hence positive, and the index
`hash % table_max_size` of every key is below `table_max_size`; a put that
returns leaves `table_max_size` as it was or doubles it, and a clean that
returns leaves it as it was.  The other operations (`dictionary_get`,
`dictionary_size`, `dictionary_is_empty`) return a value and no state. -/
theorem table_max_size_monotone (D : Nat) (dd : Option Nat) (s : State) (hD : 0 < D)
    (hs : Reachable D dd s) :
    (∃ k, s.self.table_max_size = D * 2 ^ k) ∧ 0 < s.self.table_max_size ∧
      (∀ key, dictionary_hash key % s.self.table_max_size < s.self.table_max_size) ∧
      (∀ fuel key data s1, dictionary_put fuel s key data = .ok s1 →
        s.self.table_max_size ≤ s1.self.table_max_size ∧
          (s1.self.table_max_size = s.self.table_max_size ∨
            s1.self.table_max_size = s.self.table_max_size * 2)) ∧
      ∀ fuel s1, dictionary_clean fuel s = .ok s1 →
        s1.self.table_max_size = s.self.table_max_size := by
  obtain ⟨B, hB, -, -, hk⟩ := hs.sound hD
  refine ⟨hk, hB.1.pos, fun key => Nat.mod_lt _ hB.1.pos, ?_, ?_⟩
  · intro fuel key data s1 hp
    obtain ⟨B1, -, hpost, -⟩ := hB.put_ok hp
    refine ⟨?_, hpost.size⟩
    rcases hpost.size with h1 | h1 <;> omega
  · intro fuel s1 hc
    exact (dictionary_clean_ok hB hc).2.1

/-- Instance of C14: `grown39`, reached by forty puts of which one resized
the table, has the capacity `20 * 2 ^ 1`. -/
theorem table_max_size_monotone_witness :
    (0 < 20 ∧ Reachable 20 none grown39) ∧ grown39.self.table_max_size = 20 * 2 ^ 1 ∧
      ∃ k, grown39.self.table_max_size = 20 * 2 ^ k :=
  ⟨⟨by decide, Reachable.puts distinct40 Reachable.create grown39_eq⟩, by decide,
    (table_max_size_monotone 20 none grown39 (by decide)
      (Reachable.puts distinct40 Reachable.create grown39_eq)).1⟩

/-- C16: on every dictionary reachable from `dictionary_create` by puts
and cleans that return, `elements_amount` is the total number of entries of
the chains of the buckets, and `table_current_size` is the number of buckets
whose head is not `NULL`.  When the `dictionary_resize` that a put calls
returns, the new table has twice the size and `table_current_size` is again
the number of its buckets whose head is not `NULL`. -/
theorem dictionary_counters (D : Nat) (dd : Option Nat) (s : State) (hD : 0 < D)
    (hs : Reachable D dd s) :
    s.self.elements_amount =
        ((List.range s.self.table_max_size).map fun i => (bucket_chain s i).length).sum ∧
      s.self.elements_amount = (dictionary_entries s).length ∧
      s.self.table_current_size = occupied_buckets s.self.elements s.self.table_max_size ∧
      ∀ key data fuel s2,
        s.self.elements (dictionary_hash key % s.self.table_max_size) = none →
        dictionary_resize fuel
            (put_head_state s key data (dictionary_hash key % s.self.table_max_size))
            (s.self.table_max_size * 2) = .ok s2 →
        s2.self.table_max_size = s.self.table_max_size * 2 ∧
          s2.self.table_current_size =
            occupied_buckets s2.self.elements s2.self.table_max_size := by
  obtain ⟨B, hB, -, -, -⟩ := hs.sound hD
  refine ⟨?_, hB.entries_length.symm, hB.1.occupied, ?_⟩
  · rw [hB.2]
    exact (sum_range_congr _ _ _ fun i hi => hB.1.cells_length hi).symm
  · intro key data fuel s2 hel hres
    obtain ⟨index, hindex⟩ : ∃ index, dictionary_hash key % s.self.table_max_size = index :=
      ⟨_, rfl⟩
    rw [hindex] at hel hres
    have hidx : index < s.self.table_max_size := by
      rw [← hindex]
      exact Nat.mod_lt _ hB.1.pos
    have hnil : B index = [] := (hB.1.nil_iff hidx).mpr hel
    have hr2 := hB.1.put_head key data hindex hnil
    have h := dictionary_resize_occupied hr2.oldTable (by have := hB.1.pos; omega) hres
    exact ⟨h.1, h.2.1⟩

/-- Instance of C16: nineteen of the twenty buckets of `spread19` hold one
cell each, the put of `"?"` fills the last one, and `dictionary_resize`
returns with a table of 40 whose counter is right. -/
theorem dictionary_counters_witness :
    (0 < 20 ∧ Reachable 20 none spread19) ∧
      spread19.self.elements (dictionary_hash [63] % spread19.self.table_max_size) = none ∧
      ∃ s2, dictionary_resize 1 (put_head_state spread19 [63] 20
          (dictionary_hash [63] % spread19.self.table_max_size))
          (spread19.self.table_max_size * 2) = .ok s2 ∧
        s2.self.table_max_size = spread19.self.table_max_size * 2 ∧
        s2.self.table_current_size =
          occupied_buckets s2.self.elements s2.self.table_max_size :=
  ⟨⟨by decide, spread19_reachable⟩, by decide, _, rfl,
    (dictionary_counters 20 none spread19 (by decide) spread19_reachable).2.2.2 [63] 20 1
      (Run.state spread19 (dictionary_resize 1 (put_head_state spread19 [63] 20
        (dictionary_hash [63] % spread19.self.table_max_size))
        (spread19.self.table_max_size * 2))) (by decide) rfl⟩

/-- C17, at a failing input: the claim is that on every reachable dictionary
`dictionary_put` produces the dictionary that the put of the specification
produces, which tests `occupied_buckets >= capacity` after every placement and
then doubles the capacity.  On the reachable dictionary `full19`, 19 of the 20
buckets are occupied, bucket 2 by a chain of two cells, and the bucket of the
key `"K"` is empty.  The put of the specification fills it, resizes and
returns, from the loop budget 3 on, a dictionary of 40 buckets, 20 of them
occupied, with 21 entries; `dictionary_put` makes the same test at the same
place, calls
`dictionary_resize` and exhausts every loop budget. -/
theorem dictionary_put_spec_differs :
    Reachable 20 none full19 ∧ full19.self.table_max_size = 20 ∧
      full19.self.table_current_size = 19 ∧
      full19.self.elements (dictionary_hash [75] % 20) = none ∧
      (∃ s1, Returns (fun fuel => dictionary_put_spec fuel full19 [75] 21) s1 ∧
        dictionary_put_spec 3 full19 [75] 21 = .ok s1 ∧ s1.self.table_max_size = 40 ∧
        s1.self.table_current_size = 20 ∧ dictionary_size s1 = 21) ∧
      Diverges fun fuel => dictionary_put fuel full19 [75] 21 :=
  ⟨full19_reachable, by decide, by decide, by decide,
    ⟨Run.state full19 (dictionary_put_spec 3 full19 [75] 21), full19_put_spec, rfl, by decide,
      by decide, by decide⟩,
    full19_put_diverges [75] 21 (by decide)⟩

/-- C18: on a dictionary reachable from `dictionary_create` by puts and
cleans that return, a put whose bucket is not empty returns, leaves
`table_max_size`, `table_current_size`, the destroyer, the heads of the
buckets and the chain of every other bucket as they were, increments
`elements_amount`, and turns the chain of its bucket into the same entries in
the same order followed by one new entry with the key, its hash and the value:
the entry holds the pointer to the buffer of the key, the buffer `brk`, whose
bytes are those of the key.  A put whose bucket is empty first makes the new
entry the head, and the only cell, of that bucket and increments
`table_current_size`, and only then tests whether to resize. -/
theorem dictionary_put_append (D : Nat) (dd : Option Nat) (s : State) (key : List Nat)
    (data : Nat) (hD : 0 < D) (hs : Reachable D dd s) :
    (s.self.elements (dictionary_hash key % s.self.table_max_size) ≠ none →
      ∃ s1, Returns (fun fuel => dictionary_put fuel s key data) s1 ∧
        s1.self.table_max_size = s.self.table_max_size ∧
        s1.self.table_current_size = s.self.table_current_size ∧
        s1.self.data_destroyer = s.self.data_destroyer ∧
        s1.self.elements = s.self.elements ∧
        s1.self.elements_amount = s.self.elements_amount + 1 ∧
        (∀ i, i < s.self.table_max_size → i ≠ dictionary_hash key % s.self.table_max_size →
          bucket_chain s1 i = bucket_chain s i) ∧
        (bucket_chain s1 (dictionary_hash key % s.self.table_max_size)).map payload =
          (bucket_chain s (dictionary_hash key % s.self.table_max_size)).map payload ++
            [(s.brk, dictionary_hash key, data)] ∧
        s1.strings = Function.update s.strings s.brk (some key)) ∧
      (s.self.elements (dictionary_hash key % s.self.table_max_size) = none →
        (put_head_state s key data
            (dictionary_hash key % s.self.table_max_size)).self.elements =
          Function.update s.self.elements (dictionary_hash key % s.self.table_max_size)
            (some s.brk) ∧
        bucket_chain (put_head_state s key data (dictionary_hash key % s.self.table_max_size))
            (dictionary_hash key % s.self.table_max_size) =
          [{ key := s.brk, hashcode := dictionary_hash key, data := data, next := none }] ∧
        (put_head_state s key data
            (dictionary_hash key % s.self.table_max_size)).strings =
          Function.update s.strings s.brk (some key) ∧
        (put_head_state s key data
            (dictionary_hash key % s.self.table_max_size)).self.table_current_size =
          s.self.table_current_size + 1 ∧
        (put_head_state s key data
            (dictionary_hash key % s.self.table_max_size)).self.table_max_size =
          s.self.table_max_size ∧
        ∀ fuel, dictionary_put fuel s key data =
          if s.self.table_max_size ≤ s.self.table_current_size + 1 then
            match dictionary_resize fuel
                (put_head_state s key data (dictionary_hash key % s.self.table_max_size))
                (s.self.table_max_size * 2) with
            | .timeout => .timeout
            | .fault => .fault
            | .ok s2 => .ok (count_element s2)
          else
            .ok (count_element
              (put_head_state s key data (dictionary_hash key % s.self.table_max_size)))) := by
  obtain ⟨B, hB, -, -, -⟩ := hs.sound hD
  obtain ⟨hr, -⟩ := hB
  constructor
  · intro hne
    obtain ⟨index, hindex⟩ : ∃ index, dictionary_hash key % s.self.table_max_size = index :=
      ⟨_, rfl⟩
    have hidx : index < s.self.table_max_size := by
      rw [← hindex]
      exact Nat.mod_lt _ hr.pos
    rcases List.eq_nil_or_concat (B index) with hnil | ⟨l, t, hcat⟩
    · rw [hindex] at hne
      exact absurd ((hr.nil_iff hidx).mp hnil) hne
    · rw [List.concat_eq_append] at hcat
      have hcat2 := hcat
      rw [← hindex] at hcat2
      obtain ⟨et, het, -, hret⟩ := dictionary_put_chain hr key data hcat2
      have hch := put_chain_state_chains hr key data hindex hcat het
      rw [hindex]
      exact ⟨_, hret, rfl, rfl, rfl, rfl, rfl, hch.1, hch.2, rfl⟩
  · intro hel
    have hput := fun fuel => dictionary_put_head fuel s key data hr.pos hel
    obtain ⟨index, hindex⟩ : ∃ index, dictionary_hash key % s.self.table_max_size = index :=
      ⟨_, rfl⟩
    rw [hindex] at hel hput ⊢
    have hidx : index < s.self.table_max_size := by
      rw [← hindex]
      exact Nat.mod_lt _ hr.pos
    have hnil : B index = [] := (hr.nil_iff hidx).mpr hel
    have hr2 := hr.put_head key data hindex hnil
    refine ⟨rfl, ?_, rfl, rfl, rfl, hput⟩
    rw [bucket_chain_eq hr2 hidx, Function.update_same]
    have hb : (put_head_state s key data index).heap s.brk = some (new_cell s.brk key data) := by
      rw [put_head_state_heap, if_pos rfl]
    simp only [List.filterMap_cons, List.filterMap_nil, hb]
    rfl

/-- Instance of C18: a third put of `"a"` on `twice_a` appends to the chain
of the two `"a"`. -/
theorem dictionary_put_append_witness :
    (0 < 20 ∧ Reachable 20 none twice_a) ∧
      twice_a.self.elements (dictionary_hash [97] % twice_a.self.table_max_size) ≠ none ∧
      (bucket_chain twice_a (dictionary_hash [97] % twice_a.self.table_max_size)).map payload =
        [(0, 3392050242, 1), (1, 3392050242, 2)] ∧
      ∃ s1, Returns (fun fuel => dictionary_put fuel twice_a [97] 3) s1 ∧
        (bucket_chain s1 (dictionary_hash [97] % twice_a.self.table_max_size)).map payload =
          (bucket_chain twice_a
            (dictionary_hash [97] % twice_a.self.table_max_size)).map payload ++
            [(twice_a.brk, dictionary_hash [97], 3)] ∧
        s1.strings = Function.update twice_a.strings twice_a.brk (some [97]) := by
  refine ⟨⟨by decide, twice_a_reachable⟩, by decide, by decide, ?_⟩
  obtain ⟨s1, h1, -, -, -, -, -, -, h8, h9⟩ :=
    (dictionary_put_append 20 none twice_a [97] 3 (by decide) twice_a_reachable).1 (by decide)
  exact ⟨s1, h1, h8, h9⟩

/-- C19: on a table made of well-formed, pairwise disjoint chains `B`
whose buckets all have a head, `dictionary_resize` returns exactly when every
chain has one entry; when some chain has another length, that is two entries
or more, it exhausts every loop budget, since the `do/while` never advances
`old_element`.  When it returns, the new table holds exactly the cells of the
old one, each in the bucket `hashcode % new_max_size`, with key, hash and
value unchanged (`Resized`). -/
theorem dictionary_resize_terminates_iff (s : State) (B : Nat → List Nat) (M2 : Nat)
    (hold : OldTable s B) (hM2 : 0 < M2)
    (hall : ∀ i, i < s.self.table_max_size → s.self.elements i ≠ none) :
    ((∃ s1, Returns (fun fuel => dictionary_resize fuel s M2) s1) ↔
        ∀ i, i < s.self.table_max_size → (B i).length = 1) ∧
      ((∃ fuel s1, dictionary_resize fuel s M2 = .ok s1) ↔
        ∀ i, i < s.self.table_max_size → (B i).length = 1) ∧
      ((∃ i, i < s.self.table_max_size ∧ (B i).length ≠ 1) →
        Diverges fun fuel => dictionary_resize fuel s M2) ∧
      ∀ fuel s1, dictionary_resize fuel s M2 = .ok s1 → ∃ NB, Resized s B M2 s1 NB := by
  have hne : ∀ i, i < s.self.table_max_size → B i ≠ [] := fun i hi => hold.ne_nil hi (hall i hi)
  have hok : ∀ fuel s1, dictionary_resize fuel s M2 = .ok s1 →
      (∀ i, i < s.self.table_max_size → (B i).length = 1) ∧ ∃ NB, Resized s B M2 s1 NB := by
    intro fuel s1 hres
    rcases dictionary_resize_total M2 hold hM2 hne with ⟨hone, s2, NB, hr, hret⟩ | ⟨-, hdiv⟩
    · have := hret.of_ok hres
      subst this
      exact ⟨hone, NB, hr⟩
    · have h1 := hdiv fuel
      simp only [] at h1
      rw [h1] at hres
      cases hres
  have hret : (∀ i, i < s.self.table_max_size → (B i).length = 1) →
      ∃ s1, Returns (fun fuel => dictionary_resize fuel s M2) s1 := by
    intro hone
    obtain ⟨s1, NB, -, hr⟩ := dictionary_resize_returns M2 hold hM2 fun i hi =>
      List.length_eq_one.mp (hone i hi)
    exact ⟨s1, hr⟩
  refine ⟨⟨?_, hret⟩, ⟨?_, ?_⟩, ?_, fun fuel s1 hres => (hok fuel s1 hres).2⟩
  · rintro ⟨s1, -, n, hn⟩
    exact (hok n s1 (hn n (Nat.le_refl n))).1
  · rintro ⟨fuel, s1, hres⟩
    exact (hok fuel s1 hres).1
  · intro hone
    obtain ⟨s1, -, n, hn⟩ := hret hone
    exact ⟨n, s1, hn n (Nat.le_refl n)⟩
  · rintro ⟨i, hi, hlen⟩
    rcases dictionary_resize_total M2 hold hM2 hne with ⟨hone, -⟩ | ⟨-, hdiv⟩
    · exact absurd (hone i hi) hlen
    · exact hdiv

/-- Instance of C19: the table of one bucket with one cell is resized. -/
theorem dictionary_resize_terminates_iff_witness :
    (0 < 2 ∧ ∀ i, i < lone_a.self.table_max_size → lone_a.self.elements i ≠ none) ∧
      ∃ s1, Returns (fun fuel => dictionary_resize fuel lone_a 2) s1 :=
  ⟨⟨by decide, by decide⟩,
    (dictionary_resize_terminates_iff lone_a (fun _ => [0]) 2 lone_a_oldTable (by decide)
      (by decide)).1.mpr fun _ _ => rfl⟩

/-- C20: when `dictionary_put` calls `dictionary_resize`, that is, on a
reachable dictionary, for a key whose bucket is empty while all but one of
the buckets are occupied, every bucket of the table handed to
`dictionary_resize` has a head that is an allocated cell, and
`dictionary_resize` never dereferences `NULL` (it never faults). -/
theorem dictionary_resize_heads (D : Nat) (dd : Option Nat) (s : State) (key : List Nat)
    (data : Nat) (hD : 0 < D) (hs : Reachable D dd s)
    (hel : s.self.elements (dictionary_hash key % s.self.table_max_size) = none)
    (hfull : s.self.table_max_size ≤ s.self.table_current_size + 1) :
    (∀ fuel, dictionary_put fuel s key data =
        match dictionary_resize fuel
            (put_head_state s key data (dictionary_hash key % s.self.table_max_size))
            (s.self.table_max_size * 2) with
        | .timeout => .timeout
        | .fault => .fault
        | .ok s2 => .ok (count_element s2)) ∧
      (∀ i, i < s.self.table_max_size → ∃ a e,
        (put_head_state s key data
            (dictionary_hash key % s.self.table_max_size)).self.elements i = some a ∧
          (put_head_state s key data
            (dictionary_hash key % s.self.table_max_size)).heap a = some e) ∧
      ∀ fuel, dictionary_resize fuel
          (put_head_state s key data (dictionary_hash key % s.self.table_max_size))
          (s.self.table_max_size * 2) ≠ .fault := by
  obtain ⟨B, hB, -, -, -⟩ := hs.sound hD
  obtain ⟨hr, -⟩ := hB
  have hput := fun fuel => dictionary_put_head fuel s key data hr.pos hel
  simp only [hfull, if_true] at hput
  obtain ⟨index, hindex⟩ : ∃ index, dictionary_hash key % s.self.table_max_size = index :=
    ⟨_, rfl⟩
  rw [hindex] at hel hput ⊢
  have hidx : index < s.self.table_max_size := by
    rw [← hindex]
    exact Nat.mod_lt _ hr.pos
  have hnil : B index = [] := (hr.nil_iff hidx).mpr hel
  have hr2 := hr.put_head key data hindex hnil
  have hfl := put_head_state_full hr key data hindex hnil hfull
  refine ⟨hput, fun i hi => (hfl i hi).2, fun fuel hf => ?_⟩
  rcases dictionary_resize_total (s.self.table_max_size * 2) hr2.oldTable
      (by have := hr.pos; omega) (fun i hi => (hfl i hi).1) with ⟨-, s2, NB, -, hret⟩ | ⟨-, hdiv⟩
  · rcases hret.1 fuel with h1 | h1
    · simp only [] at h1
      rw [h1] at hf
      cases hf
    · simp only [] at h1
      rw [h1] at hf
      cases hf
  · have h1 := hdiv fuel
    simp only [] at h1
    rw [h1] at hf
    cases hf

/-- Instance of C20: the put of `"K"` on `full19` fills the last empty
bucket and calls `dictionary_resize`, which never faults (it runs forever). -/
theorem dictionary_resize_heads_witness :
    (0 < 20 ∧ Reachable 20 none full19 ∧
        full19.self.elements (dictionary_hash [75] % full19.self.table_max_size) = none ∧
        full19.self.table_max_size ≤ full19.self.table_current_size + 1) ∧
      ∀ fuel, dictionary_resize fuel
          (put_head_state full19 [75] 21 (dictionary_hash [75] % full19.self.table_max_size))
          (full19.self.table_max_size * 2) ≠ .fault :=
  ⟨⟨by decide, full19_reachable, by decide, by decide⟩,
    (dictionary_resize_heads 20 none full19 [75] 21 (by decide) full19_reachable (by decide)
      (by decide)).2.2⟩

end Dictionary
